import Mathlib

/-!
Verification development for the re-spirv SPIR-V specialization library.

The development is a shallow embedding of src/re-spirv.cpp into Lean.  A SPIR-V
module is a list of 32-bit words (natural numbers below 2^32).  Machine
integers are modelled as Nat with explicit reductions modulo 2^32 where the
C++ code relies on unsigned wrap-around; signed 32-bit views are obtained via
an explicit two's-complement conversion.  Any memory access that would be
undefined behaviour in the C++ code (an out-of-bounds vector access, a
division by zero, an oversized shift) is modelled as an error value, and the
unbounded C++ loops are modelled with explicit fuel so that non-termination of
the source code is observable as fuel exhaustion for every fuel value.
-/

namespace ReSpv

/-- Value of UINT32_MAX, used by the source both as a sentinel marking deleted
words and as the "absent" value of many indices. -/
def U32MAX : Nat := 4294967295

/-- Modulus of 32-bit words. -/
def W32 : Nat := 4294967296

-- SPIR-V opcode numbers, from the external SPIRV-Headers tables included by
-- the source (spirv/unified1/spirv.h).  Only values are listed; the source
-- refers to them by the SpvOp enumerators.
def OpNop : Nat := 0
def OpUndef : Nat := 1
def OpSource : Nat := 3
def OpName : Nat := 5
def OpMemberName : Nat := 6
def OpExtension : Nat := 10
def OpExtInstImport : Nat := 11
def OpExtInst : Nat := 12
def OpMemoryModel : Nat := 14
def OpEntryPoint : Nat := 15
def OpExecutionMode : Nat := 16
def OpCapability : Nat := 17
def OpTypeVoid : Nat := 19
def OpTypeBool : Nat := 20
def OpTypeInt : Nat := 21
def OpTypeFloat : Nat := 22
def OpTypeVector : Nat := 23
def OpTypeMatrix : Nat := 24
def OpTypeImage : Nat := 25
def OpTypeSampler : Nat := 26
def OpTypeSampledImage : Nat := 27
def OpTypeArray : Nat := 28
def OpTypeRuntimeArray : Nat := 29
def OpTypeStruct : Nat := 30
def OpTypePointer : Nat := 32
def OpTypeFunction : Nat := 33
def OpConstantTrue : Nat := 41
def OpConstantFalse : Nat := 42
def OpConstant : Nat := 43
def OpConstantComposite : Nat := 44
def OpConstantNull : Nat := 46
def OpSpecConstantTrue : Nat := 48
def OpSpecConstantFalse : Nat := 49
def OpSpecConstant : Nat := 50
def OpFunction : Nat := 54
def OpFunctionParameter : Nat := 55
def OpFunctionEnd : Nat := 56
def OpFunctionCall : Nat := 57
def OpVariable : Nat := 59
def OpLoad : Nat := 61
def OpStore : Nat := 62
def OpAccessChain : Nat := 65
def OpDecorate : Nat := 71
def OpMemberDecorate : Nat := 72
def OpVectorShuffle : Nat := 79
def OpCompositeConstruct : Nat := 80
def OpCompositeExtract : Nat := 81
def OpCompositeInsert : Nat := 82
def OpCopyObject : Nat := 83
def OpTranspose : Nat := 84
def OpSampledImage : Nat := 86
def OpImageSampleImplicitLod : Nat := 87
def OpImageSampleExplicitLod : Nat := 88
def OpImageSampleDrefImplicitLod : Nat := 89
def OpImageSampleDrefExplicitLod : Nat := 90
def OpImageSampleProjImplicitLod : Nat := 91
def OpImageSampleProjExplicitLod : Nat := 92
def OpImageSampleProjDrefImplicitLod : Nat := 93
def OpImageSampleProjDrefExplicitLod : Nat := 94
def OpImageFetch : Nat := 95
def OpImageGather : Nat := 96
def OpImageDrefGather : Nat := 97
def OpImageRead : Nat := 98
def OpImageWrite : Nat := 99
def OpImage : Nat := 100
def OpImageQuerySizeLod : Nat := 103
def OpImageQueryLevels : Nat := 106
def OpConvertFToU : Nat := 109
def OpConvertFToS : Nat := 110
def OpConvertSToF : Nat := 111
def OpConvertUToF : Nat := 112
def OpBitcast : Nat := 124
def OpSNegate : Nat := 126
def OpFNegate : Nat := 127
def OpIAdd : Nat := 128
def OpFAdd : Nat := 129
def OpISub : Nat := 130
def OpFSub : Nat := 131
def OpIMul : Nat := 132
def OpFMul : Nat := 133
def OpUDiv : Nat := 134
def OpSDiv : Nat := 135
def OpFDiv : Nat := 136
def OpUMod : Nat := 137
def OpSRem : Nat := 138
def OpSMod : Nat := 139
def OpFRem : Nat := 140
def OpFMod : Nat := 141
def OpVectorTimesScalar : Nat := 142
def OpMatrixTimesScalar : Nat := 143
def OpVectorTimesMatrix : Nat := 144
def OpMatrixTimesVector : Nat := 145
def OpMatrixTimesMatrix : Nat := 146
def OpOuterProduct : Nat := 147
def OpDot : Nat := 148
def OpIAddCarry : Nat := 149
def OpISubBorrow : Nat := 150
def OpUMulExtended : Nat := 151
def OpSMulExtended : Nat := 152
def OpAny : Nat := 154
def OpAll : Nat := 155
def OpLogicalEqual : Nat := 164
def OpLogicalNotEqual : Nat := 165
def OpLogicalOr : Nat := 166
def OpLogicalAnd : Nat := 167
def OpLogicalNot : Nat := 168
def OpSelect : Nat := 169
def OpIEqual : Nat := 170
def OpINotEqual : Nat := 171
def OpUGreaterThan : Nat := 172
def OpSGreaterThan : Nat := 173
def OpUGreaterThanEqual : Nat := 174
def OpSGreaterThanEqual : Nat := 175
def OpULessThan : Nat := 176
def OpSLessThan : Nat := 177
def OpULessThanEqual : Nat := 178
def OpSLessThanEqual : Nat := 179
def OpFOrdEqual : Nat := 180
def OpFUnordEqual : Nat := 181
def OpFOrdNotEqual : Nat := 182
def OpFUnordNotEqual : Nat := 183
def OpFOrdLessThan : Nat := 184
def OpFUnordLessThan : Nat := 185
def OpFOrdGreaterThan : Nat := 186
def OpFUnordGreaterThan : Nat := 187
def OpFOrdLessThanEqual : Nat := 188
def OpFUnordLessThanEqual : Nat := 189
def OpFOrdGreaterThanEqual : Nat := 190
def OpFUnordGreaterThanEqual : Nat := 191
def OpShiftRightLogical : Nat := 194
def OpShiftRightArithmetic : Nat := 195
def OpShiftLeftLogical : Nat := 196
def OpBitwiseOr : Nat := 197
def OpBitwiseXor : Nat := 198
def OpBitwiseAnd : Nat := 199
def OpNot : Nat := 200
def OpBitFieldInsert : Nat := 201
def OpBitFieldSExtract : Nat := 202
def OpBitFieldUExtract : Nat := 203
def OpBitReverse : Nat := 204
def OpBitCount : Nat := 205
def OpDPdx : Nat := 207
def OpDPdy : Nat := 208
def OpFwidth : Nat := 209
def OpPhi : Nat := 245
def OpLoopMerge : Nat := 246
def OpSelectionMerge : Nat := 247
def OpLabel : Nat := 248
def OpBranch : Nat := 249
def OpBranchConditional : Nat := 250
def OpSwitch : Nat := 251
def OpKill : Nat := 252
def OpReturn : Nat := 253
def OpReturnValue : Nat := 254
def OpUnreachable : Nat := 255
def OpCopyLogical : Nat := 400

/-- SpvMagicNumber from the SPIRV-Headers. -/
def SpvMagicNumber : Nat := 119734787

/-- SpvVersion from the SPIRV-Headers used to build the source; the exact
value only bounds the accepted version word. -/
def SpvVersion : Nat := 67072

/-- SpvDecorationSpecId from the SPIRV-Headers. -/
def SpvDecorationSpecId : Nat := 1

/-- Error type; one constructor per distinct failure site of the source.  The
source reports failures with a stderr message and a false return value; the
constructors follow those messages.  Constructors oob, divByZero, intOverflow
and shiftOverflow model executions that are undefined behaviour in the C++
source (out-of-bounds vector accesses, integer division by zero, signed
division overflow, oversized shift counts); noFuel models an execution whose
loop did not terminate within the provided fuel. -/
inductive Err where
  | shortInput
  | badMagic
  | badVersion
  | invalidResultId
  | unsupportedOpcode
  | invalidTypeId
  | undefinedId
  | invalidOperand
  | invalidParent
  | missingSwitchConstant
  | specTooFewWords
  | specValueCountMismatch
  | cantPatchOpcode
  | unresolvedOperand
  | phiWithoutLabel
  | divByZero
  | intOverflow
  | shiftOverflow
  | oob
  | noFuel
deriving Repr, DecidableEq

/-- Read a word; an out-of-bounds vector read is undefined behaviour in the
source and maps to the oob error. -/
def wGet (l : List Nat) (i : Nat) : Except Err Nat :=
  match l.get? i with
  | some v => .ok v
  | none => .error .oob

/-- Write a word; an out-of-bounds vector write is undefined behaviour in the
source and maps to the oob error. -/
def wSet (l : List Nat) (i : Nat) (v : Nat) : Except Err (List Nat) :=
  if i < l.length then .ok (l.set i v) else .error .oob

/-- Opcode field of an instruction head word (low 16 bits). -/
def opOf (w : Nat) : Nat := w % 65536

/-- Word-count field of an instruction head word (high 16 bits). -/
def wcOf (w : Nat) : Nat := (w / 65536) % 65536

/-- Two's-complement signed view of a 32-bit pattern. -/
def toInt32 (v : Nat) : Int :=
  if v < 2147483648 then (v : Int) else (v : Int) - (W32 : Int)

/-- Pattern of a signed value, reduced into 32 bits. -/
def ofInt32 (i : Int) : Nat := (i % (W32 : Int)).toNat

/-- Truncating (round toward zero) division of signed values, matching the
semantics of the C++ division operator on int32_t. -/
def tdiv32 (a b : Int) : Int :=
  if (a < 0) = (b < 0) then (a.natAbs / b.natAbs : Nat)
  else -((a.natAbs / b.natAbs : Nat) : Int)

/-- Closed set of opcodes handled by the library (SpvIsSupported in the
source); anything else aborts parsing. -/
def SpvIsSupported (op : Nat) : Bool :=
  [OpUndef, OpSource, OpName, OpMemberName, OpExtension, OpExtInstImport,
   OpExtInst, OpMemoryModel, OpEntryPoint, OpExecutionMode, OpCapability,
   OpTypeVoid, OpTypeBool, OpTypeInt, OpTypeFloat, OpTypeVector, OpTypeMatrix,
   OpTypeImage, OpTypeSampler, OpTypeSampledImage, OpTypeArray,
   OpTypeRuntimeArray, OpTypeStruct, OpTypePointer, OpTypeFunction,
   OpConstantTrue, OpConstantFalse, OpConstant, OpConstantComposite,
   OpConstantNull, OpSpecConstant, OpFunction, OpFunctionParameter,
   OpFunctionEnd, OpFunctionCall, OpVariable, OpLoad, OpStore, OpAccessChain,
   OpDecorate, OpMemberDecorate, OpVectorShuffle, OpCompositeConstruct,
   OpCompositeExtract, OpCompositeInsert, OpCopyObject, OpTranspose,
   OpSampledImage, OpImageSampleImplicitLod, OpImageSampleExplicitLod,
   OpImageSampleDrefImplicitLod, OpImageSampleDrefExplicitLod,
   OpImageSampleProjImplicitLod, OpImageSampleProjExplicitLod,
   OpImageSampleProjDrefImplicitLod, OpImageSampleProjDrefExplicitLod,
   OpImageFetch, OpImageGather, OpImageDrefGather, OpImageRead, OpImageWrite,
   OpImage, OpImageQuerySizeLod, OpImageQueryLevels, OpConvertFToU,
   OpConvertFToS, OpConvertSToF, OpConvertUToF, OpBitcast, OpSNegate,
   OpFNegate, OpIAdd, OpFAdd, OpISub, OpFSub, OpIMul, OpFMul, OpUDiv, OpSDiv,
   OpFDiv, OpUMod, OpSRem, OpSMod, OpFRem, OpFMod, OpVectorTimesScalar,
   OpMatrixTimesScalar, OpVectorTimesMatrix, OpMatrixTimesVector,
   OpMatrixTimesMatrix, OpOuterProduct, OpDot, OpIAddCarry, OpISubBorrow,
   OpUMulExtended, OpSMulExtended, OpAny, OpAll, OpLogicalEqual,
   OpLogicalNotEqual, OpLogicalOr, OpLogicalAnd, OpLogicalNot, OpSelect,
   OpIEqual, OpINotEqual, OpUGreaterThan, OpSGreaterThan, OpUGreaterThanEqual,
   OpSGreaterThanEqual, OpULessThan, OpSLessThan, OpULessThanEqual,
   OpSLessThanEqual, OpFOrdEqual, OpFUnordEqual, OpFOrdNotEqual,
   OpFUnordNotEqual, OpFOrdLessThan, OpFUnordLessThan, OpFOrdGreaterThan,
   OpFUnordGreaterThan, OpFOrdLessThanEqual, OpFUnordLessThanEqual,
   OpFOrdGreaterThanEqual, OpFUnordGreaterThanEqual, OpShiftRightLogical,
   OpShiftRightArithmetic, OpShiftLeftLogical, OpBitwiseOr, OpBitwiseXor,
   OpBitwiseAnd, OpNot, OpBitFieldInsert, OpBitFieldSExtract,
   OpBitFieldUExtract, OpBitReverse, OpBitCount, OpDPdx, OpDPdy, OpFwidth,
   OpPhi, OpLoopMerge, OpSelectionMerge, OpLabel, OpBranch,
   OpBranchConditional, OpSwitch, OpKill, OpReturn, OpReturnValue,
   OpUnreachable, OpCopyLogical].contains op

/-- Metadata opcodes stripped during compaction (SpvIsIgnored in the
source). -/
def SpvIsIgnored (op : Nat) : Bool :=
  [OpSource, OpName, OpMemberName].contains op

/-- Modelled from the external SPIR-V specification: the SpvHasResultAndType
utility of the SPIRV-Headers, which the source includes and queries; it is not
part of this repository.  Returns (hasResult, hasType) for the opcodes the
library can meet; unknown opcodes have neither. -/
def SpvHasResultAndType (op : Nat) : Bool × Bool :=
  if [OpUndef, OpExtInst, OpConstantTrue, OpConstantFalse, OpConstant,
      OpConstantComposite, OpConstantNull, OpSpecConstantTrue,
      OpSpecConstantFalse, OpSpecConstant, OpFunction, OpFunctionParameter,
      OpFunctionCall, OpVariable, OpLoad, OpAccessChain, OpVectorShuffle,
      OpCompositeConstruct, OpCompositeExtract, OpCompositeInsert,
      OpCopyObject, OpTranspose, OpSampledImage, OpImageSampleImplicitLod,
      OpImageSampleExplicitLod, OpImageSampleDrefImplicitLod,
      OpImageSampleDrefExplicitLod, OpImageSampleProjImplicitLod,
      OpImageSampleProjExplicitLod, OpImageSampleProjDrefImplicitLod,
      OpImageSampleProjDrefExplicitLod, OpImageFetch, OpImageGather,
      OpImageDrefGather, OpImageRead, OpImage, OpImageQuerySizeLod,
      OpImageQueryLevels, OpConvertFToU, OpConvertFToS, OpConvertSToF,
      OpConvertUToF, OpBitcast, OpSNegate, OpFNegate, OpIAdd, OpFAdd, OpISub,
      OpFSub, OpIMul, OpFMul, OpUDiv, OpSDiv, OpFDiv, OpUMod, OpSRem, OpSMod,
      OpFRem, OpFMod, OpVectorTimesScalar, OpMatrixTimesScalar,
      OpVectorTimesMatrix, OpMatrixTimesVector, OpMatrixTimesMatrix,
      OpOuterProduct, OpDot, OpIAddCarry, OpISubBorrow, OpUMulExtended,
      OpSMulExtended, OpAny, OpAll, OpLogicalEqual, OpLogicalNotEqual,
      OpLogicalOr, OpLogicalAnd, OpLogicalNot, OpSelect, OpIEqual,
      OpINotEqual, OpUGreaterThan, OpSGreaterThan, OpUGreaterThanEqual,
      OpSGreaterThanEqual, OpULessThan, OpSLessThan, OpULessThanEqual,
      OpSLessThanEqual, OpFOrdEqual, OpFUnordEqual, OpFOrdNotEqual,
      OpFUnordNotEqual, OpFOrdLessThan, OpFUnordLessThan, OpFOrdGreaterThan,
      OpFUnordGreaterThan, OpFOrdLessThanEqual, OpFUnordLessThanEqual,
      OpFOrdGreaterThanEqual, OpFUnordGreaterThanEqual, OpShiftRightLogical,
      OpShiftRightArithmetic, OpShiftLeftLogical, OpBitwiseOr, OpBitwiseXor,
      OpBitwiseAnd, OpNot, OpBitFieldInsert, OpBitFieldSExtract,
      OpBitFieldUExtract, OpBitReverse, OpBitCount, OpDPdx, OpDPdy, OpFwidth,
      OpPhi, OpCopyLogical].contains op then
    (true, true)
  else if [OpExtInstImport, OpTypeVoid, OpTypeBool, OpTypeInt, OpTypeFloat,
      OpTypeVector, OpTypeMatrix, OpTypeImage, OpTypeSampler,
      OpTypeSampledImage, OpTypeArray, OpTypeRuntimeArray, OpTypeStruct,
      OpTypePointer, OpTypeFunction, OpLabel].contains op then
    (true, false)
  else
    (false, false)

/-- Operand layout of an opcode (SpvHasOperands in the source): start word,
count, stride between operands, an optional relative index to skip and
whether the skipped operand is a null-terminated string.  Count U32MAX means
every remaining word. -/
structure OperandLayout where
  start : Nat
  count : Nat
  stride : Nat
  skip : Nat
  skipString : Bool
deriving Repr, DecidableEq

/-- Translation of SpvHasOperands from the source. -/
def SpvHasOperands (op : Nat) : Option OperandLayout :=
  if [OpExecutionMode, OpDecorate, OpMemberDecorate, OpBranchConditional,
      OpSwitch, OpReturnValue].contains op then
    some ⟨1, 1, 1, U32MAX, false⟩
  else if op = OpStore then
    some ⟨1, 2, 1, U32MAX, false⟩
  else if [OpTypeVector, OpTypeImage, OpTypeSampledImage,
      OpTypeRuntimeArray].contains op then
    some ⟨2, 1, 1, U32MAX, false⟩
  else if op = OpTypeArray then
    some ⟨2, 2, 1, U32MAX, false⟩
  else if [OpTypeStruct, OpTypeFunction].contains op then
    some ⟨2, U32MAX, 1, U32MAX, false⟩
  else if op = OpEntryPoint then
    some ⟨2, U32MAX, 1, 1, true⟩
  else if [OpTypePointer, OpLoad, OpCompositeExtract, OpCopyObject,
      OpTranspose, OpImage, OpImageQueryLevels, OpConvertFToU, OpConvertFToS,
      OpConvertSToF, OpConvertUToF, OpBitcast, OpSNegate, OpFNegate, OpAny,
      OpAll, OpLogicalNot, OpNot, OpBitReverse, OpBitCount, OpDPdx, OpDPdy,
      OpFwidth, OpCopyLogical].contains op then
    some ⟨3, 1, 1, U32MAX, false⟩
  else if [OpVectorShuffle, OpCompositeInsert, OpSampledImage,
      OpImageQuerySizeLod, OpIAdd, OpFAdd, OpISub, OpFSub, OpIMul, OpFMul,
      OpUDiv, OpSDiv, OpFDiv, OpUMod, OpSRem, OpSMod, OpFRem, OpFMod,
      OpVectorTimesScalar, OpMatrixTimesScalar, OpVectorTimesMatrix,
      OpMatrixTimesVector, OpMatrixTimesMatrix, OpOuterProduct, OpDot,
      OpIAddCarry, OpISubBorrow, OpUMulExtended, OpSMulExtended,
      OpLogicalEqual, OpLogicalNotEqual, OpLogicalOr, OpLogicalAnd, OpIEqual,
      OpINotEqual, OpUGreaterThan, OpSGreaterThan, OpUGreaterThanEqual,
      OpSGreaterThanEqual, OpULessThan, OpSLessThan, OpULessThanEqual,
      OpSLessThanEqual, OpFOrdEqual, OpFUnordEqual, OpFOrdNotEqual,
      OpFUnordNotEqual, OpFOrdLessThan, OpFUnordLessThan, OpFOrdGreaterThan,
      OpFUnordGreaterThan, OpFOrdLessThanEqual, OpFUnordLessThanEqual,
      OpFOrdGreaterThanEqual, OpFUnordGreaterThanEqual, OpShiftRightLogical,
      OpShiftRightArithmetic, OpShiftLeftLogical, OpBitwiseOr, OpBitwiseAnd,
      OpBitwiseXor].contains op then
    some ⟨3, 2, 1, U32MAX, false⟩
  else if [OpSelect, OpBitFieldSExtract, OpBitFieldUExtract].contains op then
    some ⟨3, 3, 1, U32MAX, false⟩
  else if op = OpBitFieldInsert then
    some ⟨3, 4, 1, U32MAX, false⟩
  else if [OpConstantComposite, OpFunctionCall, OpAccessChain,
      OpCompositeConstruct].contains op then
    some ⟨3, U32MAX, 1, U32MAX, false⟩
  else if op = OpExtInst then
    some ⟨3, U32MAX, 1, 1, false⟩
  else if op = OpImageWrite then
    some ⟨1, U32MAX, 1, 3, false⟩
  else if [OpImageSampleImplicitLod, OpImageSampleExplicitLod,
      OpImageSampleProjImplicitLod, OpImageSampleProjExplicitLod,
      OpImageFetch, OpImageRead].contains op then
    some ⟨3, U32MAX, 1, 2, false⟩
  else if [OpImageSampleDrefImplicitLod, OpImageSampleDrefExplicitLod,
      OpImageSampleProjDrefImplicitLod, OpImageSampleProjDrefExplicitLod,
      OpImageGather, OpImageDrefGather].contains op then
    some ⟨3, U32MAX, 1, 3, false⟩
  else if op = OpPhi then
    some ⟨3, U32MAX, 2, U32MAX, false⟩
  else if [OpFunction, OpVariable].contains op then
    some ⟨4, 1, 1, U32MAX, false⟩
  else
    none

/-- Label-operand layout of an opcode (SpvHasLabels in the source): start
word, count and stride. -/
def SpvHasLabels (op : Nat) : Option (Nat × Nat × Nat) :=
  if [OpSelectionMerge, OpBranch].contains op then some (1, 1, 1)
  else if op = OpLoopMerge then some (1, 2, 1)
  else if op = OpBranchConditional then some (2, 2, 1)
  else if op = OpSwitch then some (2, U32MAX, 2)
  else none

/-- Terminator opcodes (SpvOpIsTerminator in the source). -/
def SpvOpIsTerminator (op : Nat) : Bool :=
  [OpBranch, OpBranchConditional, OpSwitch, OpReturn, OpReturnValue, OpKill,
   OpUnreachable].contains op

/-- Byte of the word buffer at a byte offset, little endian, as read by the
strlen call of the source through a char pointer into the word buffer. -/
def byteAt (words : List Nat) (byteIdx : Nat) : Except Err Nat := do
  let w ← wGet words (byteIdx / 4)
  pure ((w / 256 ^ (byteIdx % 4)) % 256)

/-- Length of the null-terminated string starting at the given byte offset;
running past the buffer without meeting a null byte is undefined behaviour of
the strlen call in the source. -/
def strlenAt (words : List Nat) (byteIdx : Nat) (fuel : Nat) : Except Err Nat :=
  match fuel with
  | 0 => .error .noFuel
  | fuel + 1 => do
    let b ← byteAt words byteIdx
    if b = 0 then pure 0
    else do
      let rest ← strlenAt words (byteIdx + 1) fuel
      pure (rest + 1)

/-- Translation of checkOperandWordSkip from the source: decides whether the
relative operand index is the skipped one and advances the operand word index
across it (one word, or the whole string for the OpEntryPoint name).  The
returned Bool mirrors the C++ return value. -/
def checkOperandWordSkip (wordIndex : Nat) (words : List Nat)
    (relativeWordIndex operandWordSkip : Nat) (operandWordSkipString : Bool)
    (operandWordIndex : Nat) : Except Err (Bool × Nat) := do
  if relativeWordIndex = operandWordSkip then
    if operandWordSkipString then do
      let len ← strlenAt words (4 * (wordIndex + operandWordIndex))
        (4 * words.length + 8)
      pure (true, operandWordIndex + (len + 4) / 4)
    else
      pure (true, operandWordIndex + 1)
  else
    pure (false, operandWordIndex)

/-- Instruction record: word offset of the instruction and the head of its
adjacency list (U32MAX when empty). -/
structure Instruction where
  wordIndex : Nat := U32MAX
  adjacentListIndex : Nat := U32MAX
deriving Repr, DecidableEq

/-- Result record: index of the producing instruction, U32MAX when the id is
not produced. -/
structure Result where
  instructionIndex : Nat := U32MAX
deriving Repr, DecidableEq

/-- Node of the intrusive adjacency lists. -/
structure ListNode where
  instructionIndex : Nat
  nextListIndex : Nat
deriving Repr, DecidableEq

/-- Specialization table entry: producing instruction of the constant and the
SpecId decoration instruction. -/
structure Specialization where
  constantInstructionIndex : Nat := U32MAX
  decorationInstructionIndex : Nat := U32MAX
deriving Repr, DecidableEq

/-- Shader model built by parse, following the fields the implementation file
uses. -/
structure Shader where
  spirvWords : List Nat := []
  instructions : List Instruction := []
  instructionInDegrees : List Nat := []
  instructionOutDegrees : List Nat := []
  instructionOrder : List Nat := []
  results : List Result := []
  specializations : List Specialization := []
  decorations : List Nat := []
  phis : List Nat := []
  listNodes : List ListNode := []
  defaultSwitchOpConstantInt : Nat := U32MAX
deriving Repr, DecidableEq, Inhabited

/-- Translation of Shader::empty from the source. -/
def Shader.empty (_ : Shader) : Bool := false

/-- Lookup in the instruction table; out of bounds is undefined behaviour in
the source. -/
def instrGet (l : List Instruction) (i : Nat) : Except Err Instruction :=
  match l.get? i with
  | some v => .ok v
  | none => .error .oob

/-- State accumulated by the first parsing pass. -/
structure ParseState where
  instructions : List Instruction
  results : List Result
  decorations : List Nat
  phis : List Nat
deriving Repr, DecidableEq

/-- Instruction-walking loop of Shader::parseWords.  The C++ loop advances by
the word count of each instruction with no progress check, so an instruction
whose word-count field is zero makes it loop forever; the fuel makes that
observable as noFuel for every fuel value. -/
def parseWordsLoop (words : List Nat) (fuel wordIndex : Nat) (st : ParseState) :
    Except Err ParseState :=
  match fuel with
  | 0 => .error .noFuel
  | fuel + 1 =>
    if wordIndex < words.length then do
      let w ← wGet words wordIndex
      let opCode := opOf w
      let wordCount := wcOf w
      let rt := SpvHasResultAndType opCode
      let st ←
        if rt.1 then do
          let resultId ← wGet words (wordIndex + (if rt.2 then 2 else 1))
          if st.results.length ≤ resultId then
            throw Err.invalidResultId
          else
            pure { st with
              results := st.results.set resultId ⟨st.instructions.length⟩ }
        else
          pure st
      let st :=
        if opCode = OpDecorate ∨ opCode = OpMemberDecorate then
          { st with decorations := st.decorations ++ [st.instructions.length] }
        else if opCode = OpPhi then
          { st with phis := st.phis ++ [st.instructions.length] }
        else st
      let st := { st with instructions := st.instructions ++ [⟨wordIndex, U32MAX⟩] }
      parseWordsLoop words fuel (wordIndex + wordCount) st
    else
      pure st

/-- Translation of Shader::parseWords: header validation followed by the
instruction walk. -/
def Shader.parseWords (words : List Nat) : Except Err Shader :=
  if words.length < 5 then throw Err.shortInput
  else do
    let w0 ← wGet words 0
    if w0 ≠ SpvMagicNumber then throw Err.badMagic
    else do
      let w1 ← wGet words 1
      if SpvVersion < w1 then throw Err.badVersion
      else do
        let idBound ← wGet words 3
        let st ← parseWordsLoop words (words.length + 1) 5
          ⟨[], List.replicate idBound ⟨U32MAX⟩, [], []⟩
        pure { spirvWords := words, instructions := st.instructions,
               results := st.results, decorations := st.decorations,
               phis := st.phis }

/-- State threaded through Shader::process. -/
structure ProcessState where
  sh : Shader
  foundOpSwitch : Bool
deriving Repr, DecidableEq

/-- Translation of Shader::addToList combined with the assignment done at
every call site: appends a node carrying nodeTarget whose next pointer is the
current head of owner's adjacency list, and makes it the new head. -/
def addAdj (st : ProcessState) (owner nodeTarget : Nat) :
    Except Err ProcessState := do
  let ins ← instrGet st.sh.instructions owner
  let nodeIdx := st.sh.listNodes.length
  let nodes := st.sh.listNodes ++ [⟨nodeTarget, ins.adjacentListIndex⟩]
  let instrs := st.sh.instructions.set owner
    { ins with adjacentListIndex := nodeIdx }
  pure { st with sh := { st.sh with listNodes := nodes, instructions := instrs } }

/-- Operand-registration loop of Shader::process for one instruction: every
non-skipped, in-range operand id must be in bounds and defined, and the
operand's producer gains this instruction in its adjacency list. -/
def processOperandsLoop (words : List Nat) (i wordIndex wordCount : Nat)
    (lay : OperandLayout) (fuel j operandWordIndex : Nat) (st : ProcessState) :
    Except Err ProcessState :=
  match fuel with
  | 0 => .error .noFuel
  | fuel + 1 =>
    if j < lay.count then do
      let skip ← checkOperandWordSkip wordIndex words j lay.skip lay.skipString
        operandWordIndex
      if skip.1 then
        processOperandsLoop words i wordIndex wordCount lay fuel (j + 1) skip.2 st
      else if wordCount ≤ operandWordIndex then
        pure st
      else do
        let operandId ← wGet words (wordIndex + operandWordIndex)
        if st.sh.results.length ≤ operandId then throw Err.invalidOperand
        else if (st.sh.results.getD operandId ⟨U32MAX⟩).instructionIndex =
            U32MAX then throw Err.undefinedId
        else do
          let st ← addAdj st
            (st.sh.results.getD operandId ⟨U32MAX⟩).instructionIndex i
          processOperandsLoop words i wordIndex wordCount lay fuel (j + 1)
            (operandWordIndex + lay.stride) st
    else
      pure st

/-- Label-registration loop of Shader::process for one instruction: every
in-range label id must be in bounds and defined, and this instruction gains
the label's instruction in its adjacency list. -/
def processLabelsLoop (words : List Nat) (i wordIndex wordCount ls lc lstr : Nat)
    (fuel j : Nat) (st : ProcessState) : Except Err ProcessState :=
  match fuel with
  | 0 => .error .noFuel
  | fuel + 1 =>
    if j < lc ∧ ls + j * lstr < wordCount then do
      let labelId ← wGet words (wordIndex + ls + j * lstr)
      if st.sh.results.length ≤ labelId then throw Err.invalidOperand
      else if (st.sh.results.getD labelId ⟨U32MAX⟩).instructionIndex =
          U32MAX then throw Err.undefinedId
      else do
        let st ← addAdj st i (st.sh.results.getD labelId ⟨U32MAX⟩).instructionIndex
        processLabelsLoop words i wordIndex wordCount ls lc lstr fuel (j + 1) st
    else
      pure st

/-- Parent-label loop of Shader::process for OpPhi: each parent label id must
be in bounds and defined, and the label's instruction gains the phi in its
adjacency list. -/
def processPhiParentsLoop (words : List Nat) (i wordIndex wordCount : Nat)
    (fuel j : Nat) (st : ProcessState) : Except Err ProcessState :=
  match fuel with
  | 0 => .error .noFuel
  | fuel + 1 =>
    if j < wordCount then do
      let labelId ← wGet words (wordIndex + j + 1)
      if st.sh.results.length ≤ labelId then throw Err.invalidParent
      else if (st.sh.results.getD labelId ⟨U32MAX⟩).instructionIndex =
          U32MAX then throw Err.invalidParent
      else do
        let st ← addAdj st (st.sh.results.getD labelId ⟨U32MAX⟩).instructionIndex i
        processPhiParentsLoop words i wordIndex wordCount fuel (j + 2) st
    else
      pure st

/-- Pad the specialization table to the requested size with default entries,
as done by the resize call in Shader::process. -/
def extendSpecs (l : List Specialization) (n : Nat) : List Specialization :=
  l ++ List.replicate (n - l.length) ⟨U32MAX, U32MAX⟩

/-- Type-operand handling of Shader::process for one instruction: the type id
must be in bounds and defined, the type's producer gains this instruction in
its adjacency list, and the first OpConstant of integer type is remembered as
the default switch constant. -/
def processTypeEdge (words : List Nat) (i wordIndex opCode : Nat)
    (st : ProcessState) : Except Err ProcessState :=
  if (SpvHasResultAndType opCode).2 then do
    let typeId ← wGet words (wordIndex + 1)
    if st.sh.results.length ≤ typeId then throw Err.invalidTypeId
    else if (st.sh.results.getD typeId ⟨U32MAX⟩).instructionIndex = U32MAX then
      throw Err.undefinedId
    else do
      let st ← addAdj st (st.sh.results.getD typeId ⟨U32MAX⟩).instructionIndex i
      if opCode = OpConstant ∧ st.sh.defaultSwitchOpConstantInt = U32MAX then do
        let tIns ← instrGet st.sh.instructions
          (st.sh.results.getD typeId ⟨U32MAX⟩).instructionIndex
        let tw ← wGet words tIns.wordIndex
        if opOf tw = OpTypeInt then do
          let v ← wGet words (wordIndex + 2)
          pure { st with sh := { st.sh with defaultSwitchOpConstantInt := v } }
        else
          pure st
      else
        pure st
  else
    pure st

/-- Tail of Shader::process for one instruction: phi parent edges, SpecId
decorations, and the switch flag. -/
def processSpecialForms (words : List Nat) (i wordIndex wordCount opCode : Nat)
    (st : ProcessState) : Except Err ProcessState :=
  if opCode = OpPhi then
    processPhiParentsLoop words i wordIndex wordCount (wordCount + 2) 3 st
  else if opCode = OpDecorate then do
    let deco ← wGet words (wordIndex + 2)
    if deco = SpvDecorationSpecId then do
      let resultId ← wGet words (wordIndex + 1)
      let constantId ← wGet words (wordIndex + 3)
      if st.sh.results.length ≤ resultId then throw Err.invalidOperand
      else if (st.sh.results.getD resultId ⟨U32MAX⟩).instructionIndex =
          U32MAX then throw Err.undefinedId
      else
        let specs := (extendSpecs st.sh.specializations (constantId + 1)).set
          constantId ⟨(st.sh.results.getD resultId ⟨U32MAX⟩).instructionIndex, i⟩
        pure { st with sh := { st.sh with specializations := specs } }
    else
      pure st
  else if opCode = OpSwitch then
    pure { st with foundOpSwitch := true }
  else
    pure st

/-- Operand-edge registration of Shader::process for one instruction, for
opcodes that have an operand layout. -/
def runOperandEdges (words : List Nat) (i wordIndex wordCount opCode : Nat)
    (st : ProcessState) : Except Err ProcessState :=
  match SpvHasOperands opCode with
  | some lay =>
    processOperandsLoop words i wordIndex wordCount lay (wordCount + 2) 0
      lay.start st
  | none => pure st

/-- Label-edge registration of Shader::process for one instruction, for
opcodes that have a label layout. -/
def runLabelEdges (words : List Nat) (i wordIndex wordCount opCode : Nat)
    (st : ProcessState) : Except Err ProcessState :=
  match SpvHasLabels opCode with
  | some (ls, lc, lstr) =>
    processLabelsLoop words i wordIndex wordCount ls lc lstr (wordCount + 2)
      0 st
  | none => pure st

/-- Processing of one instruction in Shader::process: supported-opcode check,
type edge and default switch constant, operand edges, label edges, and the
special forms. -/
def processInstruction (words : List Nat) (i : Nat) (st : ProcessState) :
    Except Err ProcessState := do
  let ins ← instrGet st.sh.instructions i
  let w ← wGet words ins.wordIndex
  if ¬ SpvIsSupported (opOf w) then throw Err.unsupportedOpcode
  else do
    let st ← processTypeEdge words i ins.wordIndex (opOf w) st
    let st ← runOperandEdges words i ins.wordIndex (wcOf w) (opOf w) st
    let st ← runLabelEdges words i ins.wordIndex (wcOf w) (opOf w) st
    processSpecialForms words i ins.wordIndex (wcOf w) (opOf w) st

/-- Loop of Shader::process over all instructions. -/
def processLoop (words : List Nat) (n fuel i : Nat) (st : ProcessState) :
    Except Err ProcessState :=
  match fuel with
  | 0 => .error .noFuel
  | fuel + 1 =>
    if i < n then do
      let st ← processInstruction words i st
      processLoop words n fuel (i + 1) st
    else
      pure st

/-- Translation of Shader::process. -/
def Shader.process (sh : Shader) : Except Err Shader := do
  let n := sh.instructions.length
  let st ← processLoop sh.spirvWords n (n + 1) 0 ⟨sh, false⟩
  if st.foundOpSwitch ∧ st.sh.defaultSwitchOpConstantInt = U32MAX then
    throw Err.missingSwitchConstant
  else
    pure st.sh

/-- Walk an adjacency list starting at a head index, collecting the adjacent
instruction indices in traversal order (most recently added first). -/
def walkAdj (nodes : List ListNode) (fuel listIndex : Nat) :
    Except Err (List Nat) :=
  match fuel with
  | 0 => .error .noFuel
  | fuel + 1 =>
    if listIndex = U32MAX then pure []
    else
      match nodes.get? listIndex with
      | none => .error .oob
      | some node => do
        let rest ← walkAdj nodes fuel node.nextListIndex
        pure (node.instructionIndex :: rest)

/-- Decrement of a uint32_t counter, wrapping at zero as the source would. -/
def decU32 (d : Nat) : Nat := if d = 0 then U32MAX else d - 1

/-- Increment of a uint32_t counter. -/
def incU32 (d : Nat) : Nat := (d + 1) % W32

/-- Degree-counting loop of Shader::sort: walking every adjacency list once,
bumping the in-degree of each target and the out-degree of the owner. -/
def degreesLoop (instrs : List Instruction) (nodes : List ListNode)
    (fuel i : Nat) (inDeg outDeg : List Nat) :
    Except Err (List Nat × List Nat) :=
  match fuel with
  | 0 => .error .noFuel
  | fuel + 1 =>
    if i < instrs.length then do
      let ins ← instrGet instrs i
      let targets ← walkAdj nodes (nodes.length + 1) ins.adjacentListIndex
      let inDeg ← targets.foldlM (fun acc t => do
        let d ← wGet acc t
        wSet acc t (incU32 d)) inDeg
      let outDeg ← targets.foldlM (fun acc _ => do
        let d ← wGet acc i
        wSet acc i (incU32 d)) outDeg
      degreesLoop instrs nodes fuel (i + 1) inDeg outDeg
    else
      pure (inDeg, outDeg)

/-- Kahn loop of Shader::sort: repeatedly pop the stack, emit the node, and
decrement the counters of its adjacent nodes, pushing those that reach
zero. -/
def kahnLoop (instrs : List Instruction) (nodes : List ListNode) (fuel : Nat)
    (stack order sortDegrees : List Nat) : Except Err (List Nat) :=
  match fuel with
  | 0 => .error .noFuel
  | fuel + 1 =>
    match stack with
    | [] => pure order
    | i :: stack => do
      let ins ← instrGet instrs i
      let targets ← walkAdj nodes (nodes.length + 1) ins.adjacentListIndex
      let step ← targets.foldlM (fun acc t => do
        let d ← wGet acc.2 t
        let d := decU32 d
        let degs ← wSet acc.2 t d
        if d = 0 then pure (t :: acc.1, degs) else pure (acc.1, degs))
        (stack, sortDegrees)
      kahnLoop instrs nodes fuel step.1 (order ++ [i]) step.2

/-- Comparison used by the sort at the end of Shader::sort: level first, then
instruction index (InstructionSort operator less-than). -/
def sortLT (a b : Nat × Nat) : Bool :=
  if a.2 < b.2 then true
  else if b.2 < a.2 then false
  else a.1 < b.1

/-- Insertion of one element into a list sorted by sortLT. -/
def sortInsert (x : Nat × Nat) : List (Nat × Nat) → List (Nat × Nat)
  | [] => [x]
  | y :: ys => if sortLT y x then y :: sortInsert x ys else x :: y :: ys

/-- Insertion sort by sortLT; on the states reached by the source the keys
are pairwise distinct, so this is the unique sorted permutation that
std::sort also produces. -/
def insertionSort : List (Nat × Nat) → List (Nat × Nat)
  | [] => []
  | x :: xs => sortInsert x (insertionSort xs)

/-- Read of the InstructionSort vector; out of bounds is undefined behaviour
in the source. -/
def wGetPair (l : List (Nat × Nat)) (i : Nat) : Except Err (Nat × Nat) :=
  match l.get? i with
  | some v => .ok v
  | none => .error .oob

/-- Write of the InstructionSort vector; out of bounds is undefined behaviour
in the source. -/
def wSetPair (l : List (Nat × Nat)) (i : Nat) (v : Nat × Nat) :
    Except Err (List (Nat × Nat)) :=
  if i < l.length then .ok (l.set i v) else .error .oob

/-- Level-assignment loop of Shader::sort over the Kahn order: each emitted
node raises the level of its adjacent nodes to one more than its own, and
records its instruction index in the sort vector. -/
def levelLoop (instrs : List Instruction) (nodes : List ListNode)
    (fuel : Nat) (order : List Nat) (isv : List (Nat × Nat)) :
    Except Err (List (Nat × Nat)) :=
  match fuel with
  | 0 => .error .noFuel
  | fuel + 1 =>
    match order with
    | [] => pure isv
    | i :: order => do
      let e ← wGetPair isv i
      let nextLevel := e.2 + 1
      let ins ← instrGet instrs i
      let targets ← walkAdj nodes (nodes.length + 1) ins.adjacentListIndex
      let isv ← targets.foldlM (fun acc t => do
        let te ← wGetPair acc t
        wSetPair acc t (te.1, max te.2 nextLevel)) isv
      let e ← wGetPair isv i
      let isv ← wSetPair isv i (i, e.2)
      levelLoop instrs nodes fuel order isv

/-- Translation of Shader::sort: degree computation, Kahn order, level
assignment and the final sort by (level, index). -/
def Shader.sortInstructions (sh : Shader) : Except Err Shader := do
  let n := sh.instructions.length
  let z := List.replicate n 0
  let degs ← degreesLoop sh.instructions sh.listNodes (n + 1) 0 z z
  let stack := (List.range n).foldl
    (fun acc i => if degs.1.getD i 0 = 0 then i :: acc else acc) []
  let order ← kahnLoop sh.instructions sh.listNodes
    (n + sh.listNodes.length + 2) stack [] degs.1
  let isv ← levelLoop sh.instructions sh.listNodes (order.length + 1) order
    (List.replicate order.length (0, 0))
  let sorted := insertionSort isv
  pure { sh with
    instructionInDegrees := degs.1
    instructionOutDegrees := degs.2
    instructionOrder := sorted.map (fun e => e.1) }

/-- Translation of Shader::parse: the three passes in order on a cleared
shader. -/
def Shader.parse (words : List Nat) : Except Err Shader := do
  let sh ← Shader.parseWords words
  let sh ← Shader.process sh
  Shader.sortInstructions sh

/-- Resolution state of a result id during the evaluation pass. -/
inductive ResType where
  | unknown
  | const
  | var
deriving Repr, DecidableEq

/-- Resolution record: tag plus a 32-bit value pattern (the union of the
source stores one pattern; signed operations reinterpret it). -/
structure Resolution where
  type : ResType := .unknown
  value : Nat := 0
deriving Repr, DecidableEq

/-- Modelled from the spec: the Options structure of the public header (the
header under src is an older revision without it); the spec defines options
as remove_dead_code with default true. -/
structure Options where
  removeDeadCode : Bool := true
deriving Repr, DecidableEq

/-- Override entry passed to Optimizer::run. -/
structure SpecConstant where
  specId : Nat := 0
  values : List Nat := []
deriving Repr, DecidableEq

/-- Mutable state of one optimizer invocation (OptimizerContext): the working
word buffer, the per-instruction degree copies and the resolution table. -/
structure Ctx where
  words : List Nat
  inDeg : List Nat
  outDeg : List Nat
  resolutions : List Resolution
deriving Repr, DecidableEq

/-- Read of the resolution table; out of bounds is undefined behaviour in the
source. -/
def resolGet (c : Ctx) (id : Nat) : Except Err Resolution :=
  match c.resolutions.get? id with
  | some v => .ok v
  | none => .error .oob

/-- Write of the resolution table; out of bounds is undefined behaviour in
the source. -/
def resolSet (c : Ctx) (id : Nat) (r : Resolution) : Except Err Ctx :=
  if id < c.resolutions.length then
    .ok { c with resolutions := c.resolutions.set id r }
  else
    .error .oob

/-- Set only the type tag of a resolution to Variable, keeping the value, as
the assignments of the form resolution.type = Variable do. -/
def resolSetVar (c : Ctx) (id : Nat) : Except Err Ctx := do
  let old ← resolGet c id
  resolSet c id { old with type := .var }

/-- Write n sentinel words starting at an index. -/
def sentinelN (l : List Nat) (i : Nat) : Nat → Except Err (List Nat)
  | 0 => .ok l
  | n + 1 => do
    let l ← wSet l i U32MAX
    sentinelN l (i + 1) n

/-- Write sentinel words over the half-open index range. -/
def sentinelFromTo (l : List Nat) (i stop : Nat) : Except Err (List Nat) :=
  sentinelN l i (stop - i)

/-- Translation of optimizerEliminateInstruction: overwrite every word of the
instruction's slot, as sized by its current head word, with the sentinel. -/
def optimizerEliminateInstruction (sh : Shader) (i : Nat) (c : Ctx) :
    Except Err Ctx := do
  let ins ← instrGet sh.instructions i
  let w ← wGet c.words ins.wordIndex
  let words ← sentinelN c.words ins.wordIndex (wcOf w)
  pure { c with words }

/-- Collect the operand ids of an instruction from the current words, in scan
order, mirroring the operand loops of optimizerReduceResultDegrees and
optimizerReduceLabelDegree which push each operand unconditionally. -/
def collectOperandIds (words : List Nat) (wordIndex wordCount : Nat)
    (lay : OperandLayout) (fuel j operandWordIndex : Nat) :
    Except Err (List Nat) :=
  match fuel with
  | 0 => .error .noFuel
  | fuel + 1 =>
    if j < lay.count then do
      let skip ← checkOperandWordSkip wordIndex words j lay.skip lay.skipString
        operandWordIndex
      if skip.1 then
        collectOperandIds words wordIndex wordCount lay fuel (j + 1) skip.2
      else if wordCount ≤ operandWordIndex then
        pure []
      else do
        let operandId ← wGet words (wordIndex + operandWordIndex)
        let rest ← collectOperandIds words wordIndex wordCount lay fuel (j + 1)
          (operandWordIndex + lay.stride)
        pure (operandId :: rest)
    else
      pure []

/-- Collect the in-range label ids of an instruction from the current
words. -/
def collectLabelIds (words : List Nat) (wordIndex wc ls lc lstr : Nat)
    (fuel j : Nat) : Except Err (List Nat) :=
  match fuel with
  | 0 => .error .noFuel
  | fuel + 1 =>
    if j < lc ∧ ls + j * lstr < wc then do
      let v ← wGet words (wordIndex + ls + j * lstr)
      let rest ← collectLabelIds words wordIndex wc ls lc lstr fuel (j + 1)
      pure (v :: rest)
    else
      pure []

/-- Operand collection of an instruction for the degree cascades, keyed on
its opcode's layout. -/
def operandsOf (words : List Nat) (opCode wi wc : Nat) :
    Except Err (List Nat) :=
  match SpvHasOperands opCode with
  | some lay => collectOperandIds words wi wc lay (wc + 2) 0 lay.start
  | none => pure []

/-- Translation of optimizerReduceResultDegrees: drain the result stack,
decrement the producer's out-degree, and on reaching zero push its operands
and delete the producer. -/
def optimizerReduceResultDegrees (sh : Shader) (fuel : Nat) (c : Ctx)
    (stack : List Nat) : Except Err Ctx :=
  match fuel with
  | 0 => .error .noFuel
  | fuel + 1 =>
    match stack with
    | [] => pure c
    | resultId :: stack =>
      if sh.results.length ≤ resultId then throw Err.oob
      else do
      let r := sh.results.getD resultId ⟨U32MAX⟩
      let ins ← instrGet sh.instructions r.instructionIndex
      let w ← wGet c.words ins.wordIndex
      if w = U32MAX then
        optimizerReduceResultDegrees sh fuel c stack
      else do
        let d ← wGet c.outDeg r.instructionIndex
        let d := decU32 d
        let outDeg ← wSet c.outDeg r.instructionIndex d
        let c := { c with outDeg }
        if d = 0 then do
          let ops ← operandsOf c.words (opOf w) ins.wordIndex (wcOf w)
          let stack := ops.foldl (fun acc x => x :: acc) stack
          let c ← optimizerEliminateInstruction sh r.instructionIndex c
          optimizerReduceResultDegrees sh fuel c stack
        else
          optimizerReduceResultDegrees sh fuel c stack

/-- Block-elimination walk of optimizerReduceLabelDegree: from the label's
instruction, skip already deleted instructions, push label operands onto the
label stack and id operands onto the result stack, and delete instructions up
to and including the block's terminator. -/
def eliminateBlockLoop (sh : Shader) (fuel i : Nat) (c : Ctx)
    (labelStack resultStack : List Nat) :
    Except Err (Ctx × List Nat × List Nat) :=
  match fuel with
  | 0 => .error .noFuel
  | fuel + 1 =>
    if i < sh.instructions.length then do
      let ins ← instrGet sh.instructions i
      let w ← wGet c.words ins.wordIndex
      if w = U32MAX then
        eliminateBlockLoop sh fuel (i + 1) c labelStack resultStack
      else do
        let opCode := opOf w
        let wc := wcOf w
        let labelIds ←
          match SpvHasLabels opCode with
          | some (ls, lc, lstr) =>
            collectLabelIds c.words ins.wordIndex wc ls lc lstr (wc + 2) 0
          | none => pure []
        let labelStack := labelIds.foldl (fun acc x => x :: acc) labelStack
        let ops ←
          match SpvHasOperands opCode with
          | some lay =>
            collectOperandIds c.words ins.wordIndex wc lay (wc + 2) 0 lay.start
          | none => pure []
        let resultStack := ops.foldl (fun acc x => x :: acc) resultStack
        let found := SpvOpIsTerminator opCode
        let c ← optimizerEliminateInstruction sh i c
        if found then
          pure (c, labelStack, resultStack)
        else
          eliminateBlockLoop sh fuel (i + 1) c labelStack resultStack
    else
      pure (c, labelStack, resultStack)

/-- Label-stack loop of optimizerReduceLabelDegree. -/
def labelDegreeLoop (sh : Shader) (fuel : Nat) (labelStack resultStack : List Nat)
    (c : Ctx) : Except Err (Ctx × List Nat) :=
  match fuel with
  | 0 => .error .noFuel
  | fuel + 1 =>
    match labelStack with
    | [] => pure (c, resultStack)
    | labelId :: labelStack =>
      if sh.results.length ≤ labelId then throw Err.oob
      else do
      let r := sh.results.getD labelId ⟨U32MAX⟩
      let d ← wGet c.inDeg r.instructionIndex
      if d = 0 then
        labelDegreeLoop sh fuel labelStack resultStack c
      else do
        let d := d - 1
        let inDeg ← wSet c.inDeg r.instructionIndex d
        let c : Ctx := { c with inDeg }
        if d = 0 then do
          let res ← eliminateBlockLoop sh (sh.instructions.length + 2)
            r.instructionIndex c labelStack resultStack
          labelDegreeLoop sh fuel res.2.1 res.2.2 res.1
        else
          labelDegreeLoop sh fuel labelStack resultStack c

/-- Translation of optimizerReduceLabelDegree: drain the label stack, then
run the result-degree cascade on the collected results. -/
def optimizerReduceLabelDegree (sh : Shader) (fuel firstLabelId : Nat)
    (c : Ctx) : Except Err Ctx := do
  let res ← labelDegreeLoop sh fuel [firstLabelId] [] c
  optimizerReduceResultDegrees sh fuel res.1 res.2

/-- Fetch the resolutions of the two operands of a binary instruction (words
3 and 4 of the instruction). -/
def binOperands (c : Ctx) (rwi : Nat) : Except Err (Resolution × Resolution) := do
  let a ← wGet c.words (rwi + 3)
  let fa ← resolGet c a
  let b ← wGet c.words (rwi + 4)
  let fb ← resolGet c b
  pure (fa, fb)

/-- Boolean constant resolution (Resolution::fromBool). -/
def fromBool (b : Bool) : Resolution := ⟨.const, if b then 1 else 0⟩

/-- Unsigned constant resolution (Resolution::fromUint32). -/
def fromUint32 (v : Nat) : Resolution := ⟨.const, v % W32⟩

/-- Signed constant resolution (Resolution::fromInt32); stores the 32-bit
pattern. -/
def fromInt32 (i : Int) : Resolution := ⟨.const, ofInt32 i⟩

/-- Translation of optimizerEvaluateResult: the constant evaluation of one
result instruction over the resolutions of its operands. -/
def optimizerEvaluateResult (sh : Shader) (resultId : Nat) (c : Ctx) :
    Except Err Ctx :=
  if sh.results.length ≤ resultId then throw Err.oob
  else
  let r := sh.results.getD resultId ⟨U32MAX⟩
  if c.resolutions.length ≤ resultId then throw Err.oob
  else do
  let ins ← instrGet sh.instructions r.instructionIndex
  let rwi := ins.wordIndex
  let w ← wGet c.words rwi
  let opCode := opOf w
  let wc := wcOf w
  if opCode = OpConstant then do
    let tid ← wGet c.words (rwi + 1)
    if sh.results.length ≤ tid then throw Err.oob
    else do
    let tr := sh.results.getD tid ⟨U32MAX⟩
    let tins ← instrGet sh.instructions tr.instructionIndex
    let tw ← wGet c.words tins.wordIndex
    let width ← wGet c.words (tins.wordIndex + 2)
    let signed ← wGet c.words (tins.wordIndex + 3)
    if opOf tw = OpTypeInt ∧ width = 32 then do
      let v ← wGet c.words (rwi + 3)
      if signed ≠ 0 then resolSet c resultId (fromInt32 (toInt32 (v % W32)))
      else resolSet c resultId (fromUint32 v)
    else
      resolSetVar c resultId
  else if opCode = OpConstantTrue then
    resolSet c resultId (fromBool true)
  else if opCode = OpConstantFalse then
    resolSet c resultId (fromBool false)
  else if opCode = OpBitcast then do
    let a ← wGet c.words (rwi + 3)
    let fa ← resolGet c a
    resolSet c resultId (fromUint32 fa.value)
  else if opCode = OpIAdd then do
    let p ← binOperands c rwi
    resolSet c resultId (fromUint32 (p.1.value + p.2.value))
  else if opCode = OpISub then do
    let p ← binOperands c rwi
    resolSet c resultId (fromUint32 (p.1.value + (W32 - p.2.value % W32)))
  else if opCode = OpIMul then do
    let p ← binOperands c rwi
    resolSet c resultId (fromUint32 (p.1.value * p.2.value))
  else if opCode = OpUDiv then do
    let p ← binOperands c rwi
    if p.2.value = 0 then throw Err.divByZero
    else resolSet c resultId (fromUint32 (p.1.value / p.2.value))
  else if opCode = OpSDiv then do
    let p ← binOperands c rwi
    let ia := toInt32 p.1.value
    let ib := toInt32 p.2.value
    if ib = 0 then throw Err.divByZero
    else if ia = -2147483648 ∧ ib = -1 then throw Err.intOverflow
    else resolSet c resultId (fromInt32 (tdiv32 ia ib))
  else if opCode = OpLogicalEqual then do
    let p ← binOperands c rwi
    resolSet c resultId (fromBool (decide ((p.1.value ≠ 0) = (p.2.value ≠ 0))))
  else if opCode = OpLogicalNotEqual then do
    let p ← binOperands c rwi
    resolSet c resultId (fromBool (decide ((p.1.value ≠ 0) ≠ (p.2.value ≠ 0))))
  else if opCode = OpLogicalOr then do
    let p ← binOperands c rwi
    resolSet c resultId (fromBool (p.1.value ≠ 0 ∨ p.2.value ≠ 0))
  else if opCode = OpLogicalAnd then do
    let p ← binOperands c rwi
    resolSet c resultId (fromBool (p.1.value ≠ 0 ∧ p.2.value ≠ 0))
  else if opCode = OpLogicalNot then do
    let a ← wGet c.words (rwi + 3)
    let fa ← resolGet c a
    resolSet c resultId (fromBool (fa.value = 0))
  else if opCode = OpSelect then do
    let cond ← wGet c.words (rwi + 3)
    let fc ← resolGet c cond
    let a ← wGet c.words (rwi + 4)
    let fa ← resolGet c a
    let b ← wGet c.words (rwi + 5)
    let fb ← resolGet c b
    resolSet c resultId (if fc.value ≠ 0 then fa else fb)
  else if opCode = OpIEqual then do
    let p ← binOperands c rwi
    resolSet c resultId (fromBool (p.1.value = p.2.value))
  else if opCode = OpINotEqual then do
    let p ← binOperands c rwi
    resolSet c resultId (fromBool (p.1.value ≠ p.2.value))
  else if opCode = OpUGreaterThan then do
    let p ← binOperands c rwi
    resolSet c resultId (fromBool (p.2.value < p.1.value))
  else if opCode = OpSGreaterThan then do
    let p ← binOperands c rwi
    resolSet c resultId (fromBool (toInt32 p.2.value < toInt32 p.1.value))
  else if opCode = OpUGreaterThanEqual then do
    let p ← binOperands c rwi
    resolSet c resultId (fromBool (p.2.value ≤ p.1.value))
  else if opCode = OpSGreaterThanEqual then do
    let p ← binOperands c rwi
    resolSet c resultId (fromBool (toInt32 p.2.value ≤ toInt32 p.1.value))
  else if opCode = OpULessThan then do
    let p ← binOperands c rwi
    resolSet c resultId (fromBool (p.1.value < p.2.value))
  else if opCode = OpSLessThan then do
    let p ← binOperands c rwi
    resolSet c resultId (fromBool (toInt32 p.1.value < toInt32 p.2.value))
  else if opCode = OpULessThanEqual then do
    let p ← binOperands c rwi
    resolSet c resultId (fromBool (p.1.value ≤ p.2.value))
  else if opCode = OpSLessThanEqual then do
    let p ← binOperands c rwi
    resolSet c resultId (fromBool (toInt32 p.1.value ≤ toInt32 p.2.value))
  else if opCode = OpShiftRightLogical then do
    let p ← binOperands c rwi
    if 32 ≤ p.2.value then throw Err.shiftOverflow
    else resolSet c resultId (fromUint32 (p.1.value / 2 ^ p.2.value))
  else if opCode = OpShiftRightArithmetic then do
    let p ← binOperands c rwi
    let sb := toInt32 p.2.value
    if sb < 0 ∨ 32 ≤ sb then throw Err.shiftOverflow
    else
      resolSet c resultId (fromInt32 (Int.fdiv (toInt32 p.1.value) (2 ^ sb.toNat)))
  else if opCode = OpShiftLeftLogical then do
    let p ← binOperands c rwi
    if 32 ≤ p.2.value then throw Err.shiftOverflow
    else resolSet c resultId (fromUint32 (p.1.value * 2 ^ p.2.value))
  else if opCode = OpBitwiseOr then do
    let p ← binOperands c rwi
    resolSet c resultId (fromUint32 (Nat.lor p.1.value p.2.value))
  else if opCode = OpBitwiseAnd then do
    let p ← binOperands c rwi
    resolSet c resultId (fromUint32 (Nat.land p.1.value p.2.value))
  else if opCode = OpBitwiseXor then do
    let p ← binOperands c rwi
    resolSet c resultId (fromUint32 (Nat.xor p.1.value p.2.value))
  else if opCode = OpNot then do
    let a ← wGet c.words (rwi + 3)
    let fa ← resolGet c a
    resolSet c resultId (fromUint32 (Nat.xor (fa.value % W32) U32MAX))
  else if opCode = OpPhi then
    if wc = 5 then do
      let a ← wGet c.words (rwi + 3)
      let fa ← resolGet c a
      resolSet c resultId fa
    else
      resolSetVar c resultId
  else
    resolSetVar c resultId

/-- Case-scanning loop of the OpSwitch branch of optimizerEvaluateTerminator:
a matching case becomes the chosen label, every other case label has its
block degree reduced. -/
def switchCaseLoop (sh : Shader) (fuel wi wc value : Nat) (fuel2 j : Nat)
    (defaultLabelId : Nat) (c : Ctx) : Except Err (Nat × Ctx) :=
  match fuel2 with
  | 0 => .error .noFuel
  | fuel2 + 1 =>
    if j < wc then do
      let caseVal ← wGet c.words (wi + j)
      let lbl ← wGet c.words (wi + j + 1)
      if value = caseVal then
        switchCaseLoop sh fuel wi wc value fuel2 (j + 2) lbl c
      else do
        let c ← optimizerReduceLabelDegree sh fuel lbl c
        switchCaseLoop sh fuel wi wc value fuel2 (j + 2) defaultLabelId c
    else
      pure (defaultLabelId, c)

/-- Not-taken-label handling of a folded OpBranchConditional: the not-taken
label's degree is reduced and the taken label is returned. -/
def bcPickLabel (sh : Shader) (fuel w2 w3 value : Nat) (c : Ctx) :
    Except Err (Nat × Ctx) :=
  if value ≠ 0 then do
    let c ← optimizerReduceLabelDegree sh fuel w3 c
    pure (w2, c)
  else do
    let c ← optimizerReduceLabelDegree sh fuel w2 c
    pure (w3, c)

/-- Patch-position choice of a folded OpBranchConditional: when the previous
slot decodes as OpSelectionMerge, its label degree is reduced and the patch
lands there, else on the branch itself. -/
def bcPickPatch (sh : Shader) (fuel wi mergeWordIndex mw : Nat) (c : Ctx) :
    Except Err (Nat × Ctx) :=
  if opOf mw = OpSelectionMerge then do
    let m1 ← wGet c.words (mergeWordIndex + 1)
    let c ← optimizerReduceLabelDegree sh fuel m1 c
    pure (mergeWordIndex, c)
  else
    pure (wi, c)

/-- OpBranchConditional folding arm of optimizerEvaluateTerminator. -/
def foldBranchConditional (sh : Shader) (fuel wi wc : Nat) (opRes : Resolution)
    (c : Ctx) : Except Err Ctx := do
  let w2 ← wGet c.words (wi + 2)
  let w3 ← wGet c.words (wi + 3)
  let step ← bcPickLabel sh fuel w2 w3 opRes.value c
  let mw ← wGet step.2.words (wi - 3)
  let patchStep ← bcPickPatch sh fuel wi (wi - 3) mw step.2
  let words ← wSet patchStep.2.words patchStep.1 (OpBranch + 2 * 65536)
  let words ← wSet words (patchStep.1 + 1) step.1
  let words ← sentinelFromTo words (patchStep.1 + 2) (wi + wc)
  pure { patchStep.2 with words }

/-- Default-label choice of a folded OpSwitch: a matching case keeps its
label and reduces the default's degree, else the default keeps its own. -/
def switchPickDefault (sh : Shader) (fuel scan1 d2 : Nat) (c : Ctx) :
    Except Err (Nat × Ctx) :=
  if scan1 = U32MAX then
    pure (d2, c)
  else do
    let c ← optimizerReduceLabelDegree sh fuel d2 c
    pure (scan1, c)

/-- OpSwitch folding arm of optimizerEvaluateTerminator. -/
def foldSwitch (sh : Shader) (fuel wi wc : Nat) (opRes : Resolution)
    (c : Ctx) : Except Err Ctx := do
  let scan ← switchCaseLoop sh fuel wi wc opRes.value (wc + 2) 3 U32MAX c
  let d2 ← wGet scan.2.words (wi + 2)
  let step ← switchPickDefault sh fuel scan.1 d2 scan.2
  let words ← wSet step.2.words wi (OpSwitch + 3 * 65536)
  let words ← wSet words (wi + 1) sh.defaultSwitchOpConstantInt
  let words ← wSet words (wi + 2) step.1
  let c : Ctx := { step.2 with words }
  if sh.results.length ≤ sh.defaultSwitchOpConstantInt then throw Err.oob
  else do
  let dr := sh.results.getD sh.defaultSwitchOpConstantInt ⟨U32MAX⟩
  let d ← wGet c.outDeg dr.instructionIndex
  let outDeg ← wSet c.outDeg dr.instructionIndex (incU32 d)
  let words ← sentinelFromTo c.words (wi + 3) (wi + wc)
  pure { c with outDeg, words }

/-- Folding dispatch of optimizerEvaluateTerminator on the opcode. -/
def foldTerminator (sh : Shader) (fuel wi wc opCode : Nat) (opRes : Resolution)
    (c : Ctx) : Except Err Ctx :=
  if opCode = OpBranchConditional then
    foldBranchConditional sh fuel wi wc opRes c
  else if opCode = OpSwitch then
    foldSwitch sh fuel wi wc opRes c
  else
    pure c

/-- Translation of optimizerEvaluateTerminator: fold OpBranchConditional and
OpSwitch whose guard resolves to a constant, reduce the degrees of the
not-taken labels, rewrite the instruction in place and discard the guard. -/
def optimizerEvaluateTerminator (sh : Shader) (fuel i : Nat) (c : Ctx) :
    Except Err Ctx := do
  let ins ← instrGet sh.instructions i
  let w ← wGet c.words ins.wordIndex
  let operatorId ← wGet c.words (ins.wordIndex + 1)
  let opRes ← resolGet c operatorId
  if opRes.type ≠ ResType.const then
    pure c
  else do
    let c ← foldTerminator sh fuel ins.wordIndex (wcOf w) (opOf w) opRes c
    optimizerReduceResultDegrees sh fuel c [operatorId]

/-- Backward search of optimizerCompactPhi for the label beginning the phi's
block; the C++ loop never examines instruction zero.  Returns the label id or
U32MAX. -/
def phiFindLabelLoop (sh : Shader) (c : Ctx) (fuel searchIdx : Nat) :
    Except Err Nat :=
  match fuel with
  | 0 => .error .noFuel
  | fuel + 1 =>
    if 0 < searchIdx then do
      let ins ← instrGet sh.instructions searchIdx
      let w ← wGet c.words ins.wordIndex
      if opOf w = OpLabel then
        wGet c.words (ins.wordIndex + 1)
      else
        phiFindLabelLoop sh c fuel (searchIdx - 1)
    else
      pure U32MAX

/-- Forward search of optimizerCompactPhi for the first terminator of a
predecessor block; reports whether that terminator still names the phi's
block. -/
def phiTerminatorSearch (sh : Shader) (c : Ctx) (fuel j instructionLabelId : Nat) :
    Except Err Bool :=
  match fuel with
  | 0 => .error .noFuel
  | fuel + 1 =>
    if j < sh.instructions.length then do
      let ins ← instrGet sh.instructions j
      let w ← wGet c.words ins.wordIndex
      let opCode := opOf w
      let swc := wcOf w
      if SpvOpIsTerminator opCode then
        match SpvHasLabels opCode with
        | some (ls, lc, lstr) => do
          let labels ← collectLabelIds c.words ins.wordIndex swc ls lc lstr
            (swc + 2) 0
          pure (labels.contains instructionLabelId)
        | none => pure false
      else
        phiTerminatorSearch sh c fuel (j + 1) instructionLabelId
    else
      pure false

/-- Pair-compaction loop of optimizerCompactPhi: drop pairs whose predecessor
block is deleted or no longer branches to the phi's block (pushing the value
id), and copy the surviving pairs into the compacted positions. -/
def phiPairsLoop (sh : Shader) (wi wc instructionLabelId : Nat)
    (fuel2 j newWordCount : Nat) (resultStack : List Nat) (c : Ctx) :
    Except Err (Nat × List Nat × Ctx) :=
  match fuel2 with
  | 0 => .error .noFuel
  | fuel2 + 1 =>
    if j < wc then do
      let labelId ← wGet c.words (wi + j + 1)
      if sh.results.length ≤ labelId then throw Err.oob
      else do
      let r := sh.results.getD labelId ⟨U32MAX⟩
      let lins ← instrGet sh.instructions r.instructionIndex
      let lw ← wGet c.words lins.wordIndex
      if lw = U32MAX then do
        let v ← wGet c.words (wi + j)
        phiPairsLoop sh wi wc instructionLabelId fuel2 (j + 2) newWordCount
          (v :: resultStack) c
      else do
        let found ← phiTerminatorSearch sh c (sh.instructions.length + 2)
          r.instructionIndex instructionLabelId
        if ¬ found then do
          let v ← wGet c.words (wi + j)
          phiPairsLoop sh wi wc instructionLabelId fuel2 (j + 2) newWordCount
            (v :: resultStack) c
        else do
          let v0 ← wGet c.words (wi + j)
          let words ← wSet c.words (wi + newWordCount) v0
          let v1 ← wGet words (wi + j + 1)
          let words ← wSet words (wi + newWordCount + 1) v1
          phiPairsLoop sh wi wc instructionLabelId fuel2 (j + 2)
            (newWordCount + 2) resultStack { c with words }
    else
      pure (newWordCount, resultStack, c)

/-- Translation of optimizerCompactPhi. -/
def optimizerCompactPhi (sh : Shader) (fuel i : Nat) (c : Ctx) :
    Except Err Ctx := do
  let ilbl ← phiFindLabelLoop sh c (i + 2) i
  if ilbl = U32MAX then throw Err.phiWithoutLabel
  else do
  let ins ← instrGet sh.instructions i
  let wi := ins.wordIndex
  let w ← wGet c.words wi
  let wc := wcOf w
  let res ← phiPairsLoop sh wi wc ilbl (wc + 2) 3 3 [] c
  let newWordCount := res.1
  let c := res.2.2
  let words ← wSet c.words wi (OpPhi + newWordCount * 65536)
  let words ← sentinelFromTo words (wi + newWordCount) (wi + wc)
  optimizerReduceResultDegrees sh fuel { c with words } res.2.1

/-- Operand constant check of optimizerRunEvaluationPass for one result
instruction: an unknown operand of a non-phi instruction is an error, a
variable operand ends the scan. -/
def evalOperandCheckLoop (isPhi : Bool) (words : List Nat)
    (resolutions : List Resolution) (wordIndex patched : Nat)
    (lay : OperandLayout) (fuel j operandWordIndex : Nat) : Except Err Bool :=
  match fuel with
  | 0 => .error .noFuel
  | fuel + 1 =>
    if j < lay.count then do
      let skip ← checkOperandWordSkip wordIndex words j lay.skip lay.skipString
        operandWordIndex
      if skip.1 then
        evalOperandCheckLoop isPhi words resolutions wordIndex patched lay fuel
          (j + 1) skip.2
      else if patched ≤ operandWordIndex then
        pure true
      else do
        let operandId ← wGet words (wordIndex + operandWordIndex)
        let r ←
          match resolutions.get? operandId with
          | some x => Except.ok x
          | none => Except.error Err.oob
        if ¬ isPhi ∧ r.type = ResType.unknown then throw Err.unresolvedOperand
        else if r.type = ResType.var then
          pure false
        else
          evalOperandCheckLoop isPhi words resolutions wordIndex patched lay
            fuel (j + 1) (operandWordIndex + lay.stride)
    else
      pure true

/-- Fuel bound for the cascade loops; large enough for every terminating run,
so that reaching it models a run the source would not complete. -/
def bigCascadeFuel (sh : Shader) : Nat :=
  (sh.spirvWords.length + sh.instructions.length + 8) *
    (sh.spirvWords.length + 8) + 64

/-- Phi compaction preceding the operand check of one evaluation-pass step:
an OpPhi is compacted and its new word count replaces the old one. -/
def evalPhiStep (sh : Shader) (fuel i wi wc opCode : Nat) (c : Ctx) :
    Except Err (Nat × Ctx) :=
  if opCode = OpPhi then do
    let c ← optimizerCompactPhi sh fuel i c
    let w2 ← wGet c.words wi
    pure (wcOf w2, c)
  else
    pure (wc, c)

/-- All-operands-constant check of one evaluation-pass step, for opcodes with
an operand layout. -/
def evalAllConst (opCode : Nat) (c : Ctx) (wi patched : Nat) :
    Except Err Bool :=
  match SpvHasOperands opCode with
  | some lay =>
    evalOperandCheckLoop (opCode = OpPhi) c.words c.resolutions wi patched
      lay (patched + 2) 0 lay.start
  | none => pure true

/-- One step of optimizerRunEvaluationPass on the instruction at the given
index: result instructions get phi compaction and constant evaluation,
conditional terminators get folding. -/
def evalPassStep (sh : Shader) (fuel i : Nat) (c : Ctx) : Except Err Ctx := do
  let ins ← instrGet sh.instructions i
  let w ← wGet c.words ins.wordIndex
  if w = U32MAX then pure c
  else if (SpvHasResultAndType (opOf w)).1 then do
    let step ← evalPhiStep sh fuel i ins.wordIndex (wcOf w) (opOf w) c
    let allConst ← evalAllConst (opOf w) step.2 ins.wordIndex step.1
    let resultId ← wGet step.2.words (ins.wordIndex +
      (if (SpvHasResultAndType (opOf w)).2 then 2 else 1))
    if allConst then
      optimizerEvaluateResult sh resultId step.2
    else
      resolSetVar step.2 resultId
  else if opOf w = OpBranchConditional ∨ opOf w = OpSwitch then
    optimizerEvaluateTerminator sh fuel i c
  else
    pure c

/-- Walk of optimizerRunEvaluationPass over the topological instruction
order. -/
def evalPassLoop (sh : Shader) (fuel : Nat) (order : List Nat) (c : Ctx) :
    Except Err Ctx :=
  match order with
  | [] => pure c
  | i :: order => do
    let c ← evalPassStep sh fuel i c
    evalPassLoop sh fuel order c

/-- Translation of optimizerRunEvaluationPass; without removeDeadCode the
pass does nothing. -/
def optimizerRunEvaluationPass (sh : Shader) (opt : Options) (c : Ctx) :
    Except Err Ctx :=
  if ¬ opt.removeDeadCode then pure c
  else evalPassLoop sh (bigCascadeFuel sh) sh.instructionOrder c

/-- Translation of optimizerRemoveUnusedDecorations: delete every decoration
whose target instruction has been deleted. -/
def optimizerRemoveUnusedDecorations (sh : Shader) (opt : Options) (c : Ctx) :
    Except Err Ctx :=
  if ¬ opt.removeDeadCode then pure c
  else
    sh.decorations.foldlM (fun c d => do
      let ins ← instrGet sh.instructions d
      let resultId ← wGet c.words (ins.wordIndex + 1)
      if resultId = U32MAX then pure c
      else if sh.results.length ≤ resultId then throw Err.oob
      else do
        let r := sh.results.getD resultId ⟨U32MAX⟩
        let rins ← instrGet sh.instructions r.instructionIndex
        let w ← wGet c.words rins.wordIndex
        if w = U32MAX then optimizerEliminateInstruction sh d c
        else pure c) c

/-- Translation of optimizerCompactPhis: re-run phi compaction on every phi
that is still alive. -/
def optimizerCompactPhis (sh : Shader) (fuel : Nat) (c : Ctx) :
    Except Err Ctx :=
  sh.phis.foldlM (fun c p => do
    let ins ← instrGet sh.instructions p
    let w ← wGet c.words ins.wordIndex
    if w = U32MAX then pure c
    else optimizerCompactPhi sh fuel p c) c

/-- Sequential in-place word copy, reading and writing the same buffer word
by word exactly as the copy loops of optimizerCompactData do. -/
def copyWordsLoop (words : List Nat) (src dst : Nat) :
    Nat → Except Err (List Nat)
  | 0 => .ok words
  | n + 1 => do
    let v ← wGet words src
    let words ← wSet words dst v
    copyWordsLoop words (src + 1) (dst + 1) n

/-- Instruction walk of optimizerCompactData: skip deleted instructions and,
when removeDeadCode is set, droppable metadata; copy everything else to the
cursor. -/
def compactLoop (sh : Shader) (opt : Options) (fuel i cursor : Nat)
    (words : List Nat) : Except Err (Nat × List Nat) :=
  match fuel with
  | 0 => .error .noFuel
  | fuel + 1 =>
    if i < sh.instructions.length then do
      let ins ← instrGet sh.instructions i
      let w ← wGet words ins.wordIndex
      if w = U32MAX then
        compactLoop sh opt fuel (i + 1) cursor words
      else if opt.removeDeadCode ∧ SpvIsIgnored (opOf w) then
        compactLoop sh opt fuel (i + 1) cursor words
      else do
        let wc := wcOf w
        let words ← copyWordsLoop words ins.wordIndex cursor wc
        compactLoop sh opt fuel (i + 1) (cursor + wc) words
    else
      pure (cursor, words)

/-- Translation of optimizerCompactData: copy the five header words, compact
the live instructions and truncate to the cursor. -/
def optimizerCompactData (sh : Shader) (opt : Options) (c : Ctx) :
    Except Err (List Nat) := do
  let words ← copyWordsLoop c.words 0 0 5
  let res ← compactLoop sh opt (sh.instructions.length + 2) 0 5 words
  pure (res.2.take res.1)

/-- Translation of optimizerPrepareData: copy the word stream and the degree
tables, and clear the resolution table. -/
def optimizerPrepareData (sh : Shader) : Ctx :=
  { words := sh.spirvWords
    inDeg := sh.instructionInDegrees
    outDeg := sh.instructionOutDegrees
    resolutions := List.replicate sh.results.length {} }

/-- Write a list of override values at consecutive word positions, as the
memcpy in optimizerPatchSpecializationConstants does. -/
def writeValues (words : List Nat) (i : Nat) : List Nat → Except Err (List Nat)
  | [] => .ok words
  | v :: vs => do
    let words ← wSet words i v
    writeValues words (i + 1) vs

/-- Translation of optimizerPatchSpecializationConstants. -/
def optimizerPatchSpecializationConstants (sh : Shader)
    (newSpecConstants : List SpecConstant) (c : Ctx) : Except Err Ctx :=
  newSpecConstants.foldlM (fun c sc => do
    if sh.specializations.length ≤ sc.specId then pure c
    else do
      let spec := sh.specializations.getD sc.specId ⟨U32MAX, U32MAX⟩
      if spec.constantInstructionIndex = U32MAX then pure c
      else do
        let ins ← instrGet sh.instructions spec.constantInstructionIndex
        let cwi := ins.wordIndex
        let w ← wGet c.words cwi
        let opCode := opOf w
        let wc := wcOf w
        let c ←
          if opCode = OpSpecConstantTrue ∨ opCode = OpSpecConstantFalse then do
            let v0 ←
              match sc.values.get? 0 with
              | some v => Except.ok v
              | none => Except.error Err.oob
            let words ← wSet c.words cwi
              ((if v0 ≠ 0 then OpConstantTrue else OpConstantFalse) + wc * 65536)
            pure { c with words }
          else if opCode = OpSpecConstant then
            if wc ≤ 3 then throw Err.specTooFewWords
            else if sc.values.length ≠ wc - 3 then throw Err.specValueCountMismatch
            else do
              let words ← wSet c.words cwi (OpConstant + wc * 65536)
              let words ← writeValues words (cwi + 3) sc.values
              pure { c with words }
          else
            throw Err.cantPatchOpcode
        optimizerEliminateInstruction sh spec.decorationInstructionIndex c) c

/-- Translation of Optimizer::run returning, next to the output words, the
context as it stands before stream compaction (stream compaction does not
touch the degree and resolution tables). -/
def optimizerRunWithCtx (sh : Shader) (newSpecConstants : List SpecConstant)
    (opt : Options) : Except Err (Ctx × List Nat) := do
  let c := optimizerPrepareData sh
  let c ← optimizerPatchSpecializationConstants sh newSpecConstants c
  let c ← optimizerRunEvaluationPass sh opt c
  let c ← optimizerRemoveUnusedDecorations sh opt c
  let c ← optimizerCompactPhis sh (bigCascadeFuel sh) c
  let out ← optimizerCompactData sh opt c
  pure (c, out)

/-- Translation of Optimizer::run. -/
def Optimizer.run (sh : Shader) (newSpecConstants : List SpecConstant)
    (opt : Options) : Except Err (List Nat) := do
  let r ← optimizerRunWithCtx sh newSpecConstants opt
  pure r.2

/-- Offsets of the instruction head words of a module, reproducing the walk
of the parser (start at word five, advance by each word count). -/
def instrOffsetsLoop (words : List Nat) (fuel wordIndex : Nat) :
    Option (List Nat) :=
  match fuel with
  | 0 => none
  | fuel + 1 =>
    if wordIndex < words.length then
      match instrOffsetsLoop words fuel
        (wordIndex + wcOf (words.getD wordIndex 0)) with
      | none => none
      | some r => some (wordIndex :: r)
    else
      some []

/-- Instruction head word offsets of a module. -/
def instrOffsets (words : List Nat) : Option (List Nat) :=
  instrOffsetsLoop words (words.length + 1) 5

/-- Instruction at the given offset produces the result id r (result ids sit
at word one, or word two when the instruction has a type). -/
def producesId (words : List Nat) (wi r : Nat) : Bool :=
  let rt := SpvHasResultAndType (opOf (words.getD wi 0))
  rt.1 ∧ words.getD (wi + (if rt.2 then 2 else 1)) 0 = r

/-- Offset of the last instruction of the module producing the result id, the
producer the parser's result table retains. -/
def lastProducer (words : List Nat) (offs : List Nat) (r : Nat) : Option Nat :=
  (offs.filter (fun wi => producesId words wi r)).getLast?

/-- Module contains an OpSwitch instruction. -/
def moduleContainsOpSwitch (words : List Nat) : Bool :=
  match instrOffsets words with
  | none => false
  | some offs => offs.any (fun wi => opOf (words.getD wi 0) = OpSwitch)

/-- Module contains an OpConstant whose type id is (last) produced by an
OpTypeInt instruction of any width — the condition under which the parser
records a default switch constant. -/
def moduleHasIntTypedConstant (words : List Nat) : Bool :=
  match instrOffsets words with
  | none => false
  | some offs => offs.any (fun wi =>
      if opOf (words.getD wi 0) = OpConstant then
        match lastProducer words offs (words.getD (wi + 1) 0) with
        | some twi => decide (opOf (words.getD twi 0) = OpTypeInt)
        | none => false
      else false)

/-- Module contains an OpConstant whose type is a 32-bit integer type — the
condition named by the specification. -/
def moduleHas32BitIntConstant (words : List Nat) : Bool :=
  match instrOffsets words with
  | none => false
  | some offs => offs.any (fun wi =>
      if opOf (words.getD wi 0) = OpConstant then
        match lastProducer words offs (words.getD (wi + 1) 0) with
        | some twi =>
          decide (opOf (words.getD twi 0) = OpTypeInt) &&
            decide (words.getD (twi + 2) 0 = 32)
        | none => false
      else false)

/-- The instruction at the word offset is an OpConstant whose type id resolves
through the result table to an OpTypeInt instruction of any width — the exact
condition under which Shader::process records a default switch constant. -/
def constantIntTypeAt (words : List Nat) (sh : Shader) (wi : Nat) : Bool :=
  decide (opOf (words.getD wi 0) = OpConstant) &&
  match sh.instructions.get?
      (sh.results.getD (words.getD (wi + 1) 0) ⟨U32MAX⟩).instructionIndex with
  | some tIns => decide (opOf (words.getD tIns.wordIndex 0) = OpTypeInt)
  | none => false

/-- Some instruction of the parsed shader is an OpSwitch. -/
def shaderHasOpSwitch (words : List Nat) (sh : Shader) : Bool :=
  sh.instructions.any (fun ins =>
    decide (opOf (words.getD ins.wordIndex 0) = OpSwitch))

/-- Some instruction of the parsed shader is an OpConstant of integer type. -/
def shaderHasIntTypedConstant (words : List Nat) (sh : Shader) : Bool :=
  sh.instructions.any (fun ins => constantIntTypeAt words sh ins.wordIndex)

/-- Input module minus its OpSource, OpName and OpMemberName instructions:
the walk drops exactly the droppable metadata and keeps every other
instruction's words verbatim. -/
def stripIgnoredLoop (words : List Nat) (fuel wordIndex : Nat) :
    Option (List Nat) :=
  match fuel with
  | 0 => none
  | fuel + 1 =>
    if wordIndex < words.length then
      let w := words.getD wordIndex 0
      match stripIgnoredLoop words fuel (wordIndex + wcOf w) with
      | none => none
      | some rest =>
        some (if SpvIsIgnored (opOf w) then rest
              else ((words.drop wordIndex).take (wcOf w)) ++ rest)
    else
      some []

/-- Header plus every non-metadata instruction of the module, in order: the
output the specification promises for a run without overrides. -/
def strippedModule (words : List Nat) : Option (List Nat) :=
  match stripIgnoredLoop words (words.length + 1) 5 with
  | none => none
  | some rest => some (words.take 5 ++ rest)

/-- The instruction list walks the word stream contiguously from the given
offset: each entry sits at the running offset, which advances by the entry's
word count, and the walk ends exactly at or past the end of the stream. -/
def ChainFrom (words : List Nat) : List Instruction → Nat → Prop
  | [], wi => ¬ wi < words.length
  | ins :: rest, wi =>
    wi < words.length ∧ ins.wordIndex = wi ∧
    ChainFrom words rest (wi + wcOf (words.getD wi 0))

/-- Words of the non-metadata instructions of the list, in order. -/
def stripFromInstrs (words : List Nat) : List Instruction → List Nat
  | [] => []
  | ins :: rest =>
    (if SpvIsIgnored (opOf (words.getD ins.wordIndex 0)) then []
     else (words.drop ins.wordIndex).take (wcOf (words.getD ins.wordIndex 0))) ++
    stripFromInstrs words rest

/-- Parent label ids of an OpPhi instruction (second word of each pair). -/
def phiParentIds (words : List Nat) (wi wc : Nat) (fuel j : Nat) :
    Except Err (List Nat) :=
  match fuel with
  | 0 => .error .noFuel
  | fuel + 1 =>
    if j < wc then do
      let v ← wGet words (wi + j + 1)
      let rest ← phiParentIds words wi wc fuel (j + 2)
      pure (v :: rest)
    else
      pure []

/-- Operand ids of the instruction at a word offset, per its layout. -/
def operandIdsOfInstr (words : List Nat) (wi wc : Nat) :
    Except Err (List Nat) :=
  match SpvHasOperands (opOf (words.getD wi 0)) with
  | some lay => collectOperandIds words wi wc lay (wc + 2) 0 lay.start
  | none => pure []

/-- Label ids of the instruction at a word offset, per its label layout. -/
def labelIdsOfInstr (words : List Nat) (wi wc : Nat) :
    Except Err (List Nat) :=
  match SpvHasLabels (opOf (words.getD wi 0)) with
  | some (ls, lc, lstr) => collectLabelIds words wi wc ls lc lstr (wc + 2) 0
  | none => pure []

/-- Every id the instruction at a word offset references: its type id, its
operand ids, its label ids and, for OpPhi, its parent label ids. -/
def referencedIdsOfInstr (words : List Nat) (wi : Nat) :
    Except Err (List Nat) :=
  wGet words wi >>= fun w =>
  (if (SpvHasResultAndType (opOf w)).2 then
      wGet words (wi + 1) >>= fun t => pure [t]
    else pure ([] : List Nat)) >>= fun tids =>
  operandIdsOfInstr words wi (wcOf w) >>= fun ops =>
  labelIdsOfInstr words wi (wcOf w) >>= fun lids =>
  (if opOf w = OpPhi then phiParentIds words wi (wcOf w) (wcOf w + 2) 3
    else pure ([] : List Nat)) >>= fun pids =>
  pure (tids ++ ops ++ lids ++ pids)

-- Concrete modules used by the claim theorems.  Comments list the
-- instructions; ids are written as %n.

/-- Module with a division by zero reachable from constants: a 32-bit
unsigned int type %1, constants %2 = 1 and %3 = 0, and %4 = OpUDiv %1 %2 %3. -/
def modDivZero : List Nat :=
  [119734787, 65536, 0, 5, 0,
   21 + 4 * 65536, 1, 32, 0,
   43 + 4 * 65536, 1, 2, 1,
   43 + 4 * 65536, 1, 3, 0,
   134 + 5 * 65536, 1, 4, 2, 3]

/-- Module whose sixth word is an instruction with word count zero (OpNop
head word 0): the parser's walk never advances past it. -/
def modZeroCount : List Nat := [119734787, 65536, 0, 1, 0, 0]

/-- Module containing an OpSpecConstantTrue: %1 = OpTypeBool and
%2 = OpSpecConstantTrue %1. -/
def modSpecTrue : List Nat :=
  [119734787, 65536, 0, 3, 0,
   20 + 2 * 65536, 1,
   48 + 3 * 65536, 1, 2]

/-- Shader stub for exercising the specialization patch pass directly: two
instructions at words 5 (a spec constant) and 8 (its SpecId decoration), and
a specialization table entry for spec id 7 naming them. -/
def patchShader : Shader :=
  { instructions := [⟨5, U32MAX⟩, ⟨8, U32MAX⟩]
    specializations :=
      (List.replicate 7 ⟨U32MAX, U32MAX⟩) ++ [⟨0, 1⟩] }

/-- Working context for patchShader: an OpSpecConstantTrue at word 5 and an
OpDecorate SpecId decoration at word 8. -/
def patchCtx : Ctx :=
  { words := [0, 0, 0, 0, 0, 48 + 3 * 65536, 1, 2, 71 + 4 * 65536, 2, 1, 7]
    inDeg := []
    outDeg := []
    resolutions := [] }

/-- Module with a forward reference: OpBranch %1 at instruction 0 (word 5)
before %1 = OpLabel at instruction 1 (word 7). -/
def modForwardRef : List Nat :=
  [119734787, 65536, 0, 2, 0,
   249 + 2 * 65536, 1,
   248 + 2 * 65536, 1]

/-- Module producing the same result id twice: %1 = OpTypeVoid then
%1 = OpTypeBool. -/
def modDupResult : List Nat :=
  [119734787, 65536, 0, 2, 0,
   19 + 2 * 65536, 1,
   20 + 2 * 65536, 1]

/-- Module with an OpSwitch and only a 64-bit integer constant:
%1 = OpTypeInt 64, %2 = OpConstant %1 0 0, %3 = OpLabel,
OpSwitch %2 %3. -/
def modSwitch64 : List Nat :=
  [119734787, 65536, 0, 5, 0,
   21 + 4 * 65536, 1, 64, 0,
   43 + 5 * 65536, 1, 2, 0, 0,
   248 + 2 * 65536, 3,
   251 + 3 * 65536, 2, 3]

/-- Module with a conditional branch guarded by a plain constant:
%1 = OpTypeBool, %2 = OpConstantTrue %1, %3 = OpLabel,
OpBranchConditional %2 %4 %5, then blocks %4 and %5 each ending in
OpReturn.  No droppable metadata is present. -/
def modFoldBranch : List Nat :=
  [119734787, 65536, 0, 6, 0,
   20 + 2 * 65536, 1,
   41 + 3 * 65536, 1, 2,
   248 + 2 * 65536, 3,
   250 + 4 * 65536, 2, 4, 5,
   248 + 2 * 65536, 4,
   253 + 65536,
   248 + 2 * 65536, 5,
   253 + 65536]

/-- Output of the optimizer on modFoldBranch: the branch became
OpBranch %4 and block %5 and the guard constant were removed. -/
def foldBranchOut : List Nat :=
  [119734787, 65536, 0, 6, 0,
   131092, 1, 131320, 3, 131321, 4, 131320, 4, 65789]

/-- Module for the no-change witness: an OpName (dropped metadata) followed
by %1 = OpTypeBool; nothing is foldable. -/
def modNoOp : List Nat :=
  [119734787, 65536, 0, 2, 0,
   5 + 3 * 65536, 1, 0,
   20 + 2 * 65536, 1]

/-- Module with an OpSwitch guarded by a constant: %1 = OpTypeInt 32,
%2 = OpConstant %1 7, %5 = OpLabel, OpSwitch %2 %3 [7 to %4], block %3
(OpLabel, OpReturn), block %4 (OpLabel, OpReturn). -/
def modFoldSwitch : List Nat :=
  [119734787, 65536, 0, 6, 0,
   21 + 4 * 65536, 1, 32, 0,
   43 + 4 * 65536, 1, 2, 7,
   248 + 2 * 65536, 5,
   251 + 5 * 65536, 2, 3, 7, 4,
   248 + 2 * 65536, 3,
   253 + 65536,
   248 + 2 * 65536, 4,
   253 + 65536]

/-- Output of the optimizer on modFoldSwitch: the switch collapsed to the
degenerate OpSwitch %2 %4 at words 15..17 whose selector %2 is the constant
7 (the default switch constant), and block %3 was removed. -/
def foldSwitchOut : List Nat :=
  [119734787, 65536, 0, 6, 0,
   262165, 1, 32, 0,
   262187, 1, 2, 7,
   131320, 5,
   196859, 2, 4,
   131320, 4,
   65789]

/-- Module whose id bound word decodes as an OpSelectionMerge opcode (247)
and whose constant-guarded conditional branch sits at word 6: an
OpFunctionEnd at word 5, OpBranchConditional %2 %3 %4 at word 6,
%1 = OpTypeBool, %2 = OpConstantTrue %1, blocks %3 and %4, and a label with
result id 0 matching the schema word. -/
def modHeaderClobber : List Nat :=
  [119734787, 65536, 0, 247, 0,
   56 + 65536,
   250 + 4 * 65536, 2, 3, 4,
   20 + 2 * 65536, 1,
   41 + 3 * 65536, 1, 2,
   248 + 2 * 65536, 3,
   253 + 65536,
   248 + 2 * 65536, 4,
   253 + 65536,
   248 + 2 * 65536, 0,
   253 + 65536]

/-- Output of the optimizer on modHeaderClobber: header words three and four
were rewritten to an OpBranch %3 because the folding step mistook them for a
preceding OpSelectionMerge. -/
def headerClobberOut : List Nat :=
  [119734787, 65536, 0, 131321, 3,
   131092, 1, 131320, 3, 65789, 131320, 0, 65789]

set_option maxRecDepth 10000 in
/-- Shader produced by parsing modDupResult; the parse is proved successful
in the counterexample theorem. -/
def shDupResult : Shader :=
  match Shader.parse modDupResult with
  | .ok s => s
  | .error _ => default

/-- Shader produced by parsing modForwardRef. -/
def shForwardRef : Shader :=
  match Shader.parse modForwardRef with
  | .ok s => s
  | .error _ => default

/-- Parsed form of the no-change witness module. -/
def shNoOp : Shader :=
  match Shader.parse modNoOp with
  | .ok s => s
  | .error _ => default

/-- Optimizer output of the no-change witness module. -/
def outNoOp : List Nat :=
  match Optimizer.run shNoOp [] ⟨true⟩ with
  | .ok o => o
  | .error _ => []

/-- Parsed form of the constant-guarded switch module. -/
def shFoldSwitchParsed : Shader :=
  match Shader.parse modFoldSwitch with
  | .ok s => s
  | .error _ => default

/-- Optimizer context for the switch module with the guard id 2 resolved as
the constant 7, as the evaluation pass leaves it just before the fold. -/
def ctxFoldSwitch : Ctx :=
  let c := optimizerPrepareData shFoldSwitchParsed
  { c with resolutions := c.resolutions.set 2 ⟨ResType.const, 7⟩ }

/-- Context after folding the switch of the switch module. -/
def ctxFoldSwitchOut : Ctx :=
  match optimizerEvaluateTerminator shFoldSwitchParsed
      (bigCascadeFuel shFoldSwitchParsed) 3 ctxFoldSwitch with
  | .ok c => c
  | .error _ => ctxFoldSwitch

/-- First-pass parse of the 64-bit-switch module. -/
def shSwitch64Pre : Shader :=
  match Shader.parseWords modSwitch64 with
  | .ok s => s
  | .error _ => default

/-- Final process-loop state of the 64-bit-switch module. -/
def stSwitch64 : ProcessState :=
  match processLoop modSwitch64 shSwitch64Pre.instructions.length
      (shSwitch64Pre.instructions.length + 1) 0 ⟨shSwitch64Pre, false⟩ with
  | .ok st => st
  | .error _ => ⟨default, false⟩

/-- A result id is inside the table and mapped to a producer. -/
def IdDefined (results : List Result) (r : Nat) : Prop :=
  r < results.length ∧ (results.getD r ⟨U32MAX⟩).instructionIndex ≠ U32MAX

/-- Producer invariant: the result table maps every id inside the bound to
the last instruction of the module producing it, or to U32MAX when no
instruction does. -/
def ProducerInv (words : List Nat) (instrs : List Instruction)
    (results : List Result) : Prop :=
  ∀ r, r < results.length →
    ((results.getD r ⟨U32MAX⟩).instructionIndex = U32MAX ∧
      ∀ k ins, instrs.get? k = some ins →
        producesId words ins.wordIndex r = false) ∨
    (∃ k ins, instrs.get? k = some ins ∧
      producesId words ins.wordIndex r = true ∧
      (results.getD r ⟨U32MAX⟩).instructionIndex = k ∧
      ∀ m ins2, k < m → instrs.get? m = some ins2 →
        producesId words ins2.wordIndex r = false)

-- Basic facts about the access helpers.

theorem exceptBind_ok {α β : Type} {e : Except Err α} {f : α → Except Err β}
    {b : β} (h : (e >>= f) = .ok b) : ∃ a, e = .ok a ∧ f a = .ok b := by
  cases e with
  | error err => simp [Bind.bind, Except.bind] at h
  | ok a => exact ⟨a, rfl, by simpa [Bind.bind, Except.bind] using h⟩

theorem exceptOkBind {α β : Type} (a : α) (f : α → Except Err β) :
    (Except.ok a >>= f) = f a := rfl

theorem wGet_eq_ok {l : List Nat} {i v : Nat} (h : wGet l i = .ok v) :
    l.get? i = some v := by
  unfold wGet at h
  cases hg : l.get? i with
  | none => rw [hg] at h; exact absurd h (by simp)
  | some w => rw [hg] at h; cases h; rfl

theorem wSet_eq_ok {l l' : List Nat} {i v : Nat} (h : wSet l i v = .ok l') :
    i < l.length ∧ l' = l.set i v := by
  unfold wSet at h
  split at h
  · exact ⟨by assumption, by cases h; rfl⟩
  · exact absurd h (by simp)

theorem instrGet_eq_ok {l : List Instruction} {i : Nat} {ins : Instruction}
    (h : instrGet l i = .ok ins) : l.get? i = some ins := by
  unfold instrGet at h
  cases hg : l.get? i with
  | none => rw [hg] at h; exact absurd h (by simp)
  | some w => rw [hg] at h; cases h; rfl

theorem getD_of_get? {l : List Nat} {i v : Nat} (h : l.get? i = some v) :
    l.getD i 0 = v := by
  rw [List.getD_eq_getD_get?, h]; rfl

-- Skeleton equality: the parts of a shader the process pass never changes.

/-- Skeleton of a shader preserved by Shader::process: word stream, result
table, instruction count and word offsets, decorations and phis. -/
def skelEq (a b : Shader) : Prop :=
  b.spirvWords = a.spirvWords ∧ b.results = a.results ∧
  b.instructions.length = a.instructions.length ∧
  (∀ j, (b.instructions.get? j).map Instruction.wordIndex =
        (a.instructions.get? j).map Instruction.wordIndex) ∧
  b.decorations = a.decorations ∧ b.phis = a.phis

theorem skelEq_refl (a : Shader) : skelEq a a :=
  ⟨rfl, rfl, rfl, fun _ => rfl, rfl, rfl⟩

theorem skelEq_trans {a b c : Shader} (h1 : skelEq a b) (h2 : skelEq b c) :
    skelEq a c := by
  obtain ⟨w1, r1, l1, g1, d1, p1⟩ := h1
  obtain ⟨w2, r2, l2, g2, d2, p2⟩ := h2
  exact ⟨w2.trans w1, r2.trans r1, l2.trans l1,
    fun j => (g2 j).trans (g1 j), d2.trans d1, p2.trans p1⟩

theorem addAdj_skel {st st' : ProcessState} {o t : Nat}
    (h : addAdj st o t = .ok st') : skelEq st.sh st'.sh := by
  unfold addAdj at h
  obtain ⟨ins, hins, h⟩ := exceptBind_ok h
  cases h
  have hg := instrGet_eq_ok hins
  refine ⟨rfl, rfl, by simp, ?_, rfl, rfl⟩
  intro j
  by_cases hj : o = j
  · subst hj
    have hlt : o < st.sh.instructions.length := (List.get?_eq_some.mp hg).1
    rw [List.get?_set_eq_of_lt _ hlt, hg]
    rfl
  · rw [List.get?_set_ne _ _ hj]

theorem processOperandsLoop_skel :
    ∀ fuel words i wordIndex wordCount lay j owi st st',
      processOperandsLoop words i wordIndex wordCount lay fuel j owi st = .ok st' →
      skelEq st.sh st'.sh := by
  intro fuel
  induction fuel with
  | zero => intro _ _ _ _ _ _ _ st st' h; exact absurd h (by simp [processOperandsLoop])
  | succ n ih =>
    intro words i wordIndex wordCount lay j owi st st' h
    rw [processOperandsLoop] at h
    split at h
    · obtain ⟨skip, hskip, h⟩ := exceptBind_ok h
      split at h
      · exact ih words i wordIndex wordCount lay (j + 1) skip.2 st st' h
      · split at h
        · cases h; exact skelEq_refl _
        · obtain ⟨operandId, hop, h⟩ := exceptBind_ok h
          split at h
          · exact absurd h (by simp [throw, throwThe, MonadExceptOf.throw])
          · split at h
            · exact absurd h (by simp [throw, throwThe, MonadExceptOf.throw])
            · obtain ⟨st1, hadd, h⟩ := exceptBind_ok h
              exact skelEq_trans (addAdj_skel hadd)
                (ih words i wordIndex wordCount lay (j + 1)
                  (owi + lay.stride) st1 st' h)
    · cases h; exact skelEq_refl _

theorem processLabelsLoop_skel :
    ∀ fuel words i wordIndex wordCount ls lc lstr j st st',
      processLabelsLoop words i wordIndex wordCount ls lc lstr fuel j st = .ok st' →
      skelEq st.sh st'.sh := by
  intro fuel
  induction fuel with
  | zero => intro _ _ _ _ _ _ _ _ st st' h; exact absurd h (by simp [processLabelsLoop])
  | succ n ih =>
    intro words i wordIndex wordCount ls lc lstr j st st' h
    rw [processLabelsLoop] at h
    split at h
    · obtain ⟨labelId, hl, h⟩ := exceptBind_ok h
      split at h
      · exact absurd h (by simp [throw, throwThe, MonadExceptOf.throw])
      · split at h
        · exact absurd h (by simp [throw, throwThe, MonadExceptOf.throw])
        · obtain ⟨st1, hadd, h⟩ := exceptBind_ok h
          exact skelEq_trans (addAdj_skel hadd)
            (ih words i wordIndex wordCount ls lc lstr (j + 1) st1 st' h)
    · cases h; exact skelEq_refl _

theorem processPhiParentsLoop_skel :
    ∀ fuel words i wordIndex wordCount j st st',
      processPhiParentsLoop words i wordIndex wordCount fuel j st = .ok st' →
      skelEq st.sh st'.sh := by
  intro fuel
  induction fuel with
  | zero => intro _ _ _ _ _ st st' h; exact absurd h (by simp [processPhiParentsLoop])
  | succ n ih =>
    intro words i wordIndex wordCount j st st' h
    rw [processPhiParentsLoop] at h
    split at h
    · obtain ⟨labelId, hl, h⟩ := exceptBind_ok h
      split at h
      · exact absurd h (by simp [throw, throwThe, MonadExceptOf.throw])
      · split at h
        · exact absurd h (by simp [throw, throwThe, MonadExceptOf.throw])
        · obtain ⟨st1, hadd, h⟩ := exceptBind_ok h
          exact skelEq_trans (addAdj_skel hadd)
            (ih words i wordIndex wordCount (j + 2) st1 st' h)
    · cases h; exact skelEq_refl _

theorem processTypeEdge_skel {words : List Nat} {i wordIndex opCode : Nat}
    {st st' : ProcessState}
    (h : processTypeEdge words i wordIndex opCode st = .ok st') :
    skelEq st.sh st'.sh := by
  unfold processTypeEdge at h
  split at h
  · obtain ⟨typeId, ht, h⟩ := exceptBind_ok h
    split at h
    · exact absurd h (by simp [throw, throwThe, MonadExceptOf.throw])
    split at h
    · exact absurd h (by simp [throw, throwThe, MonadExceptOf.throw])
    obtain ⟨st1, hadd, h⟩ := exceptBind_ok h
    have skel0 := addAdj_skel hadd
    split at h
    · obtain ⟨tIns, htIns, h⟩ := exceptBind_ok h
      obtain ⟨tw, htw, h⟩ := exceptBind_ok h
      split at h
      · obtain ⟨v, hv, h⟩ := exceptBind_ok h
        cases h
        exact skelEq_trans skel0 ⟨rfl, rfl, rfl, fun _ => rfl, rfl, rfl⟩
      · cases h; exact skel0
    · cases h; exact skel0
  · cases h; exact skelEq_refl _

theorem processSpecialForms_skel {words : List Nat}
    {i wordIndex wordCount opCode : Nat} {st st' : ProcessState}
    (h : processSpecialForms words i wordIndex wordCount opCode st = .ok st') :
    skelEq st.sh st'.sh := by
  unfold processSpecialForms at h
  split at h
  · exact processPhiParentsLoop_skel _ _ _ _ _ _ _ _ h
  split at h
  · obtain ⟨deco, hd, h⟩ := exceptBind_ok h
    split at h
    · obtain ⟨resultId, hr, h⟩ := exceptBind_ok h
      obtain ⟨constantId, hc, h⟩ := exceptBind_ok h
      split at h
      · exact absurd h (by simp [throw, throwThe, MonadExceptOf.throw])
      split at h
      · exact absurd h (by simp [throw, throwThe, MonadExceptOf.throw])
      simp only [] at h
      cases h
      exact ⟨rfl, rfl, rfl, fun _ => rfl, rfl, rfl⟩
    · cases h; exact skelEq_refl _
  split at h
  · cases h; exact skelEq_refl _
  · cases h; exact skelEq_refl _

theorem processInstruction_skel {words : List Nat} {i : Nat}
    {st st' : ProcessState} (h : processInstruction words i st = .ok st') :
    skelEq st.sh st'.sh := by
  unfold processInstruction at h
  obtain ⟨ins, hins, h⟩ := exceptBind_ok h
  obtain ⟨w, hw, h⟩ := exceptBind_ok h
  split at h
  · exact absurd h (by simp [throw, throwThe, MonadExceptOf.throw])
  obtain ⟨st1, hst1, h⟩ := exceptBind_ok h
  obtain ⟨st2, hst2, h⟩ := exceptBind_ok h
  obtain ⟨st3, hst3, h⟩ := exceptBind_ok h
  have skel2 : skelEq st1.sh st2.sh := by
    unfold runOperandEdges at hst2
    split at hst2
    · exact processOperandsLoop_skel _ _ _ _ _ _ _ _ _ _ hst2
    · cases hst2; exact skelEq_refl _
  have skel3 : skelEq st2.sh st3.sh := by
    unfold runLabelEdges at hst3
    split at hst3
    · exact processLabelsLoop_skel _ _ _ _ _ _ _ _ _ _ _ hst3
    · cases hst3; exact skelEq_refl _
  exact skelEq_trans (processTypeEdge_skel hst1) (skelEq_trans skel2
    (skelEq_trans skel3 (processSpecialForms_skel h)))

theorem processLoop_skel :
    ∀ fuel words n i st st',
      processLoop words n fuel i st = .ok st' → skelEq st.sh st'.sh := by
  intro fuel
  induction fuel with
  | zero => intro _ _ _ st st' h; exact absurd h (by simp [processLoop])
  | succ f ih =>
    intro words n i st st' h
    rw [processLoop] at h
    split at h
    · obtain ⟨st1, h1, h⟩ := exceptBind_ok h
      exact skelEq_trans (processInstruction_skel h1) (ih words n (i + 1) st1 st' h)
    · cases h; exact skelEq_refl _

theorem process_skel {sh sh' : Shader} (h : Shader.process sh = .ok sh') :
    skelEq sh sh' := by
  unfold Shader.process at h
  obtain ⟨st, hst, h⟩ := exceptBind_ok h
  split at h
  · exact absurd h (by simp [throw, throwThe, MonadExceptOf.throw])
  · cases h; exact processLoop_skel _ _ _ _ _ _ hst

theorem sortInstructions_fields {sh sh' : Shader}
    (h : Shader.sortInstructions sh = .ok sh') :
    sh'.spirvWords = sh.spirvWords ∧ sh'.results = sh.results ∧
    sh'.instructions = sh.instructions ∧ sh'.decorations = sh.decorations ∧
    sh'.phis = sh.phis ∧ sh'.specializations = sh.specializations ∧
    sh'.defaultSwitchOpConstantInt = sh.defaultSwitchOpConstantInt ∧
    sh'.listNodes = sh.listNodes := by
  unfold Shader.sortInstructions at h
  obtain ⟨degs, hd, h⟩ := exceptBind_ok h
  obtain ⟨order, ho, h⟩ := exceptBind_ok h
  obtain ⟨isv, hi, h⟩ := exceptBind_ok h
  cases h
  exact ⟨rfl, rfl, rfl, rfl, rfl, rfl, rfl, rfl⟩

theorem parse_decompose {words : List Nat} {sh : Shader}
    (h : Shader.parse words = .ok sh) :
    ∃ sh0 sh1, Shader.parseWords words = .ok sh0 ∧
      Shader.process sh0 = .ok sh1 ∧ Shader.sortInstructions sh1 = .ok sh ∧
      skelEq sh0 sh := by
  unfold Shader.parse at h
  obtain ⟨sh0, h0, h⟩ := exceptBind_ok h
  obtain ⟨sh1, h1, h⟩ := exceptBind_ok h
  refine ⟨sh0, sh1, h0, h1, h, ?_⟩
  have hp := process_skel h1
  obtain ⟨w2, r2, i2, d2, p2, _, _, _⟩ := sortInstructions_fields h
  exact skelEq_trans hp ⟨w2, r2, by rw [i2], fun j => by rw [i2], d2, p2⟩

-- Pure facts about producesId and the producer invariant.

theorem producesId_eq_true_iff {words : List Nat} {wi r : Nat} :
    producesId words wi r = true ↔
      ((SpvHasResultAndType (opOf (words.getD wi 0))).1 = true ∧
        words.getD
          (wi + (if (SpvHasResultAndType (opOf (words.getD wi 0))).2 then 2
            else 1)) 0 = r) := by
  simp [producesId]

theorem producesId_eq_false_iff {words : List Nat} {wi r : Nat} :
    producesId words wi r = false ↔
      ¬((SpvHasResultAndType (opOf (words.getD wi 0))).1 = true ∧
        words.getD
          (wi + (if (SpvHasResultAndType (opOf (words.getD wi 0))).2 then 2
            else 1)) 0 = r) := by
  simp [producesId]

theorem getD_replicate_result {n i : Nat} (h : i < n) :
    (List.replicate n (⟨U32MAX⟩ : Result)).getD i ⟨U32MAX⟩ = ⟨U32MAX⟩ := by
  rw [List.getD_eq_getD_get?, List.get?_eq_getElem?, List.getElem?_replicate]
  simp [h]

theorem getD_set_self {l : List Result} {i : Nat} {v : Result}
    (h : i < l.length) : (l.set i v).getD i ⟨U32MAX⟩ = v := by
  rw [List.getD_eq_getD_get?, List.get?_set_eq_of_lt _ h]; rfl

theorem getD_set_other {l : List Result} {i j : Nat} {v : Result}
    (h : i ≠ j) : (l.set i v).getD j ⟨U32MAX⟩ = l.getD j ⟨U32MAX⟩ := by
  rw [List.getD_eq_getD_get?, List.get?_set_ne _ _ h, List.getD_eq_getD_get?]

theorem get?_concat_cases {l : List Instruction} {x ins : Instruction}
    {k : Nat} (h : (l ++ [x]).get? k = some ins) :
    (k < l.length ∧ l.get? k = some ins) ∨ (k = l.length ∧ ins = x) := by
  rcases Nat.lt_trichotomy k l.length with hk | hk | hk
  · left; exact ⟨hk, by rw [List.get?_append hk] at h; exact h⟩
  · right
    refine ⟨hk, ?_⟩
    subst hk
    rw [List.get?_concat_length] at h
    cases h; rfl
  · exfalso
    have : (l ++ [x]).length ≤ k := by simp; omega
    rw [List.get?_eq_none.2 this] at h
    cases h

theorem ProducerInv_append {words : List Nat} {instrs : List Instruction}
    {results : List Result} {wordIndex : Nat}
    (hinv : ProducerInv words instrs results)
    (hfalse : ∀ r, r < results.length → producesId words wordIndex r = false) :
    ProducerInv words (instrs ++ [⟨wordIndex, U32MAX⟩]) results := by
  intro r hr
  rcases hinv r hr with ⟨h1, h2⟩ | ⟨k, ins, hk, hp, hi, hafter⟩
  · left
    refine ⟨h1, fun k ins hk => ?_⟩
    rcases get?_concat_cases hk with ⟨_, hold⟩ | ⟨_, hx⟩
    · exact h2 k ins hold
    · subst hx; exact hfalse r hr
  · right
    have hklt : k < instrs.length := (List.get?_eq_some.mp hk).1
    refine ⟨k, ins, by rw [List.get?_append hklt]; exact hk, hp, hi,
      fun m ins2 hm hm2 => ?_⟩
    rcases get?_concat_cases hm2 with ⟨_, hold⟩ | ⟨_, hx⟩
    · exact hafter m ins2 hm hold
    · subst hx; exact hfalse r hr

theorem ProducerInv_step {words : List Nat} {instrs : List Instruction}
    {results : List Result} {wordIndex resultId : Nat}
    (hinv : ProducerInv words instrs results)
    (hprod : producesId words wordIndex resultId = true)
    (hother : ∀ r, r ≠ resultId → producesId words wordIndex r = false)
    (hlt : resultId < results.length) :
    ProducerInv words (instrs ++ [⟨wordIndex, U32MAX⟩])
      (results.set resultId ⟨instrs.length⟩) := by
  intro r hr
  rw [List.length_set] at hr
  by_cases hcase : r = resultId
  · subst hcase
    right
    refine ⟨instrs.length, ⟨wordIndex, U32MAX⟩, List.get?_concat_length .., hprod,
      by rw [getD_set_self hr], fun m ins2 hm hm2 => ?_⟩
    exfalso
    have : (instrs ++ [(⟨wordIndex, U32MAX⟩ : Instruction)]).length ≤ m := by
      simp; omega
    rw [List.get?_eq_none.2 this] at hm2
    cases hm2
  · have hne : resultId ≠ r := fun hx => hcase hx.symm
    rcases hinv r hr with ⟨h1, h2⟩ | ⟨k, ins, hk, hp, hi, hafter⟩
    · left
      refine ⟨by rw [getD_set_other hne]; exact h1, fun k ins hk => ?_⟩
      rcases get?_concat_cases hk with ⟨_, hold⟩ | ⟨_, hx⟩
      · exact h2 k ins hold
      · subst hx; exact hother r hcase
    · right
      have hklt : k < instrs.length := (List.get?_eq_some.mp hk).1
      refine ⟨k, ins, by rw [List.get?_append hklt]; exact hk, hp,
        by rw [getD_set_other hne]; exact hi, fun m ins2 hm hm2 => ?_⟩
      rcases get?_concat_cases hm2 with ⟨_, hold⟩ | ⟨_, hx⟩
      · exact hafter m ins2 hm hold
      · subst hx; exact hother r hcase

theorem ProducerInv_transfer {words : List Nat} {a b : Shader}
    (hskel : skelEq a b)
    (hinv : ProducerInv words a.instructions a.results) :
    ProducerInv words b.instructions b.results := by
  obtain ⟨_, hres, _, hget, _, _⟩ := hskel
  intro r hr
  rw [hres] at hr ⊢
  rcases hinv r hr with ⟨h1, h2⟩ | ⟨k, ins, hk, hp, hi, hafter⟩
  · left
    refine ⟨h1, fun k ins hk => ?_⟩
    have hmap := hget k
    rw [hk] at hmap
    cases ha : a.instructions.get? k with
    | none => rw [ha] at hmap; simp at hmap
    | some ins0 =>
      rw [ha] at hmap
      simp only [Option.map_some'] at hmap
      have hwi : ins.wordIndex = ins0.wordIndex := by
        simpa using hmap
      rw [hwi]
      exact h2 k ins0 ha
  · right
    have hmap := hget k
    rw [hk] at hmap
    cases hb : b.instructions.get? k with
    | none => rw [hb] at hmap; simp at hmap
    | some ins1 =>
      rw [hb] at hmap
      simp only [Option.map_some'] at hmap
      have hwi : ins1.wordIndex = ins.wordIndex := by simpa using hmap
      refine ⟨k, ins1, hb, by rw [hwi]; exact hp, hi,
        fun m ins2 hm hm2 => ?_⟩
      have hmap2 := hget m
      rw [hm2] at hmap2
      cases ha2 : a.instructions.get? m with
      | none => rw [ha2] at hmap2; simp at hmap2
      | some ins3 =>
        rw [ha2] at hmap2
        simp only [Option.map_some'] at hmap2
        have hwi2 : ins2.wordIndex = ins3.wordIndex := by simpa using hmap2
        rw [hwi2]
        exact hafter m ins3 hm ha2

theorem parseWordsLoop_producerInv :
    ∀ fuel words wordIndex st st',
      parseWordsLoop words fuel wordIndex st = .ok st' →
      ProducerInv words st.instructions st.results →
      ProducerInv words st'.instructions st'.results := by
  intro fuel
  induction fuel with
  | zero => intro _ _ st st' h _; exact absurd h (by simp [parseWordsLoop])
  | succ n ih =>
    intro words wordIndex st st' h hinv
    rw [parseWordsLoop] at h
    split at h
    case isTrue hidx =>
      obtain ⟨w, hw, h⟩ := exceptBind_ok h
      have hwg := wGet_eq_ok hw
      have hwd : words.getD wordIndex 0 = w := getD_of_get? hwg
      simp only [] at h
      split at h
      case isTrue hres =>
        obtain ⟨resultId, hrid, h⟩ := exceptBind_ok h
        have hridg := wGet_eq_ok hrid
        have hridd := getD_of_get? hridg
        split at h
        case isTrue hbound =>
          exact absurd h (by simp [throw, throwThe, MonadExceptOf.throw,
            Bind.bind, Except.bind])
        case isFalse hbound =>
          refine ih words _ _ st' h ?_
          have hlt : resultId < st.results.length := Nat.lt_of_not_le hbound
          have hprod : producesId words wordIndex resultId = true := by
            rw [producesId_eq_true_iff, hwd]
            exact ⟨hres, hridd⟩
          have hother : ∀ r, r ≠ resultId →
              producesId words wordIndex r = false := by
            intro r hrne
            rw [producesId_eq_false_iff, hwd]
            rintro ⟨_, hx⟩
            rw [hridd] at hx
            exact hrne hx.symm
          have step := ProducerInv_step hinv hprod hother hlt
          split
          · exact step
          split
          · exact step
          · exact step
      case isFalse hres =>
        refine ih words _ _ st' h ?_
        have hfalse : ∀ r, r < st.results.length →
            producesId words wordIndex r = false := by
          intro r _
          rw [producesId_eq_false_iff, hwd]
          rintro ⟨hx, _⟩
          exact hres hx
        have step := ProducerInv_append hinv hfalse
        split
        · exact step
        split
        · exact step
        · exact step
    case isFalse =>
      cases h
      exact hinv

theorem parseWords_fields {words : List Nat} {sh0 : Shader}
    (h : Shader.parseWords words = .ok sh0) :
    sh0.spirvWords = words ∧
    ProducerInv words sh0.instructions sh0.results := by
  unfold Shader.parseWords at h
  split at h
  · exact absurd h (by simp [throw, throwThe, MonadExceptOf.throw])
  obtain ⟨w0, hw0, h⟩ := exceptBind_ok h
  split at h
  · exact absurd h (by simp [throw, throwThe, MonadExceptOf.throw])
  obtain ⟨w1, hw1, h⟩ := exceptBind_ok h
  split at h
  · exact absurd h (by simp [throw, throwThe, MonadExceptOf.throw])
  obtain ⟨idBound, hib, h⟩ := exceptBind_ok h
  obtain ⟨st, hloop, h⟩ := exceptBind_ok h
  cases h
  refine ⟨rfl, ?_⟩
  refine parseWordsLoop_producerInv _ _ _ _ _ hloop ?_
  intro r hr
  left
  constructor
  · exact congrArg Result.instructionIndex
      (getD_replicate_result (by simpa using hr))
  · intro k ins hk
    simp at hk

set_option maxHeartbeats 1000000 in
/-- Claim C8 (amended): parse performs no duplicate-result check; in every
successfully parsed shader the result table maps each produced id to its
last producer in the word stream, and to U32MAX when no instruction produces
it.  Modules with duplicate producers parse successfully (see the
counterexample theorem), the later producer winning. -/
theorem C8_results_map_to_last_producer :
    ∀ words sh, Shader.parse words = .ok sh →
      ProducerInv words sh.instructions sh.results := by
  intro words sh h
  obtain ⟨sh0, sh1, h0, h1, hs, hskel⟩ := parse_decompose h
  obtain ⟨hwords, hinv⟩ := parseWords_fields h0
  exact ProducerInv_transfer hskel hinv

/-- Witness for claim C8: the amended description holds of the parsed
modDupResult shader, whose duplicated result id 1 maps to instruction 1. -/
theorem C8_results_map_to_last_producer_witness :
    ProducerInv modDupResult shDupResult.instructions shDupResult.results :=
  C8_results_map_to_last_producer modDupResult shDupResult rfl

-- Referenced-id validation: every check performed by the process pass.

theorem addAdj_results {st st' : ProcessState} {o t : Nat}
    (h : addAdj st o t = .ok st') : st'.sh.results = st.sh.results :=
  (addAdj_skel h).2.1

theorem processOperandsLoop_collect :
    ∀ fuel words i wordIndex wordCount lay j owi st st',
      processOperandsLoop words i wordIndex wordCount lay fuel j owi st = .ok st' →
      ∃ ids, collectOperandIds words wordIndex wordCount lay fuel j owi = .ok ids ∧
        ∀ r ∈ ids, IdDefined st.sh.results r := by
  intro fuel
  induction fuel with
  | zero => intro _ _ _ _ _ _ _ st st' h; exact absurd h (by simp [processOperandsLoop])
  | succ n ih =>
    intro words i wordIndex wordCount lay j owi st st' h
    rw [processOperandsLoop] at h
    split at h
    case isTrue hj =>
      obtain ⟨skip, hskip, h⟩ := exceptBind_ok h
      split at h
      case isTrue hs1 =>
        obtain ⟨ids, hcol, hval⟩ := ih words i wordIndex wordCount lay (j + 1)
          skip.2 st st' h
        exact ⟨ids, by simp [collectOperandIds, hj, hskip, hs1, hcol,
          Bind.bind, Except.bind], hval⟩
      case isFalse hs1 =>
        split at h
        case isTrue hb =>
          cases h
          exact ⟨[], by simp [collectOperandIds, hj, hskip, hs1, hb,
            Bind.bind, Except.bind, pure, Except.pure], by simp⟩
        case isFalse hb =>
          obtain ⟨operandId, hop, h⟩ := exceptBind_ok h
          split at h
          case isTrue hb1 =>
            exact absurd h (by simp [throw, throwThe, MonadExceptOf.throw,
              Bind.bind, Except.bind])
          case isFalse hb1 =>
            split at h
            case isTrue hb2 =>
              exact absurd h (by simp [throw, throwThe, MonadExceptOf.throw,
                Bind.bind, Except.bind])
            case isFalse hb2 =>
              obtain ⟨st1, hadd, h⟩ := exceptBind_ok h
              obtain ⟨ids, hcol, hval⟩ := ih words i wordIndex wordCount lay
                (j + 1) (owi + lay.stride) st1 st' h
              refine ⟨operandId :: ids, by simp [collectOperandIds, hj, hskip,
                hs1, hb, hop, hcol, Bind.bind, Except.bind, pure, Except.pure],
                ?_⟩
              intro r hr
              rcases List.mem_cons.mp hr with hr | hr
              · subst hr
                exact ⟨Nat.lt_of_not_le hb1, hb2⟩
              · have := hval r hr
                rwa [addAdj_results hadd] at this
    case isFalse hj =>
      cases h
      exact ⟨[], by simp [collectOperandIds, hj, pure, Except.pure], by simp⟩

theorem processLabelsLoop_collect :
    ∀ fuel words i wordIndex wordCount ls lc lstr j st st',
      processLabelsLoop words i wordIndex wordCount ls lc lstr fuel j st = .ok st' →
      ∃ ids, collectLabelIds words wordIndex wordCount ls lc lstr fuel j = .ok ids ∧
        ∀ r ∈ ids, IdDefined st.sh.results r := by
  intro fuel
  induction fuel with
  | zero => intro _ _ _ _ _ _ _ _ st st' h; exact absurd h (by simp [processLabelsLoop])
  | succ n ih =>
    intro words i wordIndex wordCount ls lc lstr j st st' h
    rw [processLabelsLoop] at h
    split at h
    case isTrue hj =>
      obtain ⟨labelId, hl, h⟩ := exceptBind_ok h
      split at h
      case isTrue hb1 =>
        exact absurd h (by simp [throw, throwThe, MonadExceptOf.throw,
          Bind.bind, Except.bind])
      case isFalse hb1 =>
        split at h
        case isTrue hb2 =>
          exact absurd h (by simp [throw, throwThe, MonadExceptOf.throw,
            Bind.bind, Except.bind])
        case isFalse hb2 =>
          obtain ⟨st1, hadd, h⟩ := exceptBind_ok h
          obtain ⟨ids, hcol, hval⟩ := ih words i wordIndex wordCount ls lc lstr
            (j + 1) st1 st' h
          refine ⟨labelId :: ids, by simp [collectLabelIds, hj, hl, hcol,
            Bind.bind, Except.bind, pure, Except.pure], ?_⟩
          intro r hr
          rcases List.mem_cons.mp hr with hr | hr
          · subst hr
            exact ⟨Nat.lt_of_not_le hb1, hb2⟩
          · have := hval r hr
            rwa [addAdj_results hadd] at this
    case isFalse hj =>
      cases h
      exact ⟨[], by simp [collectLabelIds, hj, pure, Except.pure], by simp⟩

theorem processPhiParentsLoop_collect :
    ∀ fuel words i wordIndex wordCount j st st',
      processPhiParentsLoop words i wordIndex wordCount fuel j st = .ok st' →
      ∃ ids, phiParentIds words wordIndex wordCount fuel j = .ok ids ∧
        ∀ r ∈ ids, IdDefined st.sh.results r := by
  intro fuel
  induction fuel with
  | zero => intro _ _ _ _ _ st st' h; exact absurd h (by simp [processPhiParentsLoop])
  | succ n ih =>
    intro words i wordIndex wordCount j st st' h
    rw [processPhiParentsLoop] at h
    split at h
    case isTrue hj =>
      obtain ⟨labelId, hl, h⟩ := exceptBind_ok h
      split at h
      case isTrue hb1 =>
        exact absurd h (by simp [throw, throwThe, MonadExceptOf.throw,
          Bind.bind, Except.bind])
      case isFalse hb1 =>
        split at h
        case isTrue hb2 =>
          exact absurd h (by simp [throw, throwThe, MonadExceptOf.throw,
            Bind.bind, Except.bind])
        case isFalse hb2 =>
          obtain ⟨st1, hadd, h⟩ := exceptBind_ok h
          obtain ⟨ids, hcol, hval⟩ := ih words i wordIndex wordCount (j + 2)
            st1 st' h
          refine ⟨labelId :: ids, by simp [phiParentIds, hj, hl, hcol,
            Bind.bind, Except.bind, pure, Except.pure], ?_⟩
          intro r hr
          rcases List.mem_cons.mp hr with hr | hr
          · subst hr
            exact ⟨Nat.lt_of_not_le hb1, hb2⟩
          · have := hval r hr
            rwa [addAdj_results hadd] at this
    case isFalse hj =>
      cases h
      exact ⟨[], by simp [phiParentIds, hj, pure, Except.pure], by simp⟩

theorem processTypeEdge_valid {words : List Nat} {i wordIndex opCode : Nat}
    {st st' : ProcessState}
    (h : processTypeEdge words i wordIndex opCode st = .ok st') :
    (SpvHasResultAndType opCode).2 = true →
      ∃ t, wGet words (wordIndex + 1) = .ok t ∧ IdDefined st.sh.results t := by
  intro htype
  unfold processTypeEdge at h
  rw [if_pos htype] at h
  obtain ⟨typeId, ht, h⟩ := exceptBind_ok h
  split at h
  case isTrue hb1 =>
    exact absurd h (by simp [throw, throwThe, MonadExceptOf.throw,
      Bind.bind, Except.bind])
  case isFalse hb1 =>
    split at h
    case isTrue hb2 =>
      exact absurd h (by simp [throw, throwThe, MonadExceptOf.throw,
        Bind.bind, Except.bind])
    case isFalse hb2 =>
      exact ⟨typeId, ht, Nat.lt_of_not_le hb1, hb2⟩

theorem processInstruction_refs {words : List Nat} {i : Nat}
    {st st' : ProcessState} (h : processInstruction words i st = .ok st') :
    ∃ ins, st.sh.instructions.get? i = some ins ∧
      ∃ ids, referencedIdsOfInstr words ins.wordIndex = .ok ids ∧
        ∀ r ∈ ids, IdDefined st.sh.results r := by
  unfold processInstruction at h
  obtain ⟨ins, hins, h⟩ := exceptBind_ok h
  obtain ⟨w, hw, h⟩ := exceptBind_ok h
  have hwd : words.getD ins.wordIndex 0 = w := getD_of_get? (wGet_eq_ok hw)
  split at h
  case isTrue => exact absurd h (by simp [throw, throwThe, MonadExceptOf.throw])
  case isFalse hsupp =>
  obtain ⟨st1, hst1, h⟩ := exceptBind_ok h
  obtain ⟨st2, hst2, h⟩ := exceptBind_ok h
  obtain ⟨st3, hst3, h⟩ := exceptBind_ok h
  have hres1 : st1.sh.results = st.sh.results := (processTypeEdge_skel hst1).2.1
  have hres2 : st2.sh.results = st1.sh.results := by
    unfold runOperandEdges at hst2
    split at hst2
    · exact (processOperandsLoop_skel _ _ _ _ _ _ _ _ _ _ hst2).2.1
    · cases hst2; rfl
  have hres3 : st3.sh.results = st2.sh.results := by
    unfold runLabelEdges at hst3
    split at hst3
    · exact (processLabelsLoop_skel _ _ _ _ _ _ _ _ _ _ _ hst3).2.1
    · cases hst3; rfl
  -- type component
  have htids : ∃ tids, (if (SpvHasResultAndType (opOf w)).2 then
      wGet words (ins.wordIndex + 1) >>= fun t => pure [t]
    else pure ([] : List Nat)) = .ok tids ∧
      ∀ r ∈ tids, IdDefined st.sh.results r := by
    by_cases htype : (SpvHasResultAndType (opOf w)).2 = true
    · obtain ⟨t, hta, htb⟩ := processTypeEdge_valid hst1 htype
      refine ⟨[t], by simp [htype, hta, Bind.bind, Except.bind, pure,
        Except.pure], ?_⟩
      intro r hr
      rcases List.mem_singleton.mp hr with rfl
      exact htb
    · exact ⟨[], by simp [htype, pure, Except.pure], by simp⟩
  obtain ⟨tids, htideq, htidval⟩ := htids
  -- operand component
  have hops : ∃ ops, operandIdsOfInstr words ins.wordIndex (wcOf w) = .ok ops ∧
      ∀ r ∈ ops, IdDefined st.sh.results r := by
    unfold runOperandEdges at hst2
    split at hst2
    case h_1 lay heq =>
      obtain ⟨ids, hcol, hval⟩ := processOperandsLoop_collect _ _ _ _ _ _ _ _ _ _ hst2
      refine ⟨ids, ?_, fun r hr => hres1 ▸ hval r hr⟩
      unfold operandIdsOfInstr
      rw [hwd, heq]
      exact hcol
    case h_2 heq =>
      refine ⟨[], ?_, by simp⟩
      unfold operandIdsOfInstr
      rw [hwd, heq]
      rfl
  obtain ⟨ops, hopeq, hopval⟩ := hops
  -- label component
  have hlids : ∃ lids, labelIdsOfInstr words ins.wordIndex (wcOf w) = .ok lids ∧
      ∀ r ∈ lids, IdDefined st.sh.results r := by
    unfold runLabelEdges at hst3
    split at hst3
    case h_1 ls lc lstr heq =>
      obtain ⟨ids, hcol, hval⟩ := processLabelsLoop_collect _ _ _ _ _ _ _ _ _ _ _ hst3
      refine ⟨ids, ?_, fun r hr => by
        have := hval r hr
        rw [hres2, hres1] at this
        exact this⟩
      unfold labelIdsOfInstr
      rw [hwd, heq]
      exact hcol
    case h_2 heq =>
      refine ⟨[], ?_, by simp⟩
      unfold labelIdsOfInstr
      rw [hwd, heq]
      rfl
  obtain ⟨lids, hlideq, hlidval⟩ := hlids
  -- phi component
  have hpids : ∃ pids, (if opOf w = OpPhi then
      phiParentIds words ins.wordIndex (wcOf w) (wcOf w + 2) 3
    else pure ([] : List Nat)) = .ok pids ∧
      ∀ r ∈ pids, IdDefined st.sh.results r := by
    unfold processSpecialForms at h
    split at h
    case isTrue hphi =>
      obtain ⟨ids, hcol, hval⟩ := processPhiParentsLoop_collect _ _ _ _ _ _ _ _ h
      refine ⟨ids, by rw [if_pos hphi]; exact hcol, ?_⟩
      intro r hr
      have := hval r hr
      rw [hres3, hres2, hres1] at this
      exact this
    case isFalse hphi =>
      exact ⟨[], by rw [if_neg hphi]; rfl, by simp⟩
  obtain ⟨pids, hpideq, hpidval⟩ := hpids
  refine ⟨ins, instrGet_eq_ok hins, tids ++ ops ++ lids ++ pids, ?_, ?_⟩
  · unfold referencedIdsOfInstr
    rw [hw]
    simp only [exceptOkBind, htideq, hopeq, hlideq, hpideq]
    rfl
  · intro r hr
    rcases List.mem_append.mp hr with hr | hr
    · rcases List.mem_append.mp hr with hr | hr
      · rcases List.mem_append.mp hr with hr | hr
        · exact htidval r hr
        · exact hopval r hr
      · exact hlidval r hr
    · exact hpidval r hr

theorem processLoop_each :
    ∀ fuel words n i st st', processLoop words n fuel i st = .ok st' →
      ∀ k, i ≤ k → k < n →
        ∃ stk stk', skelEq st.sh stk.sh ∧
          processInstruction words k stk = .ok stk' := by
  intro fuel
  induction fuel with
  | zero => intro _ _ _ st st' h; exact absurd h (by simp [processLoop])
  | succ f ih =>
    intro words n i st st' h k hik hkn
    rw [processLoop] at h
    split at h
    case isTrue hin =>
      obtain ⟨st1, h1, h⟩ := exceptBind_ok h
      rcases Nat.eq_or_lt_of_le hik with heq | hlt
      · subst heq
        exact ⟨st, st1, skelEq_refl _, h1⟩
      · obtain ⟨stk, stk', hskel, hp⟩ := ih words n (i + 1) st1 st' h k hlt hkn
        exact ⟨stk, stk', skelEq_trans (processInstruction_skel h1) hskel, hp⟩
    case isFalse hin =>
      omega

theorem instrWordIndex_of_skel {a b : Shader} (hskel : skelEq a b) {k : Nat}
    {ins : Instruction} (hk : b.instructions.get? k = some ins) :
    ∃ ins0, a.instructions.get? k = some ins0 ∧
      ins0.wordIndex = ins.wordIndex := by
  have hmap := hskel.2.2.2.1 k
  rw [hk] at hmap
  cases ha : a.instructions.get? k with
  | none => rw [ha] at hmap; simp at hmap
  | some ins0 =>
    rw [ha] at hmap
    simp only [Option.map_some'] at hmap
    exact ⟨ins0, rfl, by simpa using hmap.symm⟩

set_option maxHeartbeats 1000000 in
/-- Claim C4 (amended): in every successfully parsed shader, every id an
instruction references (type, operand, label or phi parent) is inside the id
bound and produced by some instruction of the module; the position of the
producer relative to the use is irrelevant (the counterexample theorem
exhibits an accepted forward reference). -/
theorem C4_references_are_bound_and_produced :
    ∀ words sh, Shader.parse words = .ok sh →
      ∀ i ins, sh.instructions.get? i = some ins →
        ∃ ids, referencedIdsOfInstr words ins.wordIndex = .ok ids ∧
          ∀ r ∈ ids, r < sh.results.length ∧
            ∃ k ins2, sh.instructions.get? k = some ins2 ∧
              producesId words ins2.wordIndex r = true := by
  intro words sh h i ins hi
  obtain ⟨sh0, sh1, h0, h1, hs, hskel⟩ := parse_decompose h
  obtain ⟨hwords, hinv⟩ := parseWords_fields h0
  have hinvsh : ProducerInv words sh.instructions sh.results :=
    ProducerInv_transfer hskel hinv
  unfold Shader.process at h1
  rw [hwords] at h1
  obtain ⟨stp, hloop, h1⟩ := exceptBind_ok h1
  split at h1
  · exact absurd h1 (by simp [throw, throwThe, MonadExceptOf.throw])
  cases h1
  -- locate the use instruction in the initial process state
  obtain ⟨ins0, hi0, hwi0⟩ := instrWordIndex_of_skel hskel hi
  have hilen : i < sh0.instructions.length := (List.get?_eq_some.mp hi0).1
  obtain ⟨stk, stk', hskelk, hpk⟩ :=
    processLoop_each _ words sh0.instructions.length 0 ⟨sh0, false⟩ stp hloop i
      (Nat.zero_le i) hilen
  obtain ⟨insk, hik, ids, href, hval⟩ := processInstruction_refs hpk
  -- the word offsets agree
  obtain ⟨ins0b, hi0b, hwib⟩ := instrWordIndex_of_skel hskelk hik
  have hwik : insk.wordIndex = ins.wordIndex := by
    rw [hi0b] at hi0
    cases hi0
    rw [← hwi0, hwib]
  rw [hwik] at href
  refine ⟨ids, href, fun r hr => ?_⟩
  have hvr := hval r hr
  have hresk : stk.sh.results = sh.results := by
    rw [hskelk.2.1, hskel.2.1]
  rw [hresk] at hvr
  obtain ⟨hrlt, hrdef⟩ := hvr
  refine ⟨hrlt, ?_⟩
  rcases hinvsh r hrlt with ⟨hmax, _⟩ | ⟨k, ins2, hk, hp, _, _⟩
  · exact absurd hmax hrdef
  · exact ⟨k, ins2, hk, hp⟩

/-- Witness for claim C4: on the forward-referencing module, the branch
instruction's referenced label id 1 is inside the bound and produced (by the
later OpLabel). -/
theorem C4_references_are_bound_and_produced_witness :
    ∃ ids, referencedIdsOfInstr modForwardRef 5 = .ok ids ∧
      ∀ r ∈ ids, r < shForwardRef.results.length ∧
        ∃ k ins2, shForwardRef.instructions.get? k = some ins2 ∧
          producesId modForwardRef ins2.wordIndex r = true :=
  C4_references_are_bound_and_produced modForwardRef shForwardRef rfl 0
    ⟨5, 0⟩ rfl

-- Switch flag and default switch constant: evolution through the process
-- pass, for the MissingSwitchConstant characterization.

theorem skelEq_symm {a b : Shader} (h : skelEq a b) : skelEq b a := by
  obtain ⟨w, r, l, g, d, p⟩ := h
  exact ⟨w.symm, r.symm, l.symm, fun j => (g j).symm, d.symm, p.symm⟩

theorem addAdj_flagDefault {st st' : ProcessState} {o t : Nat}
    (h : addAdj st o t = .ok st') :
    st'.foundOpSwitch = st.foundOpSwitch ∧
    st'.sh.defaultSwitchOpConstantInt = st.sh.defaultSwitchOpConstantInt := by
  unfold addAdj at h
  obtain ⟨ins, hins, h⟩ := exceptBind_ok h
  cases h
  exact ⟨rfl, rfl⟩

theorem processOperandsLoop_flagDefault :
    ∀ fuel words i wordIndex wordCount lay j owi st st',
      processOperandsLoop words i wordIndex wordCount lay fuel j owi st = .ok st' →
      st'.foundOpSwitch = st.foundOpSwitch ∧
      st'.sh.defaultSwitchOpConstantInt = st.sh.defaultSwitchOpConstantInt := by
  intro fuel
  induction fuel with
  | zero => intro _ _ _ _ _ _ _ st st' h; exact absurd h (by simp [processOperandsLoop])
  | succ n ih =>
    intro words i wordIndex wordCount lay j owi st st' h
    rw [processOperandsLoop] at h
    split at h
    · obtain ⟨skip, hskip, h⟩ := exceptBind_ok h
      split at h
      · exact ih words i wordIndex wordCount lay (j + 1) skip.2 st st' h
      · split at h
        · cases h; exact ⟨rfl, rfl⟩
        · obtain ⟨operandId, hop, h⟩ := exceptBind_ok h
          split at h
          · exact absurd h (by simp [throw, throwThe, MonadExceptOf.throw])
          · split at h
            · exact absurd h (by simp [throw, throwThe, MonadExceptOf.throw])
            · obtain ⟨st1, hadd, h⟩ := exceptBind_ok h
              obtain ⟨f1, d1⟩ := addAdj_flagDefault hadd
              obtain ⟨f2, d2⟩ := ih words i wordIndex wordCount lay (j + 1)
                (owi + lay.stride) st1 st' h
              exact ⟨f2.trans f1, d2.trans d1⟩
    · cases h; exact ⟨rfl, rfl⟩

theorem processLabelsLoop_flagDefault :
    ∀ fuel words i wordIndex wordCount ls lc lstr j st st',
      processLabelsLoop words i wordIndex wordCount ls lc lstr fuel j st = .ok st' →
      st'.foundOpSwitch = st.foundOpSwitch ∧
      st'.sh.defaultSwitchOpConstantInt = st.sh.defaultSwitchOpConstantInt := by
  intro fuel
  induction fuel with
  | zero => intro _ _ _ _ _ _ _ _ st st' h; exact absurd h (by simp [processLabelsLoop])
  | succ n ih =>
    intro words i wordIndex wordCount ls lc lstr j st st' h
    rw [processLabelsLoop] at h
    split at h
    · obtain ⟨labelId, hl, h⟩ := exceptBind_ok h
      split at h
      · exact absurd h (by simp [throw, throwThe, MonadExceptOf.throw])
      · split at h
        · exact absurd h (by simp [throw, throwThe, MonadExceptOf.throw])
        · obtain ⟨st1, hadd, h⟩ := exceptBind_ok h
          obtain ⟨f1, d1⟩ := addAdj_flagDefault hadd
          obtain ⟨f2, d2⟩ := ih words i wordIndex wordCount ls lc lstr (j + 1)
            st1 st' h
          exact ⟨f2.trans f1, d2.trans d1⟩
    · cases h; exact ⟨rfl, rfl⟩

theorem processPhiParentsLoop_flagDefault :
    ∀ fuel words i wordIndex wordCount j st st',
      processPhiParentsLoop words i wordIndex wordCount fuel j st = .ok st' →
      st'.foundOpSwitch = st.foundOpSwitch ∧
      st'.sh.defaultSwitchOpConstantInt = st.sh.defaultSwitchOpConstantInt := by
  intro fuel
  induction fuel with
  | zero => intro _ _ _ _ _ st st' h; exact absurd h (by simp [processPhiParentsLoop])
  | succ n ih =>
    intro words i wordIndex wordCount j st st' h
    rw [processPhiParentsLoop] at h
    split at h
    · obtain ⟨labelId, hl, h⟩ := exceptBind_ok h
      split at h
      · exact absurd h (by simp [throw, throwThe, MonadExceptOf.throw])
      · split at h
        · exact absurd h (by simp [throw, throwThe, MonadExceptOf.throw])
        · obtain ⟨st1, hadd, h⟩ := exceptBind_ok h
          obtain ⟨f1, d1⟩ := addAdj_flagDefault hadd
          obtain ⟨f2, d2⟩ := ih words i wordIndex wordCount (j + 2) st1 st' h
          exact ⟨f2.trans f1, d2.trans d1⟩
    · cases h; exact ⟨rfl, rfl⟩

theorem constantIntTypeAt_transfer {words : List Nat} {a b : Shader}
    (hskel : skelEq a b) (wi : Nat) :
    constantIntTypeAt words b wi = constantIntTypeAt words a wi := by
  unfold constantIntTypeAt
  rw [hskel.2.1]
  have hmap := hskel.2.2.2.1
    ((a.results.getD (words.getD (wi + 1) 0) ⟨U32MAX⟩).instructionIndex)
  cases hb : b.instructions.get?
      ((a.results.getD (words.getD (wi + 1) 0) ⟨U32MAX⟩).instructionIndex) with
  | none =>
    rw [hb] at hmap
    cases ha : a.instructions.get?
        ((a.results.getD (words.getD (wi + 1) 0) ⟨U32MAX⟩).instructionIndex) with
    | none => rfl
    | some y => rw [ha] at hmap; simp at hmap
  | some x =>
    rw [hb] at hmap
    cases ha : a.instructions.get?
        ((a.results.getD (words.getD (wi + 1) 0) ⟨U32MAX⟩).instructionIndex) with
    | none => rw [ha] at hmap; simp at hmap
    | some y =>
      rw [ha] at hmap
      simp only [Option.map_some'] at hmap
      have hx : x.wordIndex = y.wordIndex := by simpa using hmap
      simp [hx]

theorem processTypeEdge_flagDefault {words : List Nat} {i wi opCode : Nat}
    {st st' : ProcessState}
    (h : processTypeEdge words i wi opCode st = .ok st')
    (hop : opCode = opOf (words.getD wi 0))
    (hval : opOf (words.getD wi 0) = OpConstant →
      words.getD (wi + 2) 0 ≠ U32MAX) :
    st'.foundOpSwitch = st.foundOpSwitch ∧
    (st'.sh.defaultSwitchOpConstantInt = U32MAX ↔
      st.sh.defaultSwitchOpConstantInt = U32MAX ∧
      constantIntTypeAt words st.sh wi = false) := by
  unfold processTypeEdge at h
  split at h
  case isFalse hty =>
    cases h
    refine ⟨rfl, ?_⟩
    have hnc : ¬ (opOf (words.getD wi 0) = OpConstant) := by
      intro hx
      apply hty
      rw [hop, hx]
      decide
    have hcf : constantIntTypeAt words st.sh wi = false := by
      unfold constantIntTypeAt
      rw [decide_eq_false hnc, Bool.false_and]
    rw [hcf]
    simp
  case isTrue hty =>
    obtain ⟨typeId, htyid, h⟩ := exceptBind_ok h
    have htydd : words.getD (wi + 1) 0 = typeId := getD_of_get? (wGet_eq_ok htyid)
    split at h
    · exact absurd h (by simp [throw, throwThe, MonadExceptOf.throw,
        Bind.bind, Except.bind])
    case isFalse hb1 =>
    split at h
    · exact absurd h (by simp [throw, throwThe, MonadExceptOf.throw,
        Bind.bind, Except.bind])
    case isFalse hb2 =>
    obtain ⟨st1, hadd, h⟩ := exceptBind_ok h
    obtain ⟨fadd, dadd⟩ := addAdj_flagDefault hadd
    have hskel := addAdj_skel hadd
    split at h
    case isFalse hcond =>
      cases h
      refine ⟨fadd, ?_⟩
      rw [dadd]
      by_cases hc : opCode = OpConstant
      · have hd1 : ¬ st.sh.defaultSwitchOpConstantInt = U32MAX := by
          intro hx
          exact hcond ⟨hc, by rw [dadd]; exact hx⟩
        constructor
        · intro hx; exact absurd hx hd1
        · rintro ⟨hx, _⟩; exact absurd hx hd1
      · have hcf : constantIntTypeAt words st.sh wi = false := by
          unfold constantIntTypeAt
          have hnc : ¬ (opOf (words.getD wi 0) = OpConstant) := by
            rw [← hop]; exact hc
          rw [decide_eq_false hnc, Bool.false_and]
        rw [hcf]
        simp
    case isTrue hcond =>
      obtain ⟨hc, hdmax1⟩ := hcond
      have hconst : opOf (words.getD wi 0) = OpConstant := hop ▸ hc
      have hdmax : st.sh.defaultSwitchOpConstantInt = U32MAX := by
        rw [← dadd]; exact hdmax1
      obtain ⟨tIns, htIns, h⟩ := exceptBind_ok h
      obtain ⟨tw, htw, h⟩ := exceptBind_ok h
      have htwd : words.getD tIns.wordIndex 0 = tw := getD_of_get? (wGet_eq_ok htw)
      have htg := instrGet_eq_ok htIns
      rw [hskel.2.1] at htg
      obtain ⟨tIns0, htg0, hwi0⟩ := instrWordIndex_of_skel hskel htg
      split at h
      case isTrue htint =>
        obtain ⟨v, hv, h⟩ := exceptBind_ok h
        cases h
        have hvd : words.getD (wi + 2) 0 = v := getD_of_get? (wGet_eq_ok hv)
        have hvne : v ≠ U32MAX := by
          have := hval hconst
          rw [hvd] at this
          exact this
        have hct : constantIntTypeAt words st.sh wi = true := by
          unfold constantIntTypeAt
          rw [htydd, htg0]
          show (decide (opOf (words.getD wi 0) = OpConstant) &&
            decide (opOf (words.getD tIns0.wordIndex 0) = OpTypeInt)) = true
          rw [hwi0, htwd, decide_eq_true hconst, decide_eq_true htint]
          rfl
        refine ⟨fadd, ?_⟩
        constructor
        · intro hx; exact absurd hx hvne
        · rintro ⟨_, hcf⟩
          rw [hct] at hcf
          cases hcf
      case isFalse htint =>
        cases h
        refine ⟨fadd, ?_⟩
        rw [dadd]
        have hcf : constantIntTypeAt words st.sh wi = false := by
          unfold constantIntTypeAt
          rw [htydd, htg0]
          show (decide (opOf (words.getD wi 0) = OpConstant) &&
            decide (opOf (words.getD tIns0.wordIndex 0) = OpTypeInt)) = false
          rw [hwi0, htwd, decide_eq_false htint, Bool.and_false]
        rw [hcf]
        simp

theorem processSpecialForms_flagDefault {words : List Nat}
    {i wi wc opCode : Nat} {st st' : ProcessState}
    (h : processSpecialForms words i wi wc opCode st = .ok st') :
    st'.sh.defaultSwitchOpConstantInt = st.sh.defaultSwitchOpConstantInt ∧
    (st'.foundOpSwitch = true ↔ st.foundOpSwitch = true ∨ opCode = OpSwitch) := by
  unfold processSpecialForms at h
  split at h
  case isTrue hphi =>
    obtain ⟨f, d⟩ := processPhiParentsLoop_flagDefault _ _ _ _ _ _ _ _ h
    refine ⟨d, ?_⟩
    rw [f]
    constructor
    · exact Or.inl
    · rintro (hx | hx)
      · exact hx
      · rw [hphi] at hx; exact absurd hx (by decide)
  case isFalse hphi =>
  split at h
  case isTrue hdec =>
    obtain ⟨deco, hd, h⟩ := exceptBind_ok h
    have hns : opCode ≠ OpSwitch := by rw [hdec]; decide
    split at h
    case isTrue hspec =>
      obtain ⟨resultId, hr, h⟩ := exceptBind_ok h
      obtain ⟨constantId, hcid, h⟩ := exceptBind_ok h
      split at h
      · exact absurd h (by simp [throw, throwThe, MonadExceptOf.throw])
      · split at h
        · exact absurd h (by simp [throw, throwThe, MonadExceptOf.throw])
        · cases h
          refine ⟨rfl, ?_⟩
          constructor
          · exact Or.inl
          · rintro (hx | hx)
            · exact hx
            · exact absurd hx hns
    case isFalse hspec =>
      cases h
      refine ⟨rfl, ?_⟩
      constructor
      · exact Or.inl
      · rintro (hx | hx)
        · exact hx
        · exact absurd hx hns
  case isFalse hdec =>
  split at h
  case isTrue hsw =>
    cases h
    exact ⟨rfl, by simp [hsw]⟩
  case isFalse hsw =>
    cases h
    refine ⟨rfl, ?_⟩
    constructor
    · exact Or.inl
    · rintro (hx | hx)
      · exact hx
      · exact absurd hx hsw

theorem processInstruction_flagDefault {words : List Nat} {k : Nat}
    {st st' : ProcessState} {ins : Instruction}
    (h : processInstruction words k st = .ok st')
    (hins : st.sh.instructions.get? k = some ins)
    (hval : opOf (words.getD ins.wordIndex 0) = OpConstant →
      words.getD (ins.wordIndex + 2) 0 ≠ U32MAX) :
    (st'.foundOpSwitch = true ↔ st.foundOpSwitch = true ∨
      opOf (words.getD ins.wordIndex 0) = OpSwitch) ∧
    (st'.sh.defaultSwitchOpConstantInt = U32MAX ↔
      st.sh.defaultSwitchOpConstantInt = U32MAX ∧
      constantIntTypeAt words st.sh ins.wordIndex = false) := by
  unfold processInstruction at h
  obtain ⟨ins1, hins1, h⟩ := exceptBind_ok h
  have hins1e : ins1 = ins := by
    have hg := instrGet_eq_ok hins1
    rw [hins] at hg
    cases hg
    rfl
  subst hins1e
  obtain ⟨w, hw, h⟩ := exceptBind_ok h
  have hwd : words.getD ins1.wordIndex 0 = w := getD_of_get? (wGet_eq_ok hw)
  split at h
  · exact absurd h (by simp [throw, throwThe, MonadExceptOf.throw])
  case isFalse hsupp =>
  obtain ⟨st1, hst1, h⟩ := exceptBind_ok h
  obtain ⟨st2, hst2, h⟩ := exceptBind_ok h
  obtain ⟨st3, hst3, h⟩ := exceptBind_ok h
  obtain ⟨ftype, dtype⟩ := processTypeEdge_flagDefault hst1
    (congrArg opOf hwd).symm hval
  have hop2 : st2.foundOpSwitch = st1.foundOpSwitch ∧
      st2.sh.defaultSwitchOpConstantInt =
        st1.sh.defaultSwitchOpConstantInt := by
    unfold runOperandEdges at hst2
    split at hst2
    · exact processOperandsLoop_flagDefault _ _ _ _ _ _ _ _ _ _ hst2
    · cases hst2; exact ⟨rfl, rfl⟩
  have hop3 : st3.foundOpSwitch = st2.foundOpSwitch ∧
      st3.sh.defaultSwitchOpConstantInt =
        st2.sh.defaultSwitchOpConstantInt := by
    unfold runLabelEdges at hst3
    split at hst3
    · exact processLabelsLoop_flagDefault _ _ _ _ _ _ _ _ _ _ _ hst3
    · cases hst3; exact ⟨rfl, rfl⟩
  obtain ⟨dsp, fsp⟩ := processSpecialForms_flagDefault h
  constructor
  · rw [hwd]
    rw [fsp, hop3.1, hop2.1, ftype]
  · rw [dsp, hop3.2, hop2.2]
    exact dtype

theorem processLoop_flagDefault :
    ∀ fuel words n i st st',
      processLoop words n fuel i st = .ok st' →
      (∀ k ins r, st.sh.instructions.get? k = some ins →
        producesId words ins.wordIndex r = true → r < U32MAX) →
      ((st'.foundOpSwitch = true ↔ st.foundOpSwitch = true ∨
          ∃ k ins, i ≤ k ∧ k < n ∧ st.sh.instructions.get? k = some ins ∧
            opOf (words.getD ins.wordIndex 0) = OpSwitch) ∧
       (st'.sh.defaultSwitchOpConstantInt = U32MAX ↔
          st.sh.defaultSwitchOpConstantInt = U32MAX ∧
          ∀ k ins, i ≤ k → k < n → st.sh.instructions.get? k = some ins →
            constantIntTypeAt words st.sh ins.wordIndex = false)) := by
  intro fuel
  induction fuel with
  | zero => intro _ _ _ st st' h _; exact absurd h (by simp [processLoop])
  | succ f ih =>
    intro words n i st st' h HB
    rw [processLoop] at h
    split at h
    case isTrue hin =>
      obtain ⟨st1, h1, h⟩ := exceptBind_ok h
      obtain ⟨ins, hins, -, -, -⟩ := processInstruction_refs h1
      have hvalI : opOf (words.getD ins.wordIndex 0) = OpConstant →
          words.getD (ins.wordIndex + 2) 0 ≠ U32MAX := by
        intro hc hx
        have hite : (if (SpvHasResultAndType OpConstant).2 = true then 2
            else 1) = 2 := by decide
        have hp : producesId words ins.wordIndex
            (words.getD (ins.wordIndex + 2) 0) = true := by
          rw [producesId_eq_true_iff, hc]
          refine ⟨by decide, ?_⟩
          rw [hite]
        have := HB i ins (words.getD (ins.wordIndex + 2) 0) hins hp
        rw [hx] at this
        exact Nat.lt_irrefl _ this
      obtain ⟨hfstep, hdstep⟩ := processInstruction_flagDefault h1 hins hvalI
      have hskel1 := processInstruction_skel h1
      have HB1 : ∀ k ins2 r, st1.sh.instructions.get? k = some ins2 →
          producesId words ins2.wordIndex r = true → r < U32MAX := by
        intro k ins2 r hk hp
        obtain ⟨ins0, h0, hwi⟩ := instrWordIndex_of_skel hskel1 hk
        exact HB k ins0 r h0 (by rw [hwi]; exact hp)
      obtain ⟨hfih, hdih⟩ := ih words n (i + 1) st1 st' h HB1
      constructor
      · rw [hfih, hfstep]
        constructor
        · rintro ((hx | hx) | ⟨k, ins2, hk1, hk2, hk3, hk4⟩)
          · exact Or.inl hx
          · exact Or.inr ⟨i, ins, Nat.le_refl i, hin, hins, hx⟩
          · obtain ⟨ins0, h0, hwi⟩ := instrWordIndex_of_skel hskel1 hk3
            exact Or.inr ⟨k, ins0, by omega, hk2, h0, by rw [hwi]; exact hk4⟩
        · rintro (hx | ⟨k, ins2, hk1, hk2, hk3, hk4⟩)
          · exact Or.inl (Or.inl hx)
          · rcases Nat.eq_or_lt_of_le hk1 with heq | hlt
            · rw [← heq] at hk3
              rw [hins] at hk3
              cases hk3
              exact Or.inl (Or.inr hk4)
            · obtain ⟨ins1', h1', hwi'⟩ :=
                instrWordIndex_of_skel (skelEq_symm hskel1) hk3
              exact Or.inr ⟨k, ins1', hlt, hk2, h1', by rw [hwi']; exact hk4⟩
      · rw [hdih, hdstep]
        constructor
        · rintro ⟨⟨hd, hci⟩, hall⟩
          refine ⟨hd, fun k ins2 hk1 hk2 hk3 => ?_⟩
          rcases Nat.eq_or_lt_of_le hk1 with heq | hlt
          · rw [← heq] at hk3
            rw [hins] at hk3
            cases hk3
            exact hci
          · obtain ⟨ins1', h1', hwi'⟩ :=
              instrWordIndex_of_skel (skelEq_symm hskel1) hk3
            have hc1 := hall k ins1' hlt hk2 h1'
            rw [constantIntTypeAt_transfer hskel1] at hc1
            rw [hwi'] at hc1
            exact hc1
        · rintro ⟨hd, hall⟩
          refine ⟨⟨hd, hall i ins (Nat.le_refl i) hin hins⟩,
            fun k ins2 hk1 hk2 hk3 => ?_⟩
          obtain ⟨ins0, h0, hwi⟩ := instrWordIndex_of_skel hskel1 hk3
          have hc0 := hall k ins0 (by omega) hk2 h0
          rw [constantIntTypeAt_transfer hskel1]
          rw [← hwi]
          exact hc0
    case isFalse hin =>
      cases h
      constructor
      · constructor
        · exact Or.inl
        · rintro (hx | ⟨k, ins2, hk1, hk2, _, _⟩)
          · exact hx
          · omega
      · constructor
        · intro hd
          exact ⟨hd, fun k ins2 hk1 hk2 _ => absurd hk2 (by omega)⟩
        · rintro ⟨hd, _⟩
          exact hd

theorem parseWordsLoop_resultBound :
    ∀ fuel words wordIndex st st',
      parseWordsLoop words fuel wordIndex st = .ok st' →
      st'.results.length = st.results.length ∧
      ((∀ k ins r, st.instructions.get? k = some ins →
          producesId words ins.wordIndex r = true → r < st.results.length) →
       ∀ k ins r, st'.instructions.get? k = some ins →
          producesId words ins.wordIndex r = true → r < st.results.length) := by
  intro fuel
  induction fuel with
  | zero => intro _ _ st st' h; exact absurd h (by simp [parseWordsLoop])
  | succ n ih =>
    intro words wordIndex st st' h
    rw [parseWordsLoop] at h
    split at h
    case isTrue hidx =>
      obtain ⟨w, hw, h⟩ := exceptBind_ok h
      have hwd : words.getD wordIndex 0 = w := getD_of_get? (wGet_eq_ok hw)
      simp only [] at h
      split at h
      case isTrue hres =>
        obtain ⟨resultId, hrid, h⟩ := exceptBind_ok h
        have hridd := getD_of_get? (wGet_eq_ok hrid)
        split at h
        case isTrue hbound =>
          exact absurd h (by simp [throw, throwThe, MonadExceptOf.throw,
            Bind.bind, Except.bind])
        case isFalse hbound =>
          have hlt : resultId < st.results.length := Nat.lt_of_not_le hbound
          have hsl : (st.results.set resultId
              (⟨st.instructions.length⟩ : Result)).length =
              st.results.length := by simp
          have hnew : ∀ k ins r,
              (st.instructions ++ [(⟨wordIndex, U32MAX⟩ : Instruction)]).get? k
                = some ins →
              producesId words ins.wordIndex r = true →
              (∀ k2 ins2 r2, st.instructions.get? k2 = some ins2 →
                producesId words ins2.wordIndex r2 = true →
                r2 < st.results.length) →
              r < (st.results.set resultId
                (⟨st.instructions.length⟩ : Result)).length := by
            intro k ins r hk hp HB0
            rw [hsl]
            rcases get?_concat_cases hk with ⟨_, hold⟩ | ⟨_, hx⟩
            · exact HB0 k ins r hold hp
            · subst hx
              rw [producesId_eq_true_iff, hwd] at hp
              obtain ⟨_, hp2⟩ := hp
              rw [hridd] at hp2
              rw [← hp2]
              exact hlt
          split at h
          case isTrue hdeco =>
            obtain ⟨hlen, hbnd⟩ := ih words _ _ _ h
            refine ⟨hlen.trans hsl, fun HB0 => ?_⟩
            intro k ins r hk hp
            have := hbnd (fun k2 ins2 r2 hk2 hp2 =>
              hnew k2 ins2 r2 hk2 hp2 HB0) k ins r hk hp
            rw [hsl] at this
            exact this
          case isFalse hdeco =>
            split at h
            case isTrue hphi =>
              obtain ⟨hlen, hbnd⟩ := ih words _ _ _ h
              refine ⟨hlen.trans hsl, fun HB0 => ?_⟩
              intro k ins r hk hp
              have := hbnd (fun k2 ins2 r2 hk2 hp2 =>
                hnew k2 ins2 r2 hk2 hp2 HB0) k ins r hk hp
              rw [hsl] at this
              exact this
            case isFalse hphi =>
              obtain ⟨hlen, hbnd⟩ := ih words _ _ _ h
              refine ⟨hlen.trans hsl, fun HB0 => ?_⟩
              intro k ins r hk hp
              have := hbnd (fun k2 ins2 r2 hk2 hp2 =>
                hnew k2 ins2 r2 hk2 hp2 HB0) k ins r hk hp
              rw [hsl] at this
              exact this
      case isFalse hres =>
        have hnew : ∀ k ins r,
            (st.instructions ++ [(⟨wordIndex, U32MAX⟩ : Instruction)]).get? k
              = some ins →
            producesId words ins.wordIndex r = true →
            (∀ k2 ins2 r2, st.instructions.get? k2 = some ins2 →
              producesId words ins2.wordIndex r2 = true →
              r2 < st.results.length) →
            r < st.results.length := by
          intro k ins r hk hp HB0
          rcases get?_concat_cases hk with ⟨_, hold⟩ | ⟨_, hx⟩
          · exact HB0 k ins r hold hp
          · subst hx
            rw [producesId_eq_true_iff, hwd] at hp
            exact absurd hp.1 hres
        split at h
        case isTrue hdeco =>
          obtain ⟨hlen, hbnd⟩ := ih words _ _ _ h
          exact ⟨hlen, fun HB0 => hbnd (fun k2 ins2 r2 hk2 hp2 =>
            hnew k2 ins2 r2 hk2 hp2 HB0)⟩
        case isFalse hdeco =>
          split at h
          case isTrue hphi =>
            obtain ⟨hlen, hbnd⟩ := ih words _ _ _ h
            exact ⟨hlen, fun HB0 => hbnd (fun k2 ins2 r2 hk2 hp2 =>
              hnew k2 ins2 r2 hk2 hp2 HB0)⟩
          case isFalse hphi =>
            obtain ⟨hlen, hbnd⟩ := ih words _ _ _ h
            exact ⟨hlen, fun HB0 => hbnd (fun k2 ins2 r2 hk2 hp2 =>
              hnew k2 ins2 r2 hk2 hp2 HB0)⟩
    case isFalse =>
      cases h
      exact ⟨rfl, fun HB0 => HB0⟩

theorem parseWords_resultBound {words : List Nat} {sh0 : Shader}
    (h : Shader.parseWords words = .ok sh0)
    (hw : ∀ w ∈ words, w < W32) :
    (∀ k ins r, sh0.instructions.get? k = some ins →
      producesId words ins.wordIndex r = true → r < U32MAX) ∧
    sh0.defaultSwitchOpConstantInt = U32MAX := by
  unfold Shader.parseWords at h
  split at h
  · exact absurd h (by simp [throw, throwThe, MonadExceptOf.throw])
  obtain ⟨w0, hw0, h⟩ := exceptBind_ok h
  split at h
  · exact absurd h (by simp [throw, throwThe, MonadExceptOf.throw,
      Bind.bind, Except.bind])
  obtain ⟨w1, hw1, h⟩ := exceptBind_ok h
  split at h
  · exact absurd h (by simp [throw, throwThe, MonadExceptOf.throw,
      Bind.bind, Except.bind])
  obtain ⟨idBound, hib, h⟩ := exceptBind_ok h
  obtain ⟨stf, hloop, h⟩ := exceptBind_ok h
  cases h
  refine ⟨?_, rfl⟩
  obtain ⟨hlen, hbnd⟩ := parseWordsLoop_resultBound _ _ _ _ _ hloop
  have hb := hbnd (fun k ins r hk _ => by simp at hk)
  have hmem : idBound ∈ words := List.get?_mem (wGet_eq_ok hib)
  have h32 : idBound < W32 := hw idBound hmem
  have hW : W32 = U32MAX + 1 := by norm_num [W32, U32MAX]
  intro k ins r hk hp
  have hr := hb k ins r hk hp
  have hrep : (List.replicate idBound (⟨U32MAX⟩ : Result)).length = idBound :=
    by simp
  rw [hrep] at hr
  omega

/-- Claim C7 (amended): for a module accepted by the first parsing pass whose
per-instruction processing succeeds, the processing pass of Shader::parse
fails with MissingSwitchConstant exactly when the module contains an OpSwitch
and no OpConstant whose type is an OpTypeInt instruction of any width: the
width named by the specification is never checked. -/
theorem C7_missing_switch_constant_iff :
    ∀ words sh0 st, Shader.parseWords words = .ok sh0 →
      (∀ w ∈ words, w < W32) →
      processLoop words sh0.instructions.length
        (sh0.instructions.length + 1) 0 ⟨sh0, false⟩ = .ok st →
      (Shader.process sh0 = .error .missingSwitchConstant ↔
        shaderHasOpSwitch words sh0 = true ∧
        shaderHasIntTypedConstant words sh0 = false) := by
  intro words sh0 st hparse hw hloop
  obtain ⟨hwords, _⟩ := parseWords_fields hparse
  obtain ⟨HB, hdef0⟩ := parseWords_resultBound hparse hw
  obtain ⟨hflag, hdefault⟩ := processLoop_flagDefault _ words
    sh0.instructions.length 0 ⟨sh0, false⟩ st hloop HB
  have hproc : Shader.process sh0 =
      (if st.foundOpSwitch ∧ st.sh.defaultSwitchOpConstantInt = U32MAX then
        throw Err.missingSwitchConstant
      else pure st.sh) := by
    unfold Shader.process
    simp only []
    rw [hwords, hloop, exceptOkBind]
  rw [hproc]
  by_cases hc : st.foundOpSwitch = true ∧
      st.sh.defaultSwitchOpConstantInt = U32MAX
  · rw [if_pos hc]
    constructor
    · intro _
      constructor
      · rcases hflag.mp hc.1 with hx | ⟨k, ins, _, _, hk3, hop⟩
        · cases hx
        · unfold shaderHasOpSwitch
          rw [List.any_eq_true]
          exact ⟨ins, List.get?_mem hk3, decide_eq_true hop⟩
      · obtain ⟨_, hall⟩ := hdefault.mp hc.2
        unfold shaderHasIntTypedConstant
        rw [List.any_eq_false]
        intro ins hmem
        obtain ⟨k, hk⟩ := List.mem_iff_get?.mp hmem
        have hkn : k < sh0.instructions.length := (List.get?_eq_some.mp hk).1
        have := hall k ins (Nat.zero_le k) hkn hk
        simp [this]
    · intro _
      rfl
  · rw [if_neg hc]
    constructor
    · intro hx
      exact absurd hx (by simp [pure, Except.pure])
    · rintro ⟨hA, hB⟩
      exfalso
      apply hc
      constructor
      · rw [hflag]
        unfold shaderHasOpSwitch at hA
        rw [List.any_eq_true] at hA
        obtain ⟨ins, hmem, hp⟩ := hA
        obtain ⟨k, hk⟩ := List.mem_iff_get?.mp hmem
        have hkn : k < sh0.instructions.length := (List.get?_eq_some.mp hk).1
        exact Or.inr ⟨k, ins, Nat.zero_le k, hkn, hk, of_decide_eq_true hp⟩
      · rw [hdefault]
        refine ⟨hdef0, ?_⟩
        intro k ins _ _ hk3
        unfold shaderHasIntTypedConstant at hB
        rw [List.any_eq_false] at hB
        have := hB ins (List.get?_mem hk3)
        simpa using this

/-- Witness for claim C7: the concrete module whose only integer constant is
64-bit satisfies both sides of the equivalence (its processing does not fail,
and it does contain an int-typed constant). -/
theorem C7_missing_switch_constant_iff_witness :
    Shader.process shSwitch64Pre = .error .missingSwitchConstant ↔
      shaderHasOpSwitch modSwitch64 shSwitch64Pre = true ∧
      shaderHasIntTypedConstant modSwitch64 shSwitch64Pre = false :=
  C7_missing_switch_constant_iff modSwitch64 shSwitch64Pre stSwitch64 rfl
    (by decide) rfl

-- Word-stream layout: the instruction chain of a parsed module, and the
-- compaction of a run without folding.

theorem set_of_get? {l : List Nat} : ∀ {i v : Nat}, l.get? i = some v →
    l.set i v = l := by
  induction l with
  | nil => intro i v h; cases h
  | cons x xs ih =>
    intro i v h
    cases i with
    | zero =>
      cases h
      rfl
    | succ n =>
      have := ih (i := n) h
      simp [List.set, this]

theorem getD_pre_drop {pre words : List Nat} {cursor p : Nat}
    (hlen : pre.length = cursor) (hcp : cursor ≤ p) :
    (pre ++ words.drop cursor).getD p 0 = words.getD p 0 := by
  rw [List.getD_eq_getD_get?, List.getD_eq_getD_get?]
  rw [List.get?_append_right (by omega)]
  rw [List.get?_drop]
  have : cursor + (p - pre.length) = p := by omega
  rw [this]

theorem length_pre_drop {pre words : List Nat}
    (h : pre.length ≤ words.length) :
    (pre ++ words.drop pre.length).length = words.length := by
  simp
  omega

theorem chainFrom_congr {words : List Nat} :
    ∀ (a b : List Instruction) (wi : Nat),
      (∀ k, (a.get? k).map Instruction.wordIndex =
        (b.get? k).map Instruction.wordIndex) →
      ChainFrom words a wi → ChainFrom words b wi := by
  intro a
  induction a with
  | nil =>
    intro b wi hmap hch
    cases b with
    | nil => exact hch
    | cons y ys => have := hmap 0; simp at this
  | cons x xs ih =>
    intro b wi hmap hch
    cases b with
    | nil => have := hmap 0; simp at this
    | cons y ys =>
      have h0 := hmap 0
      simp only [List.get?] at h0
      have hxy : x.wordIndex = y.wordIndex := by simpa using h0
      obtain ⟨hlt, hwi, hrest⟩ := hch
      exact ⟨hlt, by rw [← hxy]; exact hwi, ih ys _ (fun k => hmap (k + 1)) hrest⟩

theorem chainFrom_stuck {words : List Nat} :
    ∀ (rest : List Instruction) (wi : Nat), wi < words.length →
      wcOf (words.getD wi 0) = 0 → ¬ ChainFrom words rest wi := by
  intro rest
  induction rest with
  | nil => intro wi hlt _ hch; exact hch hlt
  | cons ins rest ih =>
    intro wi hlt hwc hch
    obtain ⟨_, _, hrest⟩ := hch
    rw [hwc, Nat.add_zero] at hrest
    exact ih wi hlt hwc hrest

theorem chainFrom_bound {words : List Nat} :
    ∀ (instrs : List Instruction) (wi : Nat), ChainFrom words instrs wi →
      instrs = [] ∨ wi + instrs.length ≤ words.length := by
  intro instrs
  induction instrs with
  | nil => intro wi _; exact Or.inl rfl
  | cons ins rest ih =>
    intro wi hch
    obtain ⟨hlt, _, hrest⟩ := hch
    right
    have hwc : wcOf (words.getD wi 0) ≠ 0 := by
      intro h0
      rw [h0, Nat.add_zero] at hrest
      exact chainFrom_stuck rest wi hlt h0 hrest
    rcases ih _ hrest with hnil | hle
    · subst hnil
      simp only [List.length_cons, List.length_nil]
      omega
    · simp only [List.length_cons]
      omega

theorem stripIgnoredLoop_of_chain {words : List Nat} :
    ∀ (instrs : List Instruction) (fuel wi : Nat),
      ChainFrom words instrs wi → instrs.length < fuel →
      stripIgnoredLoop words fuel wi =
        some (stripFromInstrs words instrs) := by
  intro instrs
  induction instrs with
  | nil =>
    intro fuel wi hch hfuel
    obtain ⟨f, rfl⟩ : ∃ f, fuel = f + 1 := ⟨fuel - 1, by omega⟩
    rw [stripIgnoredLoop]
    rw [if_neg hch]
    rfl
  | cons ins rest ih =>
    intro fuel wi hch hfuel
    obtain ⟨f, rfl⟩ : ∃ f, fuel = f + 1 := ⟨fuel - 1, by omega⟩
    obtain ⟨hlt, hwi, hrest⟩ := hch
    have hrec := ih f (wi + wcOf (words.getD wi 0)) hrest
      (by simp at hfuel; omega)
    rw [stripIgnoredLoop]
    rw [if_pos hlt]
    simp only []
    rw [hrec]
    have hsf : stripFromInstrs words (ins :: rest) =
        (if SpvIsIgnored (opOf (words.getD wi 0)) then []
         else (words.drop wi).take (wcOf (words.getD wi 0))) ++
        stripFromInstrs words rest := by
      rw [stripFromInstrs, hwi]
    rw [hsf]
    show some (if SpvIsIgnored (opOf (words.getD wi 0)) = true then
        stripFromInstrs words rest
      else (words.drop wi).take (wcOf (words.getD wi 0)) ++
        stripFromInstrs words rest) = _
    split
    · simp
    · rfl

theorem parseWordsLoop_chain :
    ∀ fuel words wordIndex st st',
      parseWordsLoop words fuel wordIndex st = .ok st' →
      ∃ tail, st'.instructions = st.instructions ++ tail ∧
        ChainFrom words tail wordIndex := by
  intro fuel
  induction fuel with
  | zero => intro _ _ st st' h; exact absurd h (by simp [parseWordsLoop])
  | succ n ih =>
    intro words wordIndex st st' h
    rw [parseWordsLoop] at h
    split at h
    case isTrue hidx =>
      obtain ⟨w, hw, h⟩ := exceptBind_ok h
      have hwd : words.getD wordIndex 0 = w := getD_of_get? (wGet_eq_ok hw)
      simp only [] at h
      split at h
      case isTrue hres =>
        obtain ⟨resultId, hrid, h⟩ := exceptBind_ok h
        split at h
        case isTrue hbound =>
          exact absurd h (by simp [throw, throwThe, MonadExceptOf.throw,
            Bind.bind, Except.bind])
        case isFalse hbound =>
          split at h
          case isTrue hdeco =>
            obtain ⟨tail, htail, hch⟩ := ih words _ _ _ h
            refine ⟨⟨wordIndex, U32MAX⟩ :: tail, ?_, hidx, rfl, ?_⟩
            · rw [htail]
              simp
            · rw [hwd]
              exact hch
          case isFalse hdeco =>
            split at h
            case isTrue hphi =>
              obtain ⟨tail, htail, hch⟩ := ih words _ _ _ h
              refine ⟨⟨wordIndex, U32MAX⟩ :: tail, ?_, hidx, rfl, ?_⟩
              · rw [htail]
                simp
              · rw [hwd]
                exact hch
            case isFalse hphi =>
              obtain ⟨tail, htail, hch⟩ := ih words _ _ _ h
              refine ⟨⟨wordIndex, U32MAX⟩ :: tail, ?_, hidx, rfl, ?_⟩
              · rw [htail]
                simp
              · rw [hwd]
                exact hch
      case isFalse hres =>
        split at h
        case isTrue hdeco =>
          obtain ⟨tail, htail, hch⟩ := ih words _ _ _ h
          refine ⟨⟨wordIndex, U32MAX⟩ :: tail, ?_, hidx, rfl, ?_⟩
          · rw [htail]
            simp
          · rw [hwd]
            exact hch
        case isFalse hdeco =>
          split at h
          case isTrue hphi =>
            obtain ⟨tail, htail, hch⟩ := ih words _ _ _ h
            refine ⟨⟨wordIndex, U32MAX⟩ :: tail, ?_, hidx, rfl, ?_⟩
            · rw [htail]
              simp
            · rw [hwd]
              exact hch
          case isFalse hphi =>
            obtain ⟨tail, htail, hch⟩ := ih words _ _ _ h
            refine ⟨⟨wordIndex, U32MAX⟩ :: tail, ?_, hidx, rfl, ?_⟩
            · rw [htail]
              simp
            · rw [hwd]
              exact hch
    case isFalse hidx =>
      cases h
      exact ⟨[], by simp, hidx⟩

theorem parseWords_chain {words : List Nat} {sh0 : Shader}
    (h : Shader.parseWords words = .ok sh0) :
    ChainFrom words sh0.instructions 5 := by
  unfold Shader.parseWords at h
  split at h
  · exact absurd h (by simp [throw, throwThe, MonadExceptOf.throw])
  obtain ⟨w0, hw0, h⟩ := exceptBind_ok h
  split at h
  · exact absurd h (by simp [throw, throwThe, MonadExceptOf.throw,
      Bind.bind, Except.bind])
  obtain ⟨w1, hw1, h⟩ := exceptBind_ok h
  split at h
  · exact absurd h (by simp [throw, throwThe, MonadExceptOf.throw,
      Bind.bind, Except.bind])
  obtain ⟨idBound, hib, h⟩ := exceptBind_ok h
  obtain ⟨stf, hloop, h⟩ := exceptBind_ok h
  cases h
  obtain ⟨tail, htail, hch⟩ := parseWordsLoop_chain _ _ _ _ _ hloop
  simp only [List.nil_append] at htail
  show ChainFrom words stf.instructions 5
  rw [htail]
  exact hch

theorem parse_chain {words : List Nat} {sh : Shader}
    (h : Shader.parse words = .ok sh) :
    ChainFrom words sh.instructions 5 := by
  obtain ⟨sh0, sh1, h0, h1, hs, hskel⟩ := parse_decompose h
  exact chainFrom_congr sh0.instructions sh.instructions 5
    (fun k => (hskel.2.2.2.1 k).symm) (parseWords_chain h0)

theorem parseWordsLoop_phis :
    ∀ fuel words wordIndex st st',
      parseWordsLoop words fuel wordIndex st = .ok st' →
      (∀ p ∈ st.phis, ∃ ins, st.instructions.get? p = some ins ∧
        opOf (words.getD ins.wordIndex 0) = OpPhi) →
      (∀ p ∈ st'.phis, ∃ ins, st'.instructions.get? p = some ins ∧
        opOf (words.getD ins.wordIndex 0) = OpPhi) := by
  intro fuel
  induction fuel with
  | zero => intro _ _ st st' h; exact absurd h (by simp [parseWordsLoop])
  | succ n ih =>
    intro words wordIndex st st' h hinv
    rw [parseWordsLoop] at h
    split at h
    case isTrue hidx =>
      obtain ⟨w, hw, h⟩ := exceptBind_ok h
      have hwd : words.getD wordIndex 0 = w := getD_of_get? (wGet_eq_ok hw)
      simp only [] at h
      have hold : ∀ (instrs2 : List Instruction) (p : Nat), p ∈ st.phis →
          (∃ ins, st.instructions.get? p = some ins ∧
            opOf (words.getD ins.wordIndex 0) = OpPhi) →
          ∃ ins, (st.instructions ++ instrs2).get? p = some ins ∧
            opOf (words.getD ins.wordIndex 0) = OpPhi := by
        intro instrs2 p _ ⟨ins, hg, hop⟩
        refine ⟨ins, ?_, hop⟩
        rw [List.get?_append (List.get?_eq_some.mp hg).1]
        exact hg
      split at h
      case isTrue hres =>
        obtain ⟨resultId, hrid, h⟩ := exceptBind_ok h
        split at h
        case isTrue hbound =>
          exact absurd h (by simp [throw, throwThe, MonadExceptOf.throw,
            Bind.bind, Except.bind])
        case isFalse hbound =>
          split at h
          case isTrue hdeco =>
            refine ih words _ _ _ h ?_
            intro p hp
            exact hold _ p hp (hinv p hp)
          case isFalse hdeco =>
            split at h
            case isTrue hphi =>
              refine ih words _ _ _ h ?_
              intro p hp
              rcases List.mem_append.mp hp with hp1 | hp1
              · exact hold _ p hp1 (hinv p hp1)
              · have hpe : p = st.instructions.length := by
                  simpa using hp1
                subst hpe
                refine ⟨⟨wordIndex, U32MAX⟩, List.get?_concat_length .., ?_⟩
                rw [hwd]
                exact hphi
            case isFalse hphi =>
              refine ih words _ _ _ h ?_
              intro p hp
              exact hold _ p hp (hinv p hp)
      case isFalse hres =>
        split at h
        case isTrue hdeco =>
          refine ih words _ _ _ h ?_
          intro p hp
          exact hold _ p hp (hinv p hp)
        case isFalse hdeco =>
          split at h
          case isTrue hphi =>
            refine ih words _ _ _ h ?_
            intro p hp
            rcases List.mem_append.mp hp with hp1 | hp1
            · exact hold _ p hp1 (hinv p hp1)
            · have hpe : p = st.instructions.length := by
                simpa using hp1
              subst hpe
              refine ⟨⟨wordIndex, U32MAX⟩, List.get?_concat_length .., ?_⟩
              rw [hwd]
              exact hphi
          case isFalse hphi =>
            refine ih words _ _ _ h ?_
            intro p hp
            exact hold _ p hp (hinv p hp)
    case isFalse =>
      cases h
      exact hinv

theorem parse_no_phis {words : List Nat} {sh : Shader}
    (h : Shader.parse words = .ok sh)
    (hnophi : ∀ ins ∈ sh.instructions,
      opOf (words.getD ins.wordIndex 0) ≠ OpPhi) :
    sh.phis = [] := by
  obtain ⟨sh0, sh1, h0, h1, hs, hskel⟩ := parse_decompose h
  have hphi0 : ∀ p ∈ sh0.phis, ∃ ins, sh0.instructions.get? p = some ins ∧
      opOf (words.getD ins.wordIndex 0) = OpPhi := by
    unfold Shader.parseWords at h0
    split at h0
    · exact absurd h0 (by simp [throw, throwThe, MonadExceptOf.throw])
    obtain ⟨w0, hw0, h0⟩ := exceptBind_ok h0
    split at h0
    · exact absurd h0 (by simp [throw, throwThe, MonadExceptOf.throw,
        Bind.bind, Except.bind])
    obtain ⟨w1, hw1, h0⟩ := exceptBind_ok h0
    split at h0
    · exact absurd h0 (by simp [throw, throwThe, MonadExceptOf.throw,
        Bind.bind, Except.bind])
    obtain ⟨idBound, hib, h0⟩ := exceptBind_ok h0
    obtain ⟨stf, hloop, h0⟩ := exceptBind_ok h0
    cases h0
    exact parseWordsLoop_phis _ _ _ _ _ hloop (fun p hp => by simp at hp)
  rw [hskel.2.2.2.2.2]
  by_contra hne
  obtain ⟨p, hp⟩ := List.exists_mem_of_ne_nil _ hne
  obtain ⟨ins0, hg0, hop0⟩ := hphi0 p hp
  obtain ⟨ins, hg, hwi⟩ := instrWordIndex_of_skel
    (skelEq_symm hskel) hg0
  exact hnophi ins (List.get?_mem hg) (by rw [hwi]; exact hop0)

theorem processInstruction_supported {words : List Nat} {k : Nat}
    {st st' : ProcessState} (h : processInstruction words k st = .ok st') :
    ∀ ins, st.sh.instructions.get? k = some ins →
      SpvIsSupported (opOf (words.getD ins.wordIndex 0)) = true := by
  unfold processInstruction at h
  obtain ⟨ins1, hins1, h⟩ := exceptBind_ok h
  obtain ⟨w, hw, h⟩ := exceptBind_ok h
  split at h
  · exact absurd h (by simp [throw, throwThe, MonadExceptOf.throw])
  case isFalse hsupp =>
    intro ins hins
    have hg := instrGet_eq_ok hins1
    rw [hins] at hg
    cases hg
    rw [getD_of_get? (wGet_eq_ok hw)]
    exact of_not_not hsupp

theorem parse_supported {words : List Nat} {sh : Shader}
    (h : Shader.parse words = .ok sh) :
    ∀ k ins, sh.instructions.get? k = some ins →
      SpvIsSupported (opOf (words.getD ins.wordIndex 0)) = true := by
  intro k ins hk
  obtain ⟨sh0, sh1, h0, h1, hs, hskel⟩ := parse_decompose h
  obtain ⟨hwords, _⟩ := parseWords_fields h0
  unfold Shader.process at h1
  rw [hwords] at h1
  obtain ⟨stp, hloop, h1⟩ := exceptBind_ok h1
  obtain ⟨ins0, hi0, hwi0⟩ := instrWordIndex_of_skel hskel hk
  have hklen : k < sh0.instructions.length := (List.get?_eq_some.mp hi0).1
  obtain ⟨stk, stk', hskelk, hpk⟩ :=
    processLoop_each _ words sh0.instructions.length 0 ⟨sh0, false⟩ stp hloop k
      (Nat.zero_le k) hklen
  obtain ⟨insk, hik, hwik⟩ := instrWordIndex_of_skel (skelEq_symm hskelk) hi0
  have := processInstruction_supported hpk insk hik
  rw [hwik, hwi0] at this
  exact this

theorem resolSet_fields {c : Ctx} {id : Nat} {r : Resolution} {c' : Ctx}
    (h : resolSet c id r = .ok c') :
    c'.words = c.words ∧ c'.inDeg = c.inDeg ∧ c'.outDeg = c.outDeg := by
  unfold resolSet at h
  split at h
  · cases h; exact ⟨rfl, rfl, rfl⟩
  · cases h

theorem resolSetVar_fields {c : Ctx} {id : Nat} {c' : Ctx}
    (h : resolSetVar c id = .ok c') :
    c'.words = c.words ∧ c'.inDeg = c.inDeg ∧ c'.outDeg = c.outDeg := by
  unfold resolSetVar at h
  obtain ⟨old, hold, h⟩ := exceptBind_ok h
  exact resolSet_fields h

set_option maxHeartbeats 1000000 in
theorem optimizerEvaluateResult_fields {sh : Shader} {resultId : Nat}
    {c c' : Ctx} (h : optimizerEvaluateResult sh resultId c = .ok c') :
    c'.words = c.words ∧ c'.inDeg = c.inDeg ∧ c'.outDeg = c.outDeg := by
  unfold optimizerEvaluateResult at h
  by_cases hrb : sh.results.length ≤ resultId
  case pos => rw [if_pos hrb] at h; exact Except.noConfusion h
  case neg =>
  rw [if_neg hrb] at h
  by_cases hcb : c.resolutions.length ≤ resultId
  case pos => rw [if_pos hcb] at h; exact Except.noConfusion h
  case neg =>
  rw [if_neg hcb] at h
  obtain ⟨ins, hins, h⟩ := exceptBind_ok h
  obtain ⟨w, hw, h⟩ := exceptBind_ok h
  by_cases hop0 : opOf w = OpConstant
  case pos =>
    rw [if_pos hop0] at h
    obtain ⟨tid, htid, h⟩ := exceptBind_ok h
    by_cases hA : sh.results.length ≤ tid
    case pos => rw [if_pos hA] at h; exact Except.noConfusion h
    case neg =>
    rw [if_neg hA] at h
    obtain ⟨tins, htins, h⟩ := exceptBind_ok h
    obtain ⟨tw, htw, h⟩ := exceptBind_ok h
    obtain ⟨width, hwidth, h⟩ := exceptBind_ok h
    obtain ⟨signed, hsigned, h⟩ := exceptBind_ok h
    by_cases hB : opOf tw = OpTypeInt ∧ width = 32
    case neg =>
      rw [if_neg hB] at h
      exact resolSetVar_fields h
    case pos =>
    rw [if_pos hB] at h
    obtain ⟨v, hv, h⟩ := exceptBind_ok h
    by_cases hC : signed ≠ 0
    case pos => rw [if_pos hC] at h; exact resolSet_fields h
    case neg => rw [if_neg hC] at h; exact resolSet_fields h
  case neg =>
  rw [if_neg hop0] at h
  by_cases hop1 : opOf w = OpConstantTrue
  case pos =>
    rw [if_pos hop1] at h
    exact resolSet_fields h
  case neg =>
  rw [if_neg hop1] at h
  by_cases hop2 : opOf w = OpConstantFalse
  case pos =>
    rw [if_pos hop2] at h
    exact resolSet_fields h
  case neg =>
  rw [if_neg hop2] at h
  by_cases hop3 : opOf w = OpBitcast
  case pos =>
    rw [if_pos hop3] at h
    obtain ⟨a, ha, h⟩ := exceptBind_ok h
    obtain ⟨fa, hfa, h⟩ := exceptBind_ok h
    exact resolSet_fields h
  case neg =>
  rw [if_neg hop3] at h
  by_cases hop4 : opOf w = OpIAdd
  case pos =>
    rw [if_pos hop4] at h
    obtain ⟨p, hp, h⟩ := exceptBind_ok h
    exact resolSet_fields h
  case neg =>
  rw [if_neg hop4] at h
  by_cases hop5 : opOf w = OpISub
  case pos =>
    rw [if_pos hop5] at h
    obtain ⟨p, hp, h⟩ := exceptBind_ok h
    exact resolSet_fields h
  case neg =>
  rw [if_neg hop5] at h
  by_cases hop6 : opOf w = OpIMul
  case pos =>
    rw [if_pos hop6] at h
    obtain ⟨p, hp, h⟩ := exceptBind_ok h
    exact resolSet_fields h
  case neg =>
  rw [if_neg hop6] at h
  by_cases hop7 : opOf w = OpUDiv
  case pos =>
    rw [if_pos hop7] at h
    obtain ⟨p, hp, h⟩ := exceptBind_ok h
    by_cases hz : p.2.value = 0
    case pos => rw [if_pos hz] at h; exact Except.noConfusion h
    case neg => rw [if_neg hz] at h; exact resolSet_fields h
  case neg =>
  rw [if_neg hop7] at h
  by_cases hop8 : opOf w = OpSDiv
  case pos =>
    rw [if_pos hop8] at h
    obtain ⟨p, hp, h⟩ := exceptBind_ok h
    by_cases hz : toInt32 p.2.value = 0
    case pos => rw [if_pos hz] at h; exact Except.noConfusion h
    case neg =>
    rw [if_neg hz] at h
    by_cases ho : toInt32 p.1.value = -2147483648 ∧ toInt32 p.2.value = -1
    case pos => rw [if_pos ho] at h; exact Except.noConfusion h
    case neg => rw [if_neg ho] at h; exact resolSet_fields h
  case neg =>
  rw [if_neg hop8] at h
  by_cases hop9 : opOf w = OpLogicalEqual
  case pos =>
    rw [if_pos hop9] at h
    obtain ⟨p, hp, h⟩ := exceptBind_ok h
    exact resolSet_fields h
  case neg =>
  rw [if_neg hop9] at h
  by_cases hop10 : opOf w = OpLogicalNotEqual
  case pos =>
    rw [if_pos hop10] at h
    obtain ⟨p, hp, h⟩ := exceptBind_ok h
    exact resolSet_fields h
  case neg =>
  rw [if_neg hop10] at h
  by_cases hop11 : opOf w = OpLogicalOr
  case pos =>
    rw [if_pos hop11] at h
    obtain ⟨p, hp, h⟩ := exceptBind_ok h
    exact resolSet_fields h
  case neg =>
  rw [if_neg hop11] at h
  by_cases hop12 : opOf w = OpLogicalAnd
  case pos =>
    rw [if_pos hop12] at h
    obtain ⟨p, hp, h⟩ := exceptBind_ok h
    exact resolSet_fields h
  case neg =>
  rw [if_neg hop12] at h
  by_cases hop13 : opOf w = OpLogicalNot
  case pos =>
    rw [if_pos hop13] at h
    obtain ⟨a, ha, h⟩ := exceptBind_ok h
    obtain ⟨fa, hfa, h⟩ := exceptBind_ok h
    exact resolSet_fields h
  case neg =>
  rw [if_neg hop13] at h
  by_cases hop14 : opOf w = OpSelect
  case pos =>
    rw [if_pos hop14] at h
    obtain ⟨x0, hx0, h⟩ := exceptBind_ok h
    obtain ⟨x1, hx1, h⟩ := exceptBind_ok h
    obtain ⟨x2, hx2, h⟩ := exceptBind_ok h
    obtain ⟨x3, hx3, h⟩ := exceptBind_ok h
    obtain ⟨x4, hx4, h⟩ := exceptBind_ok h
    obtain ⟨x5, hx5, h⟩ := exceptBind_ok h
    exact resolSet_fields h
  case neg =>
  rw [if_neg hop14] at h
  by_cases hop15 : opOf w = OpIEqual
  case pos =>
    rw [if_pos hop15] at h
    obtain ⟨p, hp, h⟩ := exceptBind_ok h
    exact resolSet_fields h
  case neg =>
  rw [if_neg hop15] at h
  by_cases hop16 : opOf w = OpINotEqual
  case pos =>
    rw [if_pos hop16] at h
    obtain ⟨p, hp, h⟩ := exceptBind_ok h
    exact resolSet_fields h
  case neg =>
  rw [if_neg hop16] at h
  by_cases hop17 : opOf w = OpUGreaterThan
  case pos =>
    rw [if_pos hop17] at h
    obtain ⟨p, hp, h⟩ := exceptBind_ok h
    exact resolSet_fields h
  case neg =>
  rw [if_neg hop17] at h
  by_cases hop18 : opOf w = OpSGreaterThan
  case pos =>
    rw [if_pos hop18] at h
    obtain ⟨p, hp, h⟩ := exceptBind_ok h
    exact resolSet_fields h
  case neg =>
  rw [if_neg hop18] at h
  by_cases hop19 : opOf w = OpUGreaterThanEqual
  case pos =>
    rw [if_pos hop19] at h
    obtain ⟨p, hp, h⟩ := exceptBind_ok h
    exact resolSet_fields h
  case neg =>
  rw [if_neg hop19] at h
  by_cases hop20 : opOf w = OpSGreaterThanEqual
  case pos =>
    rw [if_pos hop20] at h
    obtain ⟨p, hp, h⟩ := exceptBind_ok h
    exact resolSet_fields h
  case neg =>
  rw [if_neg hop20] at h
  by_cases hop21 : opOf w = OpULessThan
  case pos =>
    rw [if_pos hop21] at h
    obtain ⟨p, hp, h⟩ := exceptBind_ok h
    exact resolSet_fields h
  case neg =>
  rw [if_neg hop21] at h
  by_cases hop22 : opOf w = OpSLessThan
  case pos =>
    rw [if_pos hop22] at h
    obtain ⟨p, hp, h⟩ := exceptBind_ok h
    exact resolSet_fields h
  case neg =>
  rw [if_neg hop22] at h
  by_cases hop23 : opOf w = OpULessThanEqual
  case pos =>
    rw [if_pos hop23] at h
    obtain ⟨p, hp, h⟩ := exceptBind_ok h
    exact resolSet_fields h
  case neg =>
  rw [if_neg hop23] at h
  by_cases hop24 : opOf w = OpSLessThanEqual
  case pos =>
    rw [if_pos hop24] at h
    obtain ⟨p, hp, h⟩ := exceptBind_ok h
    exact resolSet_fields h
  case neg =>
  rw [if_neg hop24] at h
  by_cases hop25 : opOf w = OpShiftRightLogical
  case pos =>
    rw [if_pos hop25] at h
    obtain ⟨p, hp, h⟩ := exceptBind_ok h
    by_cases hs : 32 ≤ p.2.value
    case pos => rw [if_pos hs] at h; exact Except.noConfusion h
    case neg => rw [if_neg hs] at h; exact resolSet_fields h
  case neg =>
  rw [if_neg hop25] at h
  by_cases hop26 : opOf w = OpShiftRightArithmetic
  case pos =>
    rw [if_pos hop26] at h
    obtain ⟨p, hp, h⟩ := exceptBind_ok h
    by_cases hs : toInt32 p.2.value < 0 ∨ 32 ≤ toInt32 p.2.value
    case pos => rw [if_pos hs] at h; exact Except.noConfusion h
    case neg => rw [if_neg hs] at h; exact resolSet_fields h
  case neg =>
  rw [if_neg hop26] at h
  by_cases hop27 : opOf w = OpShiftLeftLogical
  case pos =>
    rw [if_pos hop27] at h
    obtain ⟨p, hp, h⟩ := exceptBind_ok h
    by_cases hs : 32 ≤ p.2.value
    case pos => rw [if_pos hs] at h; exact Except.noConfusion h
    case neg => rw [if_neg hs] at h; exact resolSet_fields h
  case neg =>
  rw [if_neg hop27] at h
  by_cases hop28 : opOf w = OpBitwiseOr
  case pos =>
    rw [if_pos hop28] at h
    obtain ⟨p, hp, h⟩ := exceptBind_ok h
    exact resolSet_fields h
  case neg =>
  rw [if_neg hop28] at h
  by_cases hop29 : opOf w = OpBitwiseAnd
  case pos =>
    rw [if_pos hop29] at h
    obtain ⟨p, hp, h⟩ := exceptBind_ok h
    exact resolSet_fields h
  case neg =>
  rw [if_neg hop29] at h
  by_cases hop30 : opOf w = OpBitwiseXor
  case pos =>
    rw [if_pos hop30] at h
    obtain ⟨p, hp, h⟩ := exceptBind_ok h
    exact resolSet_fields h
  case neg =>
  rw [if_neg hop30] at h
  by_cases hop31 : opOf w = OpNot
  case pos =>
    rw [if_pos hop31] at h
    obtain ⟨a, ha, h⟩ := exceptBind_ok h
    obtain ⟨fa, hfa, h⟩ := exceptBind_ok h
    exact resolSet_fields h
  case neg =>
  rw [if_neg hop31] at h
  by_cases hop32 : opOf w = OpPhi
  case pos =>
    rw [if_pos hop32] at h
    by_cases h5 : wcOf w = 5
    case pos =>
      rw [if_pos h5] at h
      obtain ⟨a, ha, h⟩ := exceptBind_ok h
      obtain ⟨fa, hfa, h⟩ := exceptBind_ok h
      exact resolSet_fields h
    case neg =>
    rw [if_neg h5] at h
    exact resolSetVar_fields h
  case neg =>
  rw [if_neg hop32] at h
  exact resolSetVar_fields h

theorem evalPassStep_noFold {sh : Shader} {words : List Nat} {fuel i : Nat}
    {c c' : Ctx} (h : evalPassStep sh fuel i c = .ok c')
    (hcw : c.words = words)
    (hno : ∀ ins ∈ sh.instructions,
      opOf (words.getD ins.wordIndex 0) ≠ OpPhi ∧
      opOf (words.getD ins.wordIndex 0) ≠ OpBranchConditional ∧
      opOf (words.getD ins.wordIndex 0) ≠ OpSwitch) :
    c'.words = words := by
  unfold evalPassStep at h
  obtain ⟨ins, hins, h⟩ := exceptBind_ok h
  obtain ⟨w, hw, h⟩ := exceptBind_ok h
  have hmem := hno ins (List.get?_mem (instrGet_eq_ok hins))
  have hwd : words.getD ins.wordIndex 0 = w := by
    rw [← hcw]
    exact getD_of_get? (wGet_eq_ok hw)
  rw [hwd] at hmem
  obtain ⟨hnp, hnb, hns⟩ := hmem
  split at h
  · cases h
    exact hcw
  case isFalse hmax =>
  split at h
  case isTrue hres =>
    obtain ⟨step, hstep, h⟩ := exceptBind_ok h
    unfold evalPhiStep at hstep
    rw [if_neg hnp] at hstep
    cases hstep
    obtain ⟨allConst, hac, h⟩ := exceptBind_ok h
    obtain ⟨rid, hrid, h⟩ := exceptBind_ok h
    split at h
    · exact ((optimizerEvaluateResult_fields h).1).trans hcw
    · exact ((resolSetVar_fields h).1).trans hcw
  case isFalse hres =>
    split at h
    case isTrue hbc =>
      rcases hbc with hb | hb
      · exact absurd hb hnb
      · exact absurd hb hns
    case isFalse =>
      cases h
      exact hcw

theorem evalPassLoop_noFold {sh : Shader} {words : List Nat} {fuel : Nat} :
    ∀ order c c', evalPassLoop sh fuel order c = .ok c' →
      c.words = words →
      (∀ ins ∈ sh.instructions,
        opOf (words.getD ins.wordIndex 0) ≠ OpPhi ∧
        opOf (words.getD ins.wordIndex 0) ≠ OpBranchConditional ∧
        opOf (words.getD ins.wordIndex 0) ≠ OpSwitch) →
      c'.words = words := by
  intro order
  induction order with
  | nil =>
    intro c c' h hcw _
    cases h
    exact hcw
  | cons i order ih =>
    intro c c' h hcw hno
    rw [evalPassLoop] at h
    obtain ⟨c1, h1, h⟩ := exceptBind_ok h
    exact ih c1 c' h (evalPassStep_noFold h1 hcw hno) hno

theorem patch_nil {sh : Shader} {c c' : Ctx}
    (h : optimizerPatchSpecializationConstants sh [] c = .ok c') : c' = c := by
  unfold optimizerPatchSpecializationConstants at h
  simp [List.foldlM, pure, Except.pure] at h
  exact h.symm

theorem decorations_noop {sh : Shader} {words : List Nat} {c c' : Ctx}
    (hsupp : ∀ k ins, sh.instructions.get? k = some ins →
      SpvIsSupported (opOf (words.getD ins.wordIndex 0)) = true)
    (hcw : c.words = words)
    (h : optimizerRemoveUnusedDecorations sh ⟨true⟩ c = .ok c') :
    c' = c := by
  unfold optimizerRemoveUnusedDecorations at h
  rw [if_neg (by simp)] at h
  revert h
  generalize sh.decorations = ds
  induction ds generalizing c with
  | nil =>
    intro h
    simp [List.foldlM, pure, Except.pure] at h
    exact h.symm
  | cons d ds ih =>
    intro h
    simp only [List.foldlM] at h
    obtain ⟨c1, h1, h⟩ := exceptBind_ok h
    obtain ⟨ins, hins, h1⟩ := exceptBind_ok h1
    obtain ⟨resultId, hrid, h1⟩ := exceptBind_ok h1
    split at h1
    · cases h1
      exact ih hcw h
    case isFalse hrmax =>
    split at h1
    · exact absurd h1 (by simp [throw, throwThe, MonadExceptOf.throw])
    case isFalse hrb =>
    obtain ⟨rins, hrins, h1⟩ := exceptBind_ok h1
    obtain ⟨w, hwg, h1⟩ := exceptBind_ok h1
    split at h1
    case isTrue hmax =>
      exfalso
      have hsup := hsupp _ rins (instrGet_eq_ok hrins)
      have hwd : words.getD rins.wordIndex 0 = w := by
        rw [← hcw]
        exact getD_of_get? (wGet_eq_ok hwg)
      rw [hwd, hmax] at hsup
      exact absurd hsup (by decide)
    case isFalse hmax =>
      cases h1
      exact ih hcw h

theorem compactPhis_nil {sh : Shader} {fuel : Nat} {c c' : Ctx}
    (hphis : sh.phis = [])
    (h : optimizerCompactPhis sh fuel c = .ok c') : c' = c := by
  unfold optimizerCompactPhis at h
  rw [hphis] at h
  simp [List.foldlM, pure, Except.pure] at h
  exact h.symm

theorem set_append_len {α : Type} :
    ∀ (pre xs : List α) (v : α), (pre ++ xs).set pre.length v = pre ++ xs.set 0 v := by
  intro pre
  induction pre with
  | nil => intro xs v; rfl
  | cons a pre ih => intro xs v; simp [List.set, ih]

theorem drop_succ_getD {l : List Nat} {n : Nat} (h : n < l.length) :
    l.drop n = l.getD n 0 :: l.drop (n + 1) := by
  induction l generalizing n with
  | nil => simp at h
  | cons a l ih =>
    cases n with
    | zero => simp
    | succ m =>
      simp only [List.drop_succ_cons]
      rw [ih (by simpa using h)]
      rfl

theorem copyWordsLoop_of_ok {words : List Nat} :
    ∀ (wc : Nat) (pre : List Nat) (src : Nat) (b' : List Nat),
      pre.length ≤ src → pre.length ≤ words.length →
      copyWordsLoop (pre ++ words.drop pre.length) src pre.length wc = .ok b' →
      (wc = 0 ∧ b' = pre ++ words.drop pre.length) ∨
      (src + wc ≤ words.length ∧
        b' = (pre ++ (words.drop src).take wc) ++
          words.drop (pre.length + wc)) := by
  intro wc
  induction wc with
  | zero =>
    intro pre src b' _ _ h
    cases h
    exact Or.inl ⟨rfl, rfl⟩
  | succ n ih =>
    intro pre src b' hles hlen h
    rw [copyWordsLoop] at h
    obtain ⟨v, hv, h⟩ := exceptBind_ok h
    obtain ⟨b2, hset, h⟩ := exceptBind_ok h
    have hblen : (pre ++ words.drop pre.length).length = words.length :=
      length_pre_drop hlen
    have hsrc_lt : src < words.length := by
      have h1 := (List.get?_eq_some.mp (wGet_eq_ok hv)).1
      rwa [hblen] at h1
    have hv_val : v = words.getD src 0 := by
      have hg := getD_of_get? (wGet_eq_ok hv)
      rw [getD_pre_drop rfl hles] at hg
      exact hg.symm
    obtain ⟨-, hb2⟩ := wSet_eq_ok hset
    have hpd : words.drop pre.length =
        words.getD pre.length 0 :: words.drop (pre.length + 1) :=
      drop_succ_getD (by omega)
    have hb2e : b2 = (pre ++ [v]) ++ words.drop (pre.length + 1) := by
      rw [hb2, set_append_len, hpd]
      simp [List.set]
    have hlen1 : (pre ++ [v]).length = pre.length + 1 := by simp
    rw [hb2e] at h
    rw [show pre.length + 1 = (pre ++ [v]).length from hlen1.symm] at h
    rcases ih (pre ++ [v]) (src + 1) b' (by simp; omega) (by simp; omega) h
      with ⟨hn0, hb⟩ | ⟨hsle, hb⟩
    · subst hn0
      right
      refine ⟨by omega, ?_⟩
      rw [hb, hlen1]
      rw [drop_succ_getD hsrc_lt]
      simp [hv_val]
    · right
      refine ⟨by omega, ?_⟩
      rw [hb, hlen1]
      rw [drop_succ_getD hsrc_lt]
      have harith : pre.length + 1 + n = pre.length + (n + 1) := by omega
      rw [harith]
      simp [hv_val, List.take_succ_cons]

theorem compactLoop_strip {words : List Nat} {sh : Shader} :
    ∀ (fuel : Nat) (tail : List Instruction) (i cursor : Nat)
      (pre : List Nat) (wstart : Nat) (res : Nat × List Nat),
      sh.instructions.drop i = tail →
      ChainFrom words tail wstart →
      cursor ≤ wstart →
      pre.length = cursor →
      cursor ≤ words.length →
      (∀ k ins, sh.instructions.get? k = some ins →
        SpvIsSupported (opOf (words.getD ins.wordIndex 0)) = true) →
      compactLoop sh ⟨true⟩ fuel i cursor (pre ++ words.drop cursor) = .ok res →
      res.1 = cursor + (stripFromInstrs words tail).length ∧
      res.2 = (pre ++ stripFromInstrs words tail) ++ words.drop res.1 := by
  intro fuel
  induction fuel with
  | zero =>
    intro tail i cursor pre wstart res _ _ _ _ _ _ h
    exact absurd h (by simp [compactLoop])
  | succ f ih =>
    intro tail i cursor pre wstart res hdrop hch hcw hplen hclen hsupp h
    rw [compactLoop] at h
    split at h
    case isTrue hilt =>
      cases tail with
      | nil =>
        exfalso
        have : sh.instructions.length ≤ i := by
          have := congrArg List.length hdrop
          simp at this
          omega
        omega
      | cons ins0 rest =>
        have hget : sh.instructions.get? i = some ins0 := by
          have h0 : (sh.instructions.drop i).get? 0 = some ins0 := by
            rw [hdrop]; rfl
          rw [List.get?_drop] at h0
          simpa using h0
        have hdrop1 : sh.instructions.drop (i + 1) = rest := by
          have h1 : (sh.instructions.drop i).drop 1 = rest := by
            rw [hdrop]; rfl
          rw [List.drop_drop] at h1
          simpa [Nat.add_comm] using h1
        obtain ⟨hwlt, hwi, hrest⟩ := hch
        obtain ⟨ins1, hins1, h⟩ := exceptBind_ok h
        have hins1e : ins1 = ins0 := by
          have hg := instrGet_eq_ok hins1
          rw [hget] at hg
          cases hg
          rfl
        rw [hins1e] at h
        obtain ⟨w, hw, h⟩ := exceptBind_ok h
        have hwd : words.getD wstart 0 = w := by
          have hg := getD_of_get? (wGet_eq_ok hw)
          rw [hwi, getD_pre_drop hplen hcw] at hg
          exact hg
        have hsup := hsupp i ins0 hget
        rw [hwi, hwd] at hsup
        have hwmax : ¬ w = U32MAX := by
          intro hx
          rw [hx] at hsup
          exact absurd hsup (by decide)
        split at h
        case isTrue hx => exact absurd hx hwmax
        case isFalse =>
        split at h
        case isTrue hig =>
          obtain ⟨-, hig2⟩ := hig
          have hstrip : stripFromInstrs words (ins0 :: rest) =
              stripFromInstrs words rest := by
            rw [stripFromInstrs, hwi, hwd]
            rw [if_pos hig2]
            simp
          rw [hstrip]
          exact ih rest (i + 1) cursor pre (wstart + wcOf (words.getD wstart 0))
            res hdrop1 hrest (by omega) hplen hclen hsupp h
        case isFalse hig =>
          have hig2 : ¬ SpvIsIgnored (opOf w) = true := by
            intro hx
            exact hig ⟨rfl, hx⟩
          obtain ⟨b2, hcopy, h⟩ := exceptBind_ok h
          rw [hwi] at hcopy
          rw [show cursor = pre.length from hplen.symm] at hcopy
          rcases copyWordsLoop_of_ok (wcOf w) pre wstart b2
            (by omega) (by omega) hcopy with ⟨hwc0, hb2⟩ | ⟨hsle, hb2⟩
          · -- zero word count: copy is the identity
            have hstrip : stripFromInstrs words (ins0 :: rest) =
                stripFromInstrs words rest := by
              rw [stripFromInstrs, hwi, hwd]
              rw [if_neg hig2, hwc0]
              simp
            rw [hstrip]
            rw [hwc0, Nat.add_zero] at h
            rw [hb2] at h
            rw [hplen] at h
            exact ih rest (i + 1) cursor pre
              (wstart + wcOf (words.getD wstart 0)) res hdrop1 hrest
              (by omega) hplen hclen hsupp h
          · -- positive word count: the instruction words move to the cursor
            have htklen : ((words.drop wstart).take (wcOf w)).length = wcOf w :=
              by simp; omega
            have hstrip : stripFromInstrs words (ins0 :: rest) =
                (words.drop wstart).take (wcOf w) ++
                  stripFromInstrs words rest := by
              rw [stripFromInstrs, hwi, hwd]
              rw [if_neg hig2]
            rw [hb2] at h
            rw [show pre.length + wcOf w = cursor + wcOf w from by omega] at h
            have hih := ih rest (i + 1) (cursor + wcOf w)
              (pre ++ (words.drop wstart).take (wcOf w))
              (wstart + wcOf (words.getD wstart 0)) res hdrop1 hrest
              (by rw [hwd]; omega)
              (by rw [List.length_append, htklen]; omega)
              (by omega) hsupp h
            obtain ⟨hr1, hr2⟩ := hih
            rw [hstrip]
            constructor
            · rw [hr1]
              rw [List.length_append, htklen]
              omega
            · rw [hr2]
              simp [List.append_assoc]
    case isFalse hilt =>
      cases h
      have htail : tail = [] := by
        rw [← hdrop]
        exact List.drop_eq_nil_of_le (by omega)
      subst htail
      simp [stripFromInstrs]

set_option maxHeartbeats 1000000 in
/-- Claim C1 (amended): for every successfully parsed shader none of whose
instructions is an OpPhi, OpBranchConditional or OpSwitch, any successful
Optimizer::run with no overrides and default options returns exactly the
input module minus its OpSource, OpName and OpMemberName instructions. -/
theorem C1_run_strips_exactly :
    ∀ words sh out, Shader.parse words = .ok sh →
      (∀ ins ∈ sh.instructions,
        opOf (words.getD ins.wordIndex 0) ≠ OpPhi ∧
        opOf (words.getD ins.wordIndex 0) ≠ OpBranchConditional ∧
        opOf (words.getD ins.wordIndex 0) ≠ OpSwitch) →
      Optimizer.run sh [] ⟨true⟩ = .ok out →
      strippedModule words = some out := by
  intro words sh out hparse hno hrun
  have hsupp := parse_supported hparse
  have hchain := parse_chain hparse
  have hphis : sh.phis = [] :=
    parse_no_phis hparse (fun ins hm => (hno ins hm).1)
  obtain ⟨sh0, sh1, h0, h1, hs, hskel⟩ := parse_decompose hparse
  obtain ⟨hwords0, _⟩ := parseWords_fields h0
  have hwords : sh.spirvWords = words := hskel.1.trans hwords0
  unfold Optimizer.run at hrun
  obtain ⟨r, hr, hrun⟩ := exceptBind_ok hrun
  cases hrun
  unfold optimizerRunWithCtx at hr
  obtain ⟨c1, hpatch, hr⟩ := exceptBind_ok hr
  have hc1 : c1 = optimizerPrepareData sh := patch_nil hpatch
  obtain ⟨c2, heval, hr⟩ := exceptBind_ok hr
  obtain ⟨c3, hdec, hr⟩ := exceptBind_ok hr
  obtain ⟨c4, hphi, hr⟩ := exceptBind_ok hr
  obtain ⟨outw, hcompact, hr⟩ := exceptBind_ok hr
  cases hr
  have hc1w : c1.words = words := by
    rw [hc1]
    show sh.spirvWords = words
    exact hwords
  unfold optimizerRunEvaluationPass at heval
  rw [if_neg (by simp)] at heval
  have hc2w : c2.words = words := evalPassLoop_noFold _ _ _ heval hc1w hno
  have hc3 : c3 = c2 := decorations_noop hsupp hc2w hdec
  have hc4 : c4 = c3 := compactPhis_nil hphis hphi
  have hc4w : c4.words = words := by
    rw [hc4, hc3]
    exact hc2w
  unfold optimizerCompactData at hcompact
  rw [hc4w] at hcompact
  obtain ⟨b1, hcopy5, hcompact⟩ := exceptBind_ok hcompact
  obtain ⟨res, hcl, hcompact⟩ := exceptBind_ok hcompact
  cases hcompact
  have hcopy5' : copyWordsLoop (([] : List Nat) ++
      words.drop ([] : List Nat).length) 0 ([] : List Nat).length 5 =
      .ok b1 := hcopy5
  rcases copyWordsLoop_of_ok 5 [] 0 b1 (by simp) (by simp) hcopy5'
    with ⟨h50, _⟩ | ⟨h5len, hb1⟩
  · exact absurd h50 (by decide)
  have hb1' : b1 = words.take 5 ++ words.drop 5 := by simpa using hb1
  rw [hb1'] at hcl
  have htake5 : (words.take 5).length = 5 := by
    simp
    omega
  obtain ⟨hr1, hr2⟩ := compactLoop_strip (sh.instructions.length + 2)
    sh.instructions 0 5 (words.take 5) 5 res rfl hchain (Nat.le_refl 5)
    htake5 (by omega) hsupp hcl
  show strippedModule words = some (res.2.take res.1)
  unfold strippedModule
  have hfuel : sh.instructions.length < words.length + 1 := by
    rcases chainFrom_bound sh.instructions 5 hchain with hnil | hle
    · rw [hnil]
      simp
    · omega
  rw [stripIgnoredLoop_of_chain sh.instructions (words.length + 1) 5 hchain
    hfuel]
  show some (words.take 5 ++ stripFromInstrs words sh.instructions) =
    some (res.2.take res.1)
  rw [hr2, hr1]
  have hlen2 : 5 + (stripFromInstrs words sh.instructions).length =
      (words.take 5 ++ stripFromInstrs words sh.instructions).length := by
    rw [List.length_append, htake5]
  rw [hlen2, List.take_left]

set_option maxRecDepth 40000 in
/-- Witness for claim C1: on the metadata-only module the optimizer output is
exactly the module minus its OpName instruction. -/
theorem C1_run_strips_exactly_witness :
    strippedModule modNoOp = some outNoOp :=
  C1_run_strips_exactly modNoOp shNoOp outNoOp rfl (by decide) rfl

-- Sentinel evolution: the degree cascades only overwrite words with the
-- deletion sentinel, so a freshly patched slot either survives verbatim or
-- is deleted.

/-- The second buffer is the first with some positions overwritten by the
deletion sentinel. -/
def SentinelStep (a b : List Nat) : Prop :=
  b.length = a.length ∧ ∀ p, b.get? p = a.get? p ∨ b.get? p = some U32MAX

theorem sentinelStep_refl (a : List Nat) : SentinelStep a a :=
  ⟨rfl, fun _ => Or.inl rfl⟩

theorem sentinelStep_trans {a b c : List Nat} (h1 : SentinelStep a b)
    (h2 : SentinelStep b c) : SentinelStep a c := by
  refine ⟨h2.1.trans h1.1, fun p => ?_⟩
  rcases h2.2 p with h | h
  · rw [h]
    exact h1.2 p
  · exact Or.inr h

theorem wSet_sentinelStep {a b : List Nat} {i : Nat}
    (h : wSet a i U32MAX = .ok b) : SentinelStep a b := by
  obtain ⟨hlt, hb⟩ := wSet_eq_ok h
  subst hb
  refine ⟨by simp, fun p => ?_⟩
  by_cases hp : i = p
  · subst hp
    exact Or.inr (by rw [List.get?_set_eq_of_lt _ hlt])
  · exact Or.inl (List.get?_set_ne _ _ hp)

theorem sentinelN_sentinelStep :
    ∀ (n : Nat) (a : List Nat) (i : Nat) (b : List Nat),
      sentinelN a i n = .ok b → SentinelStep a b := by
  intro n
  induction n with
  | zero =>
    intro a i b h
    cases h
    exact sentinelStep_refl a
  | succ m ih =>
    intro a i b h
    rw [sentinelN] at h
    obtain ⟨a1, hset, h⟩ := exceptBind_ok h
    exact sentinelStep_trans (wSet_sentinelStep hset) (ih a1 (i + 1) b h)

theorem sentinelFromTo_sentinelStep {a b : List Nat} {i stop : Nat}
    (h : sentinelFromTo a i stop = .ok b) : SentinelStep a b :=
  sentinelN_sentinelStep _ a i b h

theorem eliminate_sentinelStep {sh : Shader} {i : Nat} {c c' : Ctx}
    (h : optimizerEliminateInstruction sh i c = .ok c') :
    SentinelStep c.words c'.words := by
  unfold optimizerEliminateInstruction at h
  obtain ⟨ins, hins, h⟩ := exceptBind_ok h
  obtain ⟨w, hw, h⟩ := exceptBind_ok h
  obtain ⟨words, hsen, h⟩ := exceptBind_ok h
  cases h
  exact sentinelN_sentinelStep _ _ _ _ hsen

theorem reduceResultDegrees_sentinelStep {sh : Shader} :
    ∀ (fuel : Nat) (stack : List Nat) (c c' : Ctx),
      optimizerReduceResultDegrees sh fuel c stack = .ok c' →
      SentinelStep c.words c'.words := by
  intro fuel
  induction fuel with
  | zero =>
    intro stack c c' h
    exact absurd h (by simp [optimizerReduceResultDegrees])
  | succ f ih =>
    intro stack c c' h
    cases stack with
    | nil =>
      rw [optimizerReduceResultDegrees.eq_def] at h
      simp only [] at h
      cases h
      exact sentinelStep_refl _
    | cons resultId stack =>
      rw [optimizerReduceResultDegrees.eq_def] at h
      simp only [] at h
      split at h
      · exact absurd h (by simp [throw, throwThe, MonadExceptOf.throw])
      · obtain ⟨ins, hins, h⟩ := exceptBind_ok h
        obtain ⟨w, hw, h⟩ := exceptBind_ok h
        split at h
        · exact ih stack c c' h
        · obtain ⟨d, hd, h⟩ := exceptBind_ok h
          obtain ⟨outDeg, hod, h⟩ := exceptBind_ok h
          split at h
          · obtain ⟨ops, hops, h⟩ := exceptBind_ok h
            obtain ⟨c1, helim, h⟩ := exceptBind_ok h
            have h1 := eliminate_sentinelStep helim
            exact sentinelStep_trans h1 (ih _ c1 c' h)
          · exact ih stack { c with outDeg := outDeg } c' h

theorem sentinelN_outside :
    ∀ (n : Nat) (a : List Nat) (i : Nat) (b : List Nat),
      sentinelN a i n = .ok b →
      ∀ p, p < i ∨ i + n ≤ p → b.get? p = a.get? p := by
  intro n
  induction n with
  | zero =>
    intro a i b h p _
    cases h
    rfl
  | succ m ih =>
    intro a i b h p hp
    rw [sentinelN] at h
    obtain ⟨a1, hset, h⟩ := exceptBind_ok h
    obtain ⟨hlt, ha1⟩ := wSet_eq_ok hset
    have h2 := ih a1 (i + 1) b h p (by omega)
    rw [h2, ha1]
    exact List.get?_set_ne _ _ (by omega)

theorem sentinelN_inside :
    ∀ (n : Nat) (a : List Nat) (i : Nat) (b : List Nat),
      sentinelN a i n = .ok b →
      ∀ p, i ≤ p → p < i + n → b.get? p = some U32MAX := by
  intro n
  induction n with
  | zero =>
    intro a i b h p h1 h2
    omega
  | succ m ih =>
    intro a i b h p h1 h2
    rw [sentinelN] at h
    obtain ⟨a1, hset, h⟩ := exceptBind_ok h
    obtain ⟨hlt, ha1⟩ := wSet_eq_ok hset
    by_cases hp : p = i
    · subst hp
      rw [sentinelN_outside m a1 (p + 1) b h p (by omega), ha1]
      rw [List.get?_set_eq_of_lt _ hlt]
    · exact ih a1 (i + 1) b h p (by omega) (by omega)

theorem sentinelFromTo_outside {a b : List Nat} {s t : Nat}
    (h : sentinelFromTo a s t = .ok b) :
    ∀ p, p < s ∨ t ≤ p → b.get? p = a.get? p := by
  intro p hp
  exact sentinelN_outside _ a s b h p (by omega)

theorem sentinelFromTo_inside {a b : List Nat} {s t : Nat}
    (h : sentinelFromTo a s t = .ok b) :
    ∀ p, s ≤ p → p < t → b.get? p = some U32MAX := by
  intro p h1 h2
  exact sentinelN_inside _ a s b h p h1 (by omega)

theorem sentinelStep_getD {a b : List Nat} (hs : SentinelStep a b) {p v : Nat}
    (h : a.get? p = some v) : b.getD p 0 = v ∨ b.getD p 0 = U32MAX := by
  rcases hs.2 p with hf | hf
  · left
    rw [List.getD_eq_getD_get?, hf, h]
    rfl
  · right
    rw [List.getD_eq_getD_get?, hf]
    rfl

set_option maxHeartbeats 1000000 in
/-- Claim C2 (amended): when the terminator folding step runs on a
conditional terminator whose guard resolves to a constant, an
OpBranchConditional's slot afterwards holds an OpBranch head or the deletion
sentinel, never an OpBranchConditional; an OpSwitch's slot afterwards holds
the degenerate three-word OpSwitch head whose selector is the recorded
default switch constant, unless deleted.  So folded conditional branches
never remain, but a folded OpSwitch remains with a constant selector. -/
theorem C2_folded_terminator_slot :
    ∀ (sh : Shader) (fuel i : Nat) (c c' : Ctx) (ins : Instruction) (w : Nat),
      sh.instructions.get? i = some ins →
      c.words.get? ins.wordIndex = some w →
      3 ≤ ins.wordIndex →
      1 ≤ wcOf w →
      (c.resolutions.getD (c.words.getD (ins.wordIndex + 1) 0)
        ⟨ResType.unknown, 0⟩).type = ResType.const →
      optimizerEvaluateTerminator sh fuel i c = .ok c' →
      ((opOf w = OpBranchConditional →
        c'.words.getD ins.wordIndex 0 = OpBranch + 2 * 65536 ∨
        c'.words.getD ins.wordIndex 0 = U32MAX) ∧
       (opOf w = OpSwitch →
        (c'.words.getD ins.wordIndex 0 = OpSwitch + 3 * 65536 ∨
          c'.words.getD ins.wordIndex 0 = U32MAX) ∧
        (c'.words.getD (ins.wordIndex + 1) 0 =
          sh.defaultSwitchOpConstantInt ∨
          c'.words.getD (ins.wordIndex + 1) 0 = U32MAX))) := by
  intro sh fuel i c c' ins w hins hw hwi3 hwc hguard h
  unfold optimizerEvaluateTerminator at h
  obtain ⟨ins1, hins1, h⟩ := exceptBind_ok h
  have hinse : ins1 = ins := by
    have hg := instrGet_eq_ok hins1
    rw [hins] at hg
    cases hg
    rfl
  rw [hinse] at h
  obtain ⟨w1, hw1, h⟩ := exceptBind_ok h
  have hwe : w1 = w := by
    have hg := wGet_eq_ok hw1
    rw [hw] at hg
    cases hg
    rfl
  rw [hwe] at h
  obtain ⟨operatorId, hoid, h⟩ := exceptBind_ok h
  obtain ⟨opRes, hores, h⟩ := exceptBind_ok h
  have hot : opRes.type = ResType.const := by
    unfold resolGet at hores
    cases hg : c.resolutions.get? operatorId with
    | none => rw [hg] at hores; cases hores
    | some r =>
      rw [hg] at hores
      cases hores
      have hoidd : c.words.getD (ins.wordIndex + 1) 0 = operatorId :=
        getD_of_get? (wGet_eq_ok hoid)
      rw [hoidd] at hguard
      rw [List.getD_eq_getD_get?, hg] at hguard
      exact hguard
  rw [if_neg (by simp [hot])] at h
  obtain ⟨c1, hfold, h⟩ := exceptBind_ok h
  have hsen := reduceResultDegrees_sentinelStep _ _ c1 c' h
  constructor
  · intro hbc
    unfold foldTerminator at hfold
    rw [if_pos hbc] at hfold
    unfold foldBranchConditional at hfold
    obtain ⟨w2, hw2, hfold⟩ := exceptBind_ok hfold
    obtain ⟨w3, hw3, hfold⟩ := exceptBind_ok hfold
    obtain ⟨step, hstep, hfold⟩ := exceptBind_ok hfold
    obtain ⟨mw, hmw, hfold⟩ := exceptBind_ok hfold
    obtain ⟨patchStep, hpatch, hfold⟩ := exceptBind_ok hfold
    obtain ⟨b1, hset1, hfold⟩ := exceptBind_ok hfold
    obtain ⟨b2, hset2, hfold⟩ := exceptBind_ok hfold
    obtain ⟨b3, hsen2, hfold⟩ := exceptBind_ok hfold
    cases hfold
    obtain ⟨hlt1, hb1⟩ := wSet_eq_ok hset1
    obtain ⟨hlt2, hb2⟩ := wSet_eq_ok hset2
    have hpw : patchStep.1 = ins.wordIndex - 3 ∨
        patchStep.1 = ins.wordIndex := by
      unfold bcPickPatch at hpatch
      split at hpatch
      · obtain ⟨m1, hm1, hpatch⟩ := exceptBind_ok hpatch
        obtain ⟨cm, hcm, hpatch⟩ := exceptBind_ok hpatch
        cases hpatch
        exact Or.inl rfl
      · cases hpatch
        exact Or.inr rfl
    have hb3wi : b3.get? ins.wordIndex = some (OpBranch + 2 * 65536) ∨
        b3.get? ins.wordIndex = some U32MAX := by
      rcases hpw with hpw | hpw
      · right
        rw [hpw] at hsen2
        exact sentinelFromTo_inside hsen2 ins.wordIndex (by omega) (by omega)
      · left
        rw [sentinelFromTo_outside hsen2 ins.wordIndex
          (Or.inl (by rw [hpw]; omega))]
        rw [hb2, hpw]
        rw [List.get?_set_ne _ _ (by omega)]
        rw [hb1, hpw]
        rw [List.get?_set_eq_of_lt _ (by rwa [hpw] at hlt1)]
    rcases hb3wi with hv | hv
    · exact sentinelStep_getD hsen hv
    · rcases sentinelStep_getD hsen hv with h1 | h1
      · exact Or.inr h1
      · exact Or.inr h1
  · intro hsw
    have hnb : ¬ (opOf w = OpBranchConditional) := by
      rw [hsw]
      decide
    unfold foldTerminator at hfold
    rw [if_neg hnb, if_pos hsw] at hfold
    unfold foldSwitch at hfold
    obtain ⟨scan, hscan, hfold⟩ := exceptBind_ok hfold
    obtain ⟨d2, hd2, hfold⟩ := exceptBind_ok hfold
    obtain ⟨step, hstep, hfold⟩ := exceptBind_ok hfold
    obtain ⟨b1, hset1, hfold⟩ := exceptBind_ok hfold
    obtain ⟨b2, hset2, hfold⟩ := exceptBind_ok hfold
    obtain ⟨b3, hset3, hfold⟩ := exceptBind_ok hfold
    split at hfold
    · exact absurd hfold (by simp [throw, throwThe, MonadExceptOf.throw])
    · obtain ⟨d, hd, hfold⟩ := exceptBind_ok hfold
      obtain ⟨outDeg, hodset, hfold⟩ := exceptBind_ok hfold
      obtain ⟨b4, hsen4, hfold⟩ := exceptBind_ok hfold
      cases hfold
      obtain ⟨hlt1, hb1⟩ := wSet_eq_ok hset1
      obtain ⟨hlt2, hb2⟩ := wSet_eq_ok hset2
      obtain ⟨hlt3, hb3⟩ := wSet_eq_ok hset3
      have hb4wi : b4.get? ins.wordIndex = some (OpSwitch + 3 * 65536) := by
        rw [sentinelFromTo_outside hsen4 ins.wordIndex (Or.inl (by omega))]
        rw [hb3, List.get?_set_ne _ _ (by omega)]
        rw [hb2, List.get?_set_ne _ _ (by omega)]
        rw [hb1, List.get?_set_eq_of_lt _ hlt1]
      have hb4wi1 : b4.get? (ins.wordIndex + 1) =
          some sh.defaultSwitchOpConstantInt := by
        rw [sentinelFromTo_outside hsen4 (ins.wordIndex + 1)
          (Or.inl (by omega))]
        rw [hb3, List.get?_set_ne _ _ (by omega)]
        rw [hb2, List.get?_set_eq_of_lt _ hlt2]
      exact ⟨sentinelStep_getD hsen hb4wi, sentinelStep_getD hsen hb4wi1⟩

set_option maxRecDepth 40000 in
/-- Witness for claim C2: folding the constant-guarded OpSwitch of the
switch module leaves the degenerate OpSwitch head at its slot with the
default switch constant as selector. -/
theorem C2_folded_terminator_slot_witness :
    (opOf 327931 = OpBranchConditional →
      ctxFoldSwitchOut.words.getD 15 0 = OpBranch + 2 * 65536 ∨
      ctxFoldSwitchOut.words.getD 15 0 = U32MAX) ∧
    (opOf 327931 = OpSwitch →
      (ctxFoldSwitchOut.words.getD 15 0 = OpSwitch + 3 * 65536 ∨
        ctxFoldSwitchOut.words.getD 15 0 = U32MAX) ∧
      (ctxFoldSwitchOut.words.getD 16 0 =
        shFoldSwitchParsed.defaultSwitchOpConstantInt ∨
        ctxFoldSwitchOut.words.getD 16 0 = U32MAX)) :=
  C2_folded_terminator_slot shFoldSwitchParsed
    (bigCascadeFuel shFoldSwitchParsed) 3 ctxFoldSwitch ctxFoldSwitchOut
    ⟨15, 3⟩ 327931 rfl rfl (by decide) (by decide) rfl rfl

/-- Claim C10: Shader::empty returns false for every shader, including a
default-constructed one and one whose parse failed; the implementation
returns the literal false. -/
theorem C10_empty_always_false (s : Shader) : s.empty = false := rfl

/-- Claim C3 (code bug): on an OpUDiv whose operands are constants with a
zero divisor, the specification requires the implementation not to trap and
to mark the result Variable; the source divides the 32-bit values without
any guard, which is undefined behaviour (a trap on common targets).  The
embedded run on the failing module aborts with the division-by-zero marker
instead of succeeding. -/
theorem C3_udiv_by_zero_traps :
    (Shader.parse modDivZero).isOk = true ∧
    (do let sh ← Shader.parse modDivZero; Optimizer.run sh [] ⟨true⟩) =
      Except.error Err.divByZero :=
  ⟨rfl, rfl⟩

set_option maxRecDepth 40000 in
/-- Claim C5 (code bug): the specification promises that parse terminates on
every input and reports ShortInput for a zero word count; the parser's walk
advances by the word count with no check, so it never leaves an instruction
whose word-count field is zero: for every fuel the embedded walk of
modZeroCount is still running. -/
theorem C5_zero_wordcount_diverges :
    ∀ fuel st, parseWordsLoop modZeroCount fuel 5 st = Except.error Err.noFuel := by
  intro fuel
  induction fuel with
  | zero => intro st; rfl
  | succ n ih => intro st; exact ih _

/-- Claim C6 (code bug): modules containing OpSpecConstantTrue are rejected
by parse because SpvIsSupported omits opcode 48, even though the
specialization patch pass explicitly handles it: on a hand-built state it
rewrites the opcode to OpConstantFalse for value 0 and OpConstantTrue for a
nonzero value, preserving the word count, and deletes the SpecId
decoration. -/
theorem C6_spec_constant_true_unsupported :
    SpvIsSupported OpSpecConstantTrue = false ∧
    Shader.parse modSpecTrue = Except.error Err.unsupportedOpcode ∧
    (optimizerPatchSpecializationConstants patchShader [⟨7, [0]⟩] patchCtx).map
        (fun c => c.words) =
      Except.ok [0, 0, 0, 0, 0, 42 + 3 * 65536, 1, 2,
        U32MAX, U32MAX, U32MAX, U32MAX] ∧
    (optimizerPatchSpecializationConstants patchShader [⟨7, [9]⟩] patchCtx).map
        (fun c => c.words) =
      Except.ok [0, 0, 0, 0, 0, 41 + 3 * 65536, 1, 2,
        U32MAX, U32MAX, U32MAX, U32MAX] :=
  ⟨rfl, rfl, rfl, rfl⟩

set_option maxRecDepth 40000 in
/-- Claim C9 (code bug): the output header is not always byte-identical to
the input header.  On modHeaderClobber the run succeeds and rewrites header
words three and four (id bound and schema): the conditional branch at word 6
reads word 3 as the opcode of the previous instruction, the id bound 247
decodes as OpSelectionMerge, and the unconditional branch is patched over the
header. -/
theorem C9_header_not_preserved :
    (do let sh ← Shader.parse modHeaderClobber; Optimizer.run sh [] ⟨true⟩) =
      Except.ok headerClobberOut ∧
    headerClobberOut.take 5 ≠ modHeaderClobber.take 5 ∧
    headerClobberOut.length ≤ modHeaderClobber.length :=
  ⟨rfl, by decide, by decide⟩

set_option maxRecDepth 40000 in
/-- Claim C1 counterexample: a successfully parsed module with no droppable
metadata (its stripped form is itself) on which the run with no overrides
and default options returns a different byte stream: the constant-guarded
conditional branch is folded and dead blocks are removed. -/
theorem C1_run_not_identity_counterexample :
    (do let sh ← Shader.parse modFoldBranch; Optimizer.run sh [] ⟨true⟩) =
      Except.ok foldBranchOut ∧
    strippedModule modFoldBranch = some modFoldBranch ∧
    foldBranchOut ≠ modFoldBranch :=
  ⟨rfl, by decide, by decide⟩

set_option maxRecDepth 40000 in
/-- Claim C2 counterexample: after a successful run, the output of
modFoldSwitch still contains an OpSwitch (words 15..17 of the output) whose
selector is result id 2, resolved by the run as the compile-time constant 7;
its producer, OpConstant %1 7 of the 32-bit integer type %1, survives at
output words 9..12. -/
theorem C2_degenerate_switch_counterexample :
    (do let sh ← Shader.parse modFoldSwitch; Optimizer.run sh [] ⟨true⟩) =
      Except.ok foldSwitchOut ∧
    foldSwitchOut.get? 15 = some (OpSwitch + 3 * 65536) ∧
    foldSwitchOut.get? 16 = some 2 ∧
    (do let sh ← Shader.parse modFoldSwitch
        let r ← optimizerRunWithCtx sh [] ⟨true⟩
        pure (r.1.resolutions.get? 2)) =
      Except.ok (some ⟨ResType.const, 7⟩) :=
  ⟨rfl, rfl, rfl, rfl⟩

/-- Claim C4 counterexample: parse succeeds on modForwardRef although its
first instruction (OpBranch at word 5) references label id 1 whose producer
is the later instruction 1 (the OpLabel at word 7). -/
theorem C4_forward_reference_accepted :
    (Shader.parse modForwardRef).isOk = true ∧
    modForwardRef.getD 6 0 = 1 ∧
    (Shader.parse modForwardRef).map (fun sh => sh.instructions.map
      (fun i => i.wordIndex)) = Except.ok [5, 7] ∧
    (Shader.parse modForwardRef).map (fun sh => sh.results.getD 1 ⟨U32MAX⟩) =
      Except.ok ⟨1⟩ :=
  ⟨rfl, rfl, rfl, rfl⟩

/-- Claim C8 counterexample: parse succeeds on modDupResult although both of
its instructions produce result id 1; the result table keeps the last
producer (instruction 1). -/
theorem C8_duplicate_result_accepted :
    producesId modDupResult 5 1 = true ∧
    producesId modDupResult 7 1 = true ∧
    (Shader.parse modDupResult).isOk = true ∧
    (Shader.parse modDupResult).map (fun sh => sh.results.getD 1 ⟨U32MAX⟩) =
      Except.ok ⟨1⟩ :=
  ⟨rfl, rfl, rfl, rfl⟩

/-- Claim C7 counterexample: modSwitch64 contains an OpSwitch and no
OpConstant of 32-bit integer type, yet parse succeeds, because the parser
accepts an integer constant of any width (here 64 bits) as the default
switch constant. -/
theorem C7_switch_with_64bit_constant_parses :
    moduleContainsOpSwitch modSwitch64 = true ∧
    moduleHas32BitIntConstant modSwitch64 = false ∧
    moduleHasIntTypedConstant modSwitch64 = true ∧
    (Shader.parse modSwitch64).isOk = true :=
  ⟨by decide, by decide, by decide, rfl⟩

end ReSpv
